import Mathlib

/-!
# resource-monitor: a shallow embedding of the telemetry sampling engine

Go strings are modelled as `List Char` (a valid UTF-8 Go string read as its
sequence of code points; every delimiter the program looks for is ASCII).
The functions of the Go standard library the program calls (`strings`,
`path/filepath`, `strconv`, `float64` arithmetic) are modelled in the
namespace `Go`, following their documented behaviour on Linux.
The program's own functions keep their names: `psiFilePath`, `parsePSILine`
(package `pseudo`), the tick body of `SpawnNetWatcher`, and the line loop of
`SpawnPerfMonitor` (package `perf`).
-/

namespace Go

/-! ## package strings -/

/-- The predicate `unicode.IsSpace`: the code points with the White_Space property. -/
def isSpace (c : Char) : Bool :=
  let n := c.toNat
  (9 ≤ n && n ≤ 13) || n == 32 || n == 0x85 || n == 0xA0 || n == 0x1680
    || (0x2000 ≤ n && n ≤ 0x200a) || n == 0x2028 || n == 0x2029 || n == 0x202f
    || n == 0x205f || n == 0x3000

/-- The function `strings.TrimSpace`: drop the leading and the trailing white space. -/
def TrimSpace (s : List Char) : List Char :=
  ((s.dropWhile isSpace).reverse.dropWhile isSpace).reverse

/-- The loop of `strings.Fields`: `cur` is the field being read, in reverse. -/
def fieldsAux : List Char → List Char → List (List Char)
  | [], cur => if cur.isEmpty then [] else [cur.reverse]
  | c :: cs, cur =>
    if isSpace c then
      (if cur.isEmpty then fieldsAux cs [] else cur.reverse :: fieldsAux cs [])
    else fieldsAux cs (c :: cur)

/-- The function `strings.Fields`: the maximal runs of non-space characters. -/
def Fields (s : List Char) : List (List Char) := fieldsAux s []

/-- The loop of `strings.Split` for a one-character separator. -/
def splitAux (sep : Char) : List Char → List Char → List (List Char)
  | [], cur => [cur.reverse]
  | c :: cs, cur =>
    if c = sep then cur.reverse :: splitAux sep cs [] else splitAux sep cs (c :: cur)

/-- The function `strings.Split(s, sep)` for a separator of one character:
always at least one piece. -/
def Split (s : List Char) (sep : Char) : List (List Char) := splitAux sep s []

/-- The function `strings.SplitN(s, sep, 2)` for a separator of one character:
cut at the first separator, if there is one. -/
def SplitN2 (s : List Char) (sep : Char) : List (List Char) :=
  if sep ∈ s then [s.takeWhile (fun c => c != sep), (s.dropWhile (fun c => c != sep)).drop 1]
  else [s]

/-- The function `strings.HasPrefix`. -/
def HasPrefix (s pre : List Char) : Bool := pre.isPrefixOf s

/-- The function `strings.Contains`: `sub` occurs in `s` as a contiguous run. -/
def Contains : List Char → List Char → Bool
  | [], sub => sub.isEmpty
  | c :: cs, sub => sub.isPrefixOf (c :: cs) || Contains cs sub

/-- The function `strings.Join`. -/
def JoinStr (elems : List (List Char)) (sep : List Char) : List Char :=
  sep.intercalate elems

/-! ## package path/filepath (Unix) -/

/-- The backtracking loop of `filepath.Clean` on a `..` element: starting from
index `w`, move left while `w > dotdot` and the byte at `w` is not a separator. -/
def cleanBack (buf : List Char) (dotdot : Nat) : Nat → Nat
  | 0 => 0
  | w + 1 =>
    if w + 1 > dotdot ∧ buf.get? (w + 1) ≠ some '/' then cleanBack buf dotdot w else w + 1

/-- The main loop of `filepath.Clean`: `path` is what is left to read, `out`
the bytes written so far (`out.w` is `out.length`), `dotdot` the index where
`..` must stop. Every iteration reads at least one byte, so `fuel` bounds the
iterations when it is at least the length of `path`. -/
def cleanLoop (rooted : Bool) : Nat → List Char → List Char → Nat → List Char
  | 0, _, out, _ => out
  | _ + 1, [], out, _ => out
  | fuel + 1, c :: rest, out, dotdot =>
    if c = '/' then
      -- empty path element
      cleanLoop rooted fuel rest out dotdot
    else if c = '.' ∧ (rest = [] ∨ rest.head? = some '/') then
      -- . element
      cleanLoop rooted fuel rest out dotdot
    else if c = '.' ∧ rest.head? = some '.' ∧
        (rest.tail = [] ∨ rest.tail.head? = some '/') then
      -- .. element: remove to last separator
      if out.length > dotdot then
        cleanLoop rooted fuel rest.tail
          (out.take (cleanBack out dotdot (out.length - 1))) dotdot
      else if !rooted then
        let out1 := (if out.length > 0 then out ++ ['/'] else out) ++ ['.', '.']
        cleanLoop rooted fuel rest.tail out1 out1.length
      else cleanLoop rooted fuel rest.tail out dotdot
    else
      -- real path element: add slash if needed, copy element
      let out1 :=
        if (rooted && out.length != 1) || (!rooted && out.length != 0) then out ++ ['/']
        else out
      cleanLoop rooted fuel ((c :: rest).dropWhile (fun x => x != '/'))
        (out1 ++ (c :: rest).takeWhile (fun x => x != '/')) dotdot

/-- The function `filepath.Clean` on Unix (no volume name). -/
def Clean (path : List Char) : List Char :=
  if path = [] then ['.']
  else
    let rooted := path.head? = some '/'
    let out :=
      if rooted then cleanLoop true path.length (path.drop 1) ['/'] 1
      else cleanLoop false path.length path [] 0
    if out = [] then ['.'] else out

/-- The function `filepath.Join`: the elements from the first non-empty one on,
joined by the separator and cleaned; the empty string when all are empty. -/
def Join : List (List Char) → List Char
  | [] => []
  | e :: es => if e ≠ [] then Clean (JoinStr (e :: es) ['/']) else Join es

end Go


namespace Go

/-! ## float64: IEEE 754 binary64 with round-to-nearest-even -/

/-- A `float64` value. A finite value is `(-1)^neg * m * 2^e`, kept in the
canonical form of binary64: `m < 2^53`, `-1074 ≤ e ≤ 971`, and `2^52 ≤ m`
unless `e = -1074` (subnormals and the two zeros, `m = 0`). -/
inductive F64
  | fin (neg : Bool) (m : Nat) (e : Int)
  | inf (neg : Bool)
  | nan
deriving DecidableEq, Repr

/-- The loop of `bitLen`. -/
def bitLenAux : Nat → Nat → Nat
  | 0, _ => 0
  | fuel + 1, n => if n = 0 then 0 else bitLenAux fuel (n / 2) + 1

/-- The number of binary digits of `n` (as `bits.Len`): `0` for `0`. -/
def bitLen (n : Nat) : Nat := bitLenAux n n

/-- The numerator of `n / 2^q` written as a fraction of naturals. -/
def scaleNum (n : Nat) (q : Int) : Nat := if 0 ≤ q then n else n * 2 ^ (-q).toNat

/-- The denominator of `(n / d) / 2^q` written as a fraction of naturals. -/
def scaleDen (d : Nat) (q : Int) : Nat := if 0 ≤ q then d * 2 ^ q.toNat else d

/-- The integer nearest to `num / den`, ties to the even one. -/
def rne (num den : Nat) : Nat :=
  let fl := num / den
  let r := num % den
  if 2 * r < den then fl
  else if den < 2 * r then fl + 1
  else if fl % 2 = 0 then fl else fl + 1

/-- The exponent of the leading bit of the positive fraction `n / d`:
the `e` with `2^e ≤ n / d < 2^(e+1)`. -/
def ilog2 (n d : Nat) : Int :=
  let k : Int := (bitLen n : Int) - (bitLen d : Int)
  if scaleDen d k ≤ scaleNum n k then k else k - 1

/-- The binary64 value nearest to `(-1)^neg * n / d` (ties to even), for
`d > 0`: the rounding every arithmetic operation and conversion ends with.
The quantum is `2^q` with `q = max (e - 52) (-1074)`; a result of `2^1024`
or more overflows to an infinity. -/
def F64.round (neg : Bool) (n d : Nat) : F64 :=
  if n = 0 then .fin neg 0 (-1074)
  else
    let q : Int := max (ilog2 n d - 52) (-1074)
    let m := rne (scaleNum n q) (scaleDen d q)
    let m1 := if m = 2 ^ 53 then 2 ^ 52 else m
    let q1 := if m = 2 ^ 53 then q + 1 else q
    if 971 < q1 then .inf neg else .fin neg m1 q1

/-- The conversion `float64(n)` of an unsigned integer. -/
def F64.ofNat (n : Nat) : F64 := F64.round false n 1

/-- The conversion `float64(i)` of a signed integer. -/
def F64.ofInt (i : Int) : F64 := F64.round (decide (i < 0)) i.natAbs 1

/-- The constant `0.0`. -/
def F64.zero : F64 := .fin false 0 (-1074)

/-- Negation. -/
def F64.neg : F64 → F64
  | .fin s m e => .fin (!s) m e
  | .inf s => .inf (!s)
  | .nan => .nan

/-- The integer `±m * 2^(e - e0)` of a finite value, for `e0 ≤ e`. -/
def signedAt (s : Bool) (m : Nat) (e e0 : Int) : Int :=
  (if s then -1 else 1) * ((m * 2 ^ (e - e0).toNat : Nat) : Int)

/-- Addition `x + y`. -/
def F64.add : F64 → F64 → F64
  | .nan, _ => .nan
  | _, .nan => .nan
  | .inf a, .inf b => if a = b then .inf a else .nan
  | .inf a, .fin _ _ _ => .inf a
  | .fin _ _ _, .inf b => .inf b
  | .fin s1 m1 e1, .fin s2 m2 e2 =>
    let e0 := min e1 e2
    let t : Int := signedAt s1 m1 e1 e0 + signedAt s2 m2 e2 e0
    if t = 0 then .fin (s1 && s2) 0 (-1074)
    else F64.round (decide (t < 0)) (scaleNum t.natAbs (-e0)) (scaleDen 1 (-e0))

/-- Subtraction `x - y`. -/
def F64.sub (x y : F64) : F64 := F64.add x (F64.neg y)

/-- Multiplication `x * y`. -/
def F64.mul : F64 → F64 → F64
  | .nan, _ => .nan
  | _, .nan => .nan
  | .inf a, .inf b => .inf (xor a b)
  | .inf a, .fin s m _ => if m = 0 then .nan else .inf (xor a s)
  | .fin s m _, .inf b => if m = 0 then .nan else .inf (xor s b)
  | .fin s1 m1 e1, .fin s2 m2 e2 =>
    F64.round (xor s1 s2) (scaleNum (m1 * m2) (-(e1 + e2))) (scaleDen 1 (-(e1 + e2)))

/-- Division `x / y`. -/
def F64.div : F64 → F64 → F64
  | .nan, _ => .nan
  | _, .nan => .nan
  | .inf _, .inf _ => .nan
  | .inf a, .fin s _ _ => .inf (xor a s)
  | .fin s _ _, .inf b => .fin (xor s b) 0 (-1074)
  | .fin s1 m1 e1, .fin s2 m2 e2 =>
    if m2 = 0 then (if m1 = 0 then .nan else .inf (xor s1 s2))
    else F64.round (xor s1 s2) (scaleNum m1 (e2 - e1)) (scaleDen m2 (e2 - e1))

/-- The comparison `x < y` (false when either side is NaN). -/
def F64.lt : F64 → F64 → Bool
  | .nan, _ => false
  | _, .nan => false
  | .inf a, .inf b => a && !b
  | .inf a, .fin _ _ _ => a
  | .fin _ _ _, .inf b => !b
  | .fin s1 m1 e1, .fin s2 m2 e2 =>
    decide (signedAt s1 m1 e1 (min e1 e2) < signedAt s2 m2 e2 (min e1 e2))

/-- The comparison `x ≤ y` (false when either side is NaN). -/
def F64.le : F64 → F64 → Bool
  | .nan, _ => false
  | _, .nan => false
  | .inf a, .inf b => a || !b
  | .inf a, .fin _ _ _ => a
  | .fin _ _ _, .inf b => !b
  | .fin s1 m1 e1, .fin s2 m2 e2 =>
    decide (signedAt s1 m1 e1 (min e1 e2) ≤ signedAt s2 m2 e2 (min e1 e2))

/-- The integer part of a value that `uint64` can hold: the value truncated
towards zero when that lies in `[0, 2^64)`, nothing otherwise. -/
def F64.trunc? : F64 → Option Nat
  | .fin s m e =>
    let t := scaleNum m (-e) / scaleDen 1 (-e)
    if t = 0 then some 0 else if s ∨ 2 ^ 64 ≤ t then none else some t
  | _ => none

/-- The conversion `uint64(x)`: truncation towards zero. When the truncated
value does not fit, Go leaves the result to the implementation; `platform`
stands for what the target machine yields then. -/
def F64.toUint64 (platform : F64 → Nat) (x : F64) : Nat :=
  match F64.trunc? x with
  | some t => t
  | none => platform x % 2 ^ 64

end Go

namespace Go

/-! ## package strconv -/

/-- The two kinds of `*strconv.NumError` the parsers return. -/
inductive NumError
  | ErrSyntax
  | ErrRange
deriving DecidableEq, Repr

/-- The test `'0' <= c && c <= '9'`. -/
def isDigit (c : Char) : Bool := 48 ≤ c.toNat && c.toNat ≤ 57

/-- The value `c - '0'` of a decimal digit. -/
def digitVal (c : Char) : Nat := c.toNat - 48

/-- The loop of `strconv.ParseUint(s, 10, 64)` over the bytes of `s`, with
`n` the value read so far: `cutoff` is `maxUint64/10 + 1`. -/
def parseUintLoop : List Char → Nat → Nat × Option NumError
  | [], n => (n, none)
  | c :: cs, n =>
    if isDigit c then
      if 2 ^ 64 / 10 + 1 ≤ n then (2 ^ 64 - 1, some .ErrRange)
      else
        let n10 := (n * 10) % 2 ^ 64
        let n1 := (n10 + digitVal c) % 2 ^ 64
        if n1 < n10 ∨ 2 ^ 64 - 1 < n1 then (2 ^ 64 - 1, some .ErrRange)
        else parseUintLoop cs n1
    else (0, some .ErrSyntax)

/-- The function `strconv.ParseUint(s, 10, 64)`: the value and the error.
On a syntax error the value is 0; on a range error it is `maxUint64`. -/
def ParseUint (s : List Char) : Nat × Option NumError :=
  if s = [] then (0, some .ErrSyntax) else parseUintLoop s 0

/-- The letter test `'a' <= lower(c) && lower(c) <= 'f'` of a hexadecimal digit. -/
def isHexLetter (c : Char) : Bool :=
  (97 ≤ c.toNat && c.toNat ≤ 102) || (65 ≤ c.toNat && c.toNat ≤ 70)

/-- The value `lower(c) - 'a' + 10` of a hexadecimal letter. -/
def hexLetterVal (c : Char) : Nat := (if c.toNat < 97 then c.toNat + 32 else c.toNat) - 97 + 10

/-- The ASCII lower-casing of `commonPrefixLenIgnoreCase`. -/
def lowerASCII (c : Char) : Char :=
  if 65 ≤ c.toNat ∧ c.toNat ≤ 90 then Char.ofNat (c.toNat + 32) else c

/-- The function `commonPrefixLenIgnoreCase(s, prefix)`; `pre` is in lower case. -/
def commonPrefixLenIgnoreCase : List Char → List Char → Nat
  | c :: cs, p :: ps => if lowerASCII c = p then commonPrefixLenIgnoreCase cs ps + 1 else 0
  | _, _ => 0

/-- The function `special`: an optionally signed infinity or a NaN at the
start of `s`, with the number of bytes read. -/
def special (s : List Char) : Option (F64 × Nat) :=
  let inf := fun (neg : Bool) (nsign : Nat) (t : List Char) =>
    let n := commonPrefixLenIgnoreCase t "infinity".toList
    let n1 := if 3 < n ∧ n < 8 then 3 else n
    if n1 = 3 ∨ n1 = 8 then some (F64.inf neg, nsign + n1) else none
  match s with
  | [] => none
  | c :: t =>
    if c = '+' then inf false 1 t
    else if c = '-' then inf true 1 t
    else if c = 'i' ∨ c = 'I' then inf false 0 (c :: t)
    else if c = 'n' ∨ c = 'N' then
      (if commonPrefixLenIgnoreCase (c :: t) "nan".toList = 3 then some (F64.nan, 3) else none)
    else none

/-- The state of the digit loop of `readFloat`. Go keeps the first 19 digits
of the mantissa and a flag for the rest; the model keeps every digit, so that
`mant` with `nd` and `dp` is the exact value read. -/
structure Digits where
  mant : Nat
  nd : Int
  dp : Int
  sawdot : Bool
  sawdigits : Bool
  underscores : Bool
deriving DecidableEq, Repr

/-- The digit loop of `readFloat` in base 10 or 16; returns the unread rest. -/
def readDigits (base : Nat) : List Char → Digits → Digits × List Char
  | [], st => (st, [])
  | c :: cs, st =>
    if c = '_' then readDigits base cs { st with underscores := true }
    else if c = '.' then
      if st.sawdot then (st, c :: cs)
      else readDigits base cs { st with sawdot := true, dp := st.nd }
    else if isDigit c then
      if c = '0' ∧ st.nd = 0 then
        readDigits base cs { st with sawdigits := true, dp := st.dp - 1 }
      else
        readDigits base cs
          { st with sawdigits := true, nd := st.nd + 1, mant := st.mant * base + digitVal c }
    else if base = 16 ∧ isHexLetter c then
      readDigits base cs
        { st with sawdigits := true, nd := st.nd + 1, mant := st.mant * 16 + hexLetterVal c }
    else (st, c :: cs)

/-- The exponent loop of `readFloat`: the exponent stops growing at 10000. -/
def readExpDigits : List Char → Nat → Bool → Nat × Bool × List Char
  | [], e, u => (e, u, [])
  | c :: cs, e, u =>
    if c = '_' then readExpDigits cs e true
    else if isDigit c then readExpDigits cs (if e < 10000 then e * 10 + digitVal c else e) u
    else (e, u, c :: cs)

/-- The loop of `underscoreOK`; `saw` is the last character class seen:
`'0'` a digit, `'_'` an underscore, `'!'` anything else, `'^'` the start. -/
def underscoreOKLoop (hex : Bool) : List Char → Char → Bool
  | [], saw => saw != '_'
  | c :: cs, saw =>
    if isDigit c || (hex && isHexLetter c) then underscoreOKLoop hex cs '0'
    else if c = '_' then (if saw != '0' then false else underscoreOKLoop hex cs '_')
    else if saw = '_' then false
    else underscoreOKLoop hex cs '!'

/-- The function `underscoreOK`: underscores only between digits, or between
a base prefix and a digit. -/
def underscoreOK (s : List Char) : Bool :=
  let s1 := match s with
    | c :: t => if c = '-' ∨ c = '+' then t else s
    | [] => s
  match s1 with
  | c0 :: x :: t =>
    if c0 = '0' ∧ (x = 'b' ∨ x = 'B' ∨ x = 'o' ∨ x = 'O' ∨ x = 'x' ∨ x = 'X') then
      underscoreOKLoop (decide (x = 'x' ∨ x = 'X')) t '0'
    else underscoreOKLoop false s1 '^'
  | _ => underscoreOKLoop false s1 '^'

/-- The test `i+2 < len(s) && s[i] == '0' && lower(s[i+1]) == 'x'` of
`readFloat`: a hexadecimal prefix followed by at least one byte. -/
def hexPrefix (s : List Char) : Bool :=
  match s with
  | c0 :: x :: _ :: _ => decide (c0 = '0' ∧ (x = 'x' ∨ x = 'X'))
  | _ => false

/-- What `readFloat` reads: the sign, the base, the mantissa and the exponent
(of 10, or of 2 for a hexadecimal literal), and the unread rest. -/
structure FloatLit where
  neg : Bool
  hex : Bool
  mant : Nat
  exp : Int
  rest : List Char
deriving DecidableEq, Repr

/-- The function `readFloat`: nothing when the text does not start with a
well-formed number. -/
def readFloat (s : List Char) : Option FloatLit :=
  match s with
  | [] => none
  | c :: t =>
    -- optional sign
    let neg := decide (c = '-')
    let s1 := if c = '+' ∨ c = '-' then t else s
    -- base prefix: at least one byte must follow it
    let hex := hexPrefix s1
    let s2 := if hex then s1.drop 2 else s1
    let st := readDigits (if hex then 16 else 10) s2 ⟨0, 0, 0, false, false, false⟩
    let d := st.1
    let s3 := st.2
    if !d.sawdigits then none
    else
      let dp0 := if d.sawdot then d.dp else d.nd
      let dp1 := if hex then dp0 * 4 else dp0
      let nd1 := if hex then d.nd * 4 else d.nd
      let finish := fun (dp : Int) (u : Bool) (rest : List Char) =>
        if u && !underscoreOK (s.take (s.length - rest.length)) then none
        else some (FloatLit.mk neg hex d.mant (dp - nd1) rest)
      match s3 with
      | [] => if hex then none else finish dp1 d.underscores []
      | x :: s4 =>
        if (if hex then x = 'p' ∨ x = 'P' else x = 'e' ∨ x = 'E') then
          match s4 with
          | [] => none
          | y :: s5 =>
            let esign : Int := if y = '-' then -1 else 1
            let s6 := if y = '+' ∨ y = '-' then s5 else s4
            match s6 with
            | [] => none
            | z :: _ =>
              if isDigit z then
                let r := readExpDigits s6 0 d.underscores
                finish (dp1 + (r.1 : Int) * esign) r.2.1 r.2.2
              else none
        else if hex then none
        else finish dp1 d.underscores s3

/-- The binary64 value nearest to what a literal denotes (ties to even):
`mant * 10^exp`, or `mant * 2^exp` for a hexadecimal literal. -/
def FloatLit.value (lit : FloatLit) : F64 :=
  if lit.hex then F64.round lit.neg (scaleNum lit.mant (-lit.exp)) (scaleDen 1 (-lit.exp))
  else if 0 ≤ lit.exp then F64.round lit.neg (lit.mant * 10 ^ lit.exp.toNat) 1
  else F64.round lit.neg lit.mant (10 ^ (-lit.exp).toNat)

/-- A rounded value with its error: a range error when it overflowed to an
infinity. -/
def withRange (f : F64) : F64 × Option NumError :=
  match f with
  | .inf _ => (f, some .ErrRange)
  | _ => (f, none)

/-- The function `strconv.ParseFloat(s, 64)`: the value and the error. The
whole of `s` must be one float literal (decimal or hexadecimal, underscores
between digits), an infinity or a NaN; the value is the nearest binary64
(ties to even). On a syntax error the value is 0; a value that overflows is
an infinity with a range error. -/
def ParseFloat (s : List Char) : F64 × Option NumError :=
  match special s with
  | some (f, n) => if n = s.length then (f, none) else (F64.zero, some .ErrSyntax)
  | none =>
    match readFloat s with
    | none => (F64.zero, some .ErrSyntax)
    | some lit =>
      if lit.rest ≠ [] then (F64.zero, some .ErrSyntax) else withRange lit.value

end Go

open Go

/-! ## package types -/

/-- The type `PSIEvent`. -/
structure PSIEvent where
  Res : List Char
  Kind : List Char
  Threshold : Int
  Window : Int
  Ts : Int
  Avg10 : F64
  Avg60 : F64
  Avg300 : F64
  TotalUs : Nat
deriving DecidableEq, Repr

/-- The type `NetSample`. -/
structure NetSample where
  Iface : List Char
  RxBps : Nat
  TxBps : Nat
  Ts : Int
deriving DecidableEq, Repr

/-- The type `MemBw`. -/
structure MemBw where
  Source : List Char
  ReadMBs : F64
  WriteMBs : F64
  TotalMBs : F64
  Ts : Int
deriving DecidableEq, Repr

/-- The type `LLCSample`. -/
structure LLCSample where
  MPKI : F64
  HitRate : F64
  Loads : Nat
  Stores : Nat
  Misses : Nat
  Instr : Nat
  Ts : Int
  Source : List Char
deriving DecidableEq, Repr

/-! ## package pseudo: the pressure-scope resolver -/

/-- The type `PSIScope`: the scope selector and the cgroup directory. -/
structure PSIScope where
  Scope : List Char
  CgPath : List Char
deriving DecidableEq, Repr

/-- The function `psiFilePath`. -/
def psiFilePath (scope : PSIScope) (res : List Char) : List Char :=
  if scope.Scope = "cgroup".toList then
    Go.Join [scope.CgPath, res ++ ".pressure".toList]
  else "/proc/pressure/".toList ++ res

/-- A path element that `filepath.Clean` keeps as it is: not empty, without a
separator, and neither `.` nor `..`. -/
def plainElem (c : List Char) : Prop :=
  c ≠ [] ∧ '/' ∉ c ∧ c ≠ ['.'] ∧ c ≠ ['.', '.']

instance : DecidablePred plainElem := fun c => by unfold plainElem; infer_instance

/-! ## package pseudo: parsing a pressure line -/

/-- The four results of `parsePSILine`. -/
structure PSILine where
  avg10 : F64
  avg60 : F64
  avg300 : F64
  totalUs : Nat
deriving DecidableEq, Repr

/-- The body of the loop of `parsePSILine`: a `key=value` token is stored in
the map, a later one overwriting an earlier one (the newest binding is first
in the list); a token without `=` is skipped. -/
def psiInsert (m : List (List Char × List Char)) (p : List Char) :
    List (List Char × List Char) :=
  match SplitN2 p '=' with
  | [k, v] => (k, v) :: m
  | _ => m

/-- The map lookup `m[k]`: the empty string for a missing key. -/
def mapGet (m : List (List Char × List Char)) (k : List Char) : List Char :=
  (m.lookup k).getD []

/-- The function `parsePSILine`. It returns nothing when the line has no
field at all: the slice `parts[1:]` is then out of range and the Go code
panics. -/
def parsePSILine (line : List Char) : Option PSILine :=
  match Fields line with
  | [] => none
  | _ :: rest =>
    let m := rest.foldl psiInsert []
    let f := fun (k : List Char) => (ParseFloat (TrimSpace (mapGet m k))).1
    let u := fun (k : List Char) => (ParseUint (TrimSpace (mapGet m k))).1
    some ⟨f "avg10".toList, f "avg60".toList, f "avg300".toList, u "total".toList⟩

/-! ## package pseudo: the network rate sampler -/

/-- The method `time.Duration.Seconds` of a duration in nanoseconds. -/
def Seconds (d : Int) : F64 :=
  F64.add (F64.ofInt (d.tdiv 1000000000))
    (F64.div (F64.ofInt (d.tmod 1000000000)) (F64.ofNat 1000000000))

/-- The method `time.Time.Sub` on two clock readings in nanoseconds: the
difference, kept within the range of `int64`. -/
def timeSub (t u : Int) : Int := max (-(2 ^ 63)) (min (2 ^ 63 - 1) (t - u))

/-- The rate computation in the tick body of `SpawnNetWatcher`: both rates
are computed under the one guard, and are 0 when it fails. -/
def netRates (platform : F64 → Nat) (rxPrev txPrev rx tx : Nat) (dt : F64) : Nat × Nat :=
  if rxPrev ≤ rx ∧ txPrev ≤ tx ∧ F64.lt F64.zero dt then
    (F64.toUint64 platform (F64.div (F64.ofNat ((rx + 2 ^ 64 - rxPrev) % 2 ^ 64)) dt),
     F64.toUint64 platform (F64.div (F64.ofNat ((tx + 2 ^ 64 - txPrev) % 2 ^ 64)) dt))
  else (0, 0)

/-- What the goroutine of `SpawnNetWatcher` keeps between ticks. -/
structure NetState where
  prevT : Int
  rxPrev : Nat
  txPrev : Nat
deriving DecidableEq, Repr

/-- One tick of `SpawnNetWatcher`: `rx` and `tx` are the counters just read,
`now` the clock in nanoseconds and `nowMS` the value of `NowMS()`. The sample
is the one the tick offers to the queue. -/
def netTick (platform : F64 → Nat) (iface : List Char) (st : NetState) (rx tx : Nat)
    (now nowMS : Int) : NetState × NetSample :=
  let dt := Seconds (timeSub now st.prevT)
  let r := netRates platform st.rxPrev st.txPrev rx tx dt
  (⟨now, rx, tx⟩, ⟨iface, r.1, r.2, nowMS⟩)

/-! ## package perf: the counter-stream synchronizer -/

/-- The events of `DefaultConfig`, in its order. -/
def DefaultConfigEvents : List (List Char) :=
  ["LLC-loads".toList, "LLC-load-misses".toList, "LLC-stores".toList,
   "LLC-store-misses".toList, "instructions".toList, "unc_m_cas_count_rd".toList,
   "unc_m_cas_count_wr".toList]

/-- The accumulators and presence flags of the goroutine of `SpawnPerfMonitor`.
The flag `haveI` of the source is `haveI_` here, `haveI` being a reserved word. -/
structure PerfState where
  loads : Nat
  lmiss : Nat
  stores : Nat
  smiss : Nat
  instr : Nat
  haveL : Bool
  haveLM : Bool
  haveS : Bool
  haveSM : Bool
  haveI_ : Bool
  rd : F64
  wr : F64
  haveRD : Bool
  haveWR : Bool
deriving DecidableEq, Repr

/-- The state the closure `reset` establishes, also the initial state. -/
def PerfState.init : PerfState :=
  ⟨0, 0, 0, 0, 0, false, false, false, false, false, F64.zero, F64.zero, false, false⟩

/-- The closure `reset`. -/
def reset (_ : PerfState) : PerfState := PerfState.init

/-- The value `sec`: `float64(cfg.Interval) / float64(time.Second)`. -/
def intervalSec (interval : Int) : F64 :=
  F64.div (F64.ofInt interval) (F64.ofInt 1000000000)

/-- The classification chain of the line loop: the first matching branch
parses the value and updates its accumulator; a value that does not parse
leaves the state as it is. -/
def classify (st : PerfState) (ev valStr : List Char) : PerfState :=
  if Contains ev "LLC-loads".toList then
    match ParseUint valStr with
    | (v, none) => { st with loads := (st.loads + v) % 2 ^ 64, haveL := true }
    | _ => st
  else if Contains ev "LLC-load-misses".toList then
    match ParseUint valStr with
    | (v, none) => { st with lmiss := (st.lmiss + v) % 2 ^ 64, haveLM := true }
    | _ => st
  else if Contains ev "LLC-stores".toList then
    match ParseUint valStr with
    | (v, none) => { st with stores := (st.stores + v) % 2 ^ 64, haveS := true }
    | _ => st
  else if Contains ev "LLC-store-misses".toList then
    match ParseUint valStr with
    | (v, none) => { st with smiss := (st.smiss + v) % 2 ^ 64, haveSM := true }
    | _ => st
  else if ev = "instructions".toList then
    match ParseUint valStr with
    | (v, none) => { st with instr := v, haveI_ := true }
    | _ => st
  else if Contains ev "cas_count_rd".toList || Contains ev "cas_count_read".toList then
    match ParseFloat valStr with
    | (v, none) => { st with rd := v, haveRD := true }
    | _ => st
  else if Contains ev "cas_count_wr".toList || Contains ev "cas_count_write".toList then
    match ParseFloat valStr with
    | (v, none) => { st with wr := v, haveWR := true }
    | _ => st
  else st

/-- The cache sample built at a flush, with `now` the value of `NowMS()`. -/
def mkLLC (st : PerfState) (now : Int) : LLCSample :=
  let totAcc := (st.loads + st.stores) % 2 ^ 64
  let totMiss := (st.lmiss + st.smiss) % 2 ^ 64
  let mpki :=
    if 0 < st.instr then F64.div (F64.mul (F64.ofNat 1000) (F64.ofNat totMiss)) (F64.ofNat st.instr)
    else F64.zero
  let hit :=
    if 0 < totAcc then F64.sub (F64.ofNat 1) (F64.div (F64.ofNat totMiss) (F64.ofNat totAcc))
    else F64.zero
  ⟨mpki, hit, st.loads, st.stores, totMiss, st.instr, now, "perf".toList⟩

/-- The memory-bandwidth sample built at a flush. -/
def mkMemBw (sec : F64) (st : PerfState) (now : Int) : MemBw :=
  let totalMBs :=
    F64.div (F64.div (F64.mul (F64.add st.rd st.wr) (F64.ofNat 64)) (F64.ofNat 1048576)) sec
  let readMBs := F64.div (F64.div (F64.mul st.rd (F64.ofNat 64)) (F64.ofNat 1048576)) sec
  let writeMBs := F64.div (F64.div (F64.mul st.wr (F64.ofNat 64)) (F64.ofNat 1048576)) sec
  ⟨"perf".toList, readMBs, writeMBs, totalMBs, now⟩

/-- What one line makes the goroutine offer to its two queues. -/
structure PerfOut where
  llc : Option LLCSample
  mem : Option MemBw
deriving DecidableEq, Repr

/-- The value column of a line: `strings.TrimSpace(cols[1])`. -/
def lineValue (text : List Char) : List Char := TrimSpace ((Split text ',').getD 1 [])

/-- The event column of a line: `strings.TrimSpace(cols[3])`. -/
def lineEvent (text : List Char) : List Char := TrimSpace ((Split text ',').getD 3 [])

/-- The two tests that make the loop skip a line (`continue`): fewer than
four columns; an empty or "not counted" value, or a `duration_time` event. -/
def skipLine (text : List Char) : Bool :=
  decide ((Split text ',').length < 4) ||
    (decide (lineValue text = []) || Contains (lineValue text) "not counted".toList
      || Contains (lineEvent text) "duration_time".toList)

/-- The flush at the end of an iteration: when the instruction count is
present, offer a cache sample if any cache counter is present, offer a
memory-bandwidth sample if both transaction counts are present, and reset. -/
def flush (sec : F64) (st1 : PerfState) (nowL nowM : Int) : PerfState × PerfOut :=
  if st1.haveI_ then
    let llc :=
      if st1.haveL || st1.haveLM || st1.haveS || st1.haveSM then some (mkLLC st1 nowL)
      else none
    let mem := if st1.haveRD && st1.haveWR then some (mkMemBw sec st1 nowM) else none
    (reset st1, ⟨llc, mem⟩)
  else (st1, ⟨none, none⟩)

/-- One iteration of the line loop of `SpawnPerfMonitor` on the line `text`;
`nowL` and `nowM` are the values `NowMS()` returns for the two samples. -/
def perfStep (sec : F64) (st : PerfState) (text : List Char) (nowL nowM : Int) :
    PerfState × PerfOut :=
  if skipLine text then (st, ⟨none, none⟩)
  else flush sec (classify st (lineEvent text) (lineValue text)) nowL nowM

/-- A line as the scanner delivers it, with the two clock readings. -/
structure PerfLine where
  text : List Char
  nowL : Int
  nowM : Int
deriving DecidableEq, Repr

/-- The line loop of `SpawnPerfMonitor` over the lines the scanner delivers:
the final state and, in order, what each line offered to the queues. -/
def perfRun (sec : F64) : PerfState → List PerfLine → PerfState × List PerfOut
  | st, [] => (st, [])
  | st, l :: ls =>
    let r := perfStep sec st l.text l.nowL l.nowM
    let rest := perfRun sec r.1 ls
    (rest.1, r.2 :: rest.2)

/-- The cache samples among the outputs, in order. -/
def llcSamples (outs : List PerfOut) : List LLCSample := outs.filterMap PerfOut.llc

/-- The memory-bandwidth samples among the outputs, in order. -/
def memSamples (outs : List PerfOut) : List MemBw := outs.filterMap PerfOut.mem

/-! ## Vocabulary of the statements -/

/-- A space-separated token: not empty and without white space. -/
def isToken (p : List Char) : Bool := !p.isEmpty && p.all (fun c => !isSpace c)

/-- A decimal numeral: one or more of the digits 0 to 9. -/
def isDecimal (s : List Char) : Bool := !s.isEmpty && s.all isDigit

/-- The number a decimal numeral denotes. -/
def decVal (s : List Char) : Nat := s.foldl (fun n c => n * 10 + digitVal c) 0

/-- A decimal fraction `ip.fp`: an integer part and a fractional part, both
decimal numerals, around a point (the form the kernel prints averages in). -/
def decimalPoint (ip fp : List Char) : List Char := ip ++ '.' :: fp

/-- The float64 nearest to the decimal fraction `ip.fp` (ties to even): the
rounding of `decVal (ip ++ fp) / 10^(length of fp)`. -/
def nearestF64 (ip fp : List Char) : F64 :=
  F64.round false (decVal (ip ++ fp)) (10 ^ fp.length)

/-- The key of a `key=value` token: what stands before its first `=`. -/
def psiKey (p : List Char) : Option (List Char) :=
  if '=' ∈ p then some (p.takeWhile (fun c => c != '=')) else none

/-- The four keys `parsePSILine` reads. -/
def psiKeys : List (List Char) :=
  ["avg10".toList, "avg60".toList, "avg300".toList, "total".toList]

/-- The token is a `key=value` token with one of the four keys. -/
def isPSIKeyed (p : List Char) : Bool :=
  match psiKey p with
  | some k => decide (k ∈ psiKeys)
  | none => false

/-- The binding a token puts into the map of `parsePSILine`, if any. -/
def kvOf (p : List Char) : Option (List Char × List Char) :=
  if '=' ∈ p then
    some (p.takeWhile (fun c => c != '='), (p.dropWhile (fun c => c != '=')).drop 1)
  else none

/-- The three keys of the averages. -/
def avgKeys : List (List Char) := ["avg10".toList, "avg60".toList, "avg300".toList]

/-- The average `parsePSILine` returned for one of the three average keys. -/
def PSILine.avg (r : PSILine) (key : List Char) : F64 :=
  if key = "avg10".toList then r.avg10
  else if key = "avg60".toList then r.avg60
  else r.avg300

/-- The string a pressure line binds to `key`: the value of the last
`key=value` token after the first field, empty when there is none. -/
def psiValue (line : List Char) (key : List Char) : List Char :=
  mapGet ((Fields line).tail.foldl psiInsert []) key

/-- The columns of a counter-sampler line around its value and its event:
the time stamp, the unit and the columns after the event. -/
structure CSVFrame where
  time : List Char
  unit : List Char
  more : List (List Char)
deriving DecidableEq, Repr

/-- No column of the frame holds a comma. -/
def CSVFrame.ok (f : CSVFrame) : Bool :=
  !f.time.contains ',' && !f.unit.contains ',' && f.more.all (fun x => !x.contains ',')

/-- A comma-separated line of the counter sampler: `time,value,unit,event`
and the further columns `more`. -/
def perfCSV (time value unit event : List Char) (more : List (List Char)) : List Char :=
  JoinStr (time :: value :: unit :: event :: more) [',']

/-- The line of the counter sampler with the given value and event in a frame. -/
def CSVFrame.line (f : CSVFrame) (value event : List Char) : List Char :=
  perfCSV f.time value f.unit event f.more

/-- The lines of one interval: one line per event of `DefaultConfig`, in its
order, with the given values. -/
def defaultInterval (time : List Char) (values : List (List Char)) : List PerfLine :=
  List.zipWith (fun ev v => ⟨perfCSV time v [] ev ["1".toList, "100.00".toList], 0, 0⟩)
    DefaultConfigEvents values

/-! ## Vocabulary of the float64 statements -/

/-- The rational number a finite float64 stands for (0 for the others). -/
def Go.F64.val : F64 → ℚ
  | .fin s m e => (if s then -1 else 1) * (m : ℚ) * (2 : ℚ) ^ e
  | _ => 0

/-- The exponent of the quantum `F64.round` rounds `n / d` to. -/
def Go.quantum (n d : Nat) : Int := max (ilog2 n d - 52) (-1074)

/-- The value `F64.round` rounds `n / d` to, before the overflow check. -/
def Go.roundVal (n d : Nat) : ℚ :=
  (rne (scaleNum n (quantum n d)) (scaleDen d (quantum n d)) : ℚ) * (2 : ℚ) ^ (quantum n d)

/-- The float64 `x` is finite, not negative, and stands for `k * 2^c`. -/
def Go.IsVal (x : F64) (k : Nat) (c : Int) : Prop :=
  ∃ m q, x = .fin false m q ∧ (m : ℚ) * (2 : ℚ) ^ q = (k : ℚ) * (2 : ℚ) ^ c


/-! ## package pseudo: reading the pressure file, the watcher and the poller -/

/-- The zero value of `PSIEvent`. -/
def PSIEvent.zero : PSIEvent := ⟨[], [], 0, 0, 0, F64.zero, F64.zero, F64.zero, 0⟩

/-- The three results of `readPSIFile`: the named results `some` and `full`
(here `someEv` and `fullEv`) and whether `err` is not nil. -/
structure PSIRead where
  someEv : PSIEvent
  fullEv : PSIEvent
  err : Bool
deriving DecidableEq, Repr

/-- The event `readPSIFile` builds from the four results of `parsePSILine`. -/
def mkPSIEvent (res kind : List Char) (r : PSILine) (now : Int) : PSIEvent :=
  ⟨res, kind, 0, 0, now, r.avg10, r.avg60, r.avg300, r.totalUs⟩

/-- The body of the loop of `readPSIFile` on the line `ln`, with the events
`some` and `full` so far; nothing when `parsePSILine` panics. -/
def psiLineStep (res : List Char) (now : Int) (acc : Option (PSIEvent × PSIEvent))
    (ln : List Char) : Option (PSIEvent × PSIEvent) :=
  match acc with
  | none => none
  | some (s, f) =>
    if HasPrefix ln "some ".toList then
      match parsePSILine ln with
      | none => none
      | some r => some (mkPSIEvent res "some".toList r now, f)
    else if HasPrefix ln "full ".toList then
      match parsePSILine ln with
      | none => none
      | some r => some (s, mkPSIEvent res "full".toList r now)
    else some (s, f)

/-- The function `readPSIFile`. `file` is what `os.ReadFile(path)` returns
(nothing when it fails) and `now` the value of `NowMS()`. When the read fails
the two events are zero values and `err` is set. The result is nothing when
the Go code panics. -/
def readPSIFile (file : Option (List Char)) (res : List Char) (now : Int) : Option PSIRead :=
  match file with
  | none => some ⟨PSIEvent.zero, PSIEvent.zero, true⟩
  | some b =>
    match (Split (TrimSpace b) '\n').foldl (psiLineStep res now)
        (some (PSIEvent.zero, PSIEvent.zero)) with
    | none => none
    | some (s, f) => some ⟨s, f, false⟩

/-- The non-blocking send `select { case out <- x: default: }` on a channel
of capacity `cap` holding `q`: the value is dropped when the channel is full. -/
def chanSend {α : Type} (cap : Nat) (q : List α) (x : α) : List α :=
  if q.length < cap then q ++ [x] else q

/-- The constant `unix.POLLPRI`. -/
def POLLPRI : Nat := 0x2

/-- The constant `unix.POLLERR`. -/
def POLLERR : Nat := 0x8

/-- The constant `unix.POLLNVAL`. -/
def POLLNVAL : Nat := 0x20

/-- The event the watcher builds from the two events read: the one of the
requested kind, stamped with the requested kind, threshold and window. -/
def watcherEvent (kind : List Char) (thrUs winUs : Int) (r : PSIRead) : PSIEvent :=
  let ev := if kind = "full".toList then r.fullEv else r.someEv
  { ev with Kind := kind, Threshold := thrUs, Window := winUs }

/-- What one iteration of the loop of `SpawnPSIWatcher` meets: whether the
context is done, whether `unix.Poll` fails, the returned events, what
`os.ReadFile` returns and the clock. -/
structure WatchInput where
  ctxDone : Bool
  pollErr : Bool
  revents : Nat
  file : Option (List Char)
  now : Int
deriving DecidableEq, Repr

/-- One iteration of the loop of the goroutine of `SpawnPSIWatcher`, on the
queue `q` (capacity 16): the queue after it and whether the loop goes on.
The error of `readPSIFile` is discarded. -/
def watcherStep (res kind : List Char) (thrUs winUs : Int) (q : List PSIEvent)
    (inp : WatchInput) : Option (List PSIEvent × Bool) :=
  if inp.ctxDone then some (q, false)
  else if inp.pollErr then some (q, false)
  else if inp.revents &&& (POLLERR ||| POLLNVAL) ≠ 0 then some (q, false)
  else if inp.revents &&& POLLPRI ≠ 0 then
    match readPSIFile inp.file res inp.now with
    | none => none
    | some r => some (chanSend 16 q (watcherEvent kind thrUs winUs r), true)
  else some (q, true)

/-- What one iteration of the loop of `SpawnPSIPoller` meets: the context is
done, or the ticker fires, with what `os.ReadFile` returns and the clock. -/
inductive PollInput
  | done
  | tick (file : Option (List Char)) (now : Int)
deriving DecidableEq, Repr

/-- One iteration of the loop of the goroutine of `SpawnPSIPoller`, on the
queue `q` (capacity 1): the queue after it and whether the loop goes on. -/
def pollerStep (res : List Char) (q : List PSIEvent) (inp : PollInput) :
    Option (List PSIEvent × Bool) :=
  match inp with
  | .done => some (q, false)
  | .tick file now =>
    match readPSIFile file res now with
    | none => none
    | some r => if r.err then some (q, true) else some (chanSend 1 q r.someEv, true)


/-! ## Vocabulary of the statements on malformed values and on counts -/

/-- A character a float text can begin with: a digit, a sign, a point, an
underscore, or the first letter of `inf`, `infinity` or `nan`. -/
def floatStart (c : Char) : Bool :=
  isDigit c || decide (c ∈ ['+', '-', '.', '_', 'i', 'I', 'n', 'N'])

/-- A transaction count in the range where the three rates are computed
without overflow and without leaving the normal range: zero, or a float64
`m * 2^e` with `2^52 ≤ m < 2^53` and `-1027 ≤ e ≤ 963`, that is a value from
`2^-975` up to, not including, `2^1016`. -/
def isCount (x : F64) : Bool :=
  match x with
  | .fin false m e =>
    (m == 0 && e == -1074) ||
      (decide (2 ^ 52 ≤ m) && decide (m < 2 ^ 53) && decide (-1027 ≤ e) && decide (e ≤ 963))
  | _ => false

/-! # Theorems -/

set_option exponentiation.threshold 4000
set_option maxRecDepth 100000

namespace Go

theorem takeWhile_elem (c rest : List Char) (hc : '/' ∉ c)
    (hrest : rest = [] ∨ rest.head? = some '/') :
    (c ++ rest).takeWhile (fun x => x != '/') = c ∧
    (c ++ rest).dropWhile (fun x => x != '/') = rest := by
  have hp : ∀ a ∈ c, (fun x : Char => x != '/') a = true := by
    intro a ha
    have : a ≠ '/' := fun h => hc (h ▸ ha)
    simpa using this
  rw [List.takeWhile_append_of_pos hp, List.dropWhile_append_of_pos hp]
  rcases hrest with h | h
  · subst h; simp
  · cases rest with
    | nil => simp
    | cons r rs =>
      simp at h; subst h; simp

theorem cleanLoop_elem (rooted : Bool) (fuel : Nat) (c rest out : List Char) (dotdot : Nat)
    (hc : plainElem c) (hrest : rest = [] ∨ rest.head? = some '/') :
    cleanLoop rooted (fuel + 1) (c ++ rest) out dotdot =
      cleanLoop rooted fuel rest
        ((if (rooted && out.length != 1) || (!rooted && out.length != 0) then out ++ ['/']
          else out) ++ c) dotdot := by
  obtain ⟨hne, hslash, hdot, hdd⟩ := hc
  obtain ⟨htw, hdw⟩ := takeWhile_elem c rest hslash hrest
  cases c with
  | nil => exact absurd rfl hne
  | cons a c1 =>
    have ha : a ≠ '/' := fun h => hslash (h ▸ List.mem_cons_self _ _)
    have h2 : ¬ (a = '.' ∧ (c1 ++ rest = [] ∨ (c1 ++ rest).head? = some '/')) := by
      rintro ⟨rfl, h⟩
      cases c1 with
      | nil => exact hdot rfl
      | cons b c2 =>
        rcases h with h | h
        · simp at h
        · simp at h; subst h; exact hslash (by simp)
    have h3 : ¬ (a = '.' ∧ (c1 ++ rest).head? = some '.' ∧
        ((c1 ++ rest).tail = [] ∨ (c1 ++ rest).tail.head? = some '/')) := by
      rintro ⟨rfl, h, h'⟩
      cases c1 with
      | nil => exact hdot rfl
      | cons b c2 =>
        simp at h; subst h
        cases c2 with
        | nil => exact hdd rfl
        | cons d c3 =>
          rcases h' with h' | h'
          · simp at h'
          · simp at h'; subst h'; exact hslash (by simp)
    rw [List.cons_append] at htw hdw ⊢
    rw [cleanLoop]
    rw [if_neg ha, if_neg h2, if_neg h3]
    simp only [htw, hdw]

theorem JoinStr_cons_cons (c d : List Char) (cs : List (List Char)) (sep : List Char) :
    JoinStr (c :: d :: cs) sep = c ++ (sep ++ JoinStr (d :: cs) sep) := by
  simp [JoinStr, List.intercalate, List.intersperse]

theorem JoinStr_single (c : List Char) (sep : List Char) : JoinStr [c] sep = c := by
  simp [JoinStr, List.intercalate, List.intersperse]

theorem JoinStr_length_pos (cs : List (List Char)) (h : cs ≠ []) (hc : ∀ c ∈ cs, plainElem c) :
    0 < (JoinStr cs ['/']).length := by
  cases cs with
  | nil => exact absurd rfl h
  | cons c rest =>
    have := (hc c (List.mem_cons_self _ _)).1
    cases rest with
    | nil => rw [JoinStr_single]; exact List.length_pos.mpr this
    | cons d ds =>
      rw [JoinStr_cons_cons, List.length_append]
      have := List.length_pos.mpr this
      omega

/-- On a path made of plain elements the loop of `Clean` copies the path. -/
theorem cleanLoop_plain (rooted : Bool) (cs : List (List Char)) :
    ∀ (fuel : Nat) (out : List Char) (dotdot : Nat), cs ≠ [] → (∀ c ∈ cs, plainElem c) →
      (JoinStr cs ['/']).length ≤ fuel →
      cleanLoop rooted fuel (JoinStr cs ['/']) out dotdot =
        (if (rooted && out.length != 1) || (!rooted && out.length != 0) then out ++ ['/']
          else out) ++ JoinStr cs ['/'] := by
  induction cs with
  | nil => intro _ _ _ h; exact absurd rfl h
  | cons c rest ih =>
    intro fuel out dotdot _ hall hfuel
    have hc := hall c (List.mem_cons_self _ _)
    cases rest with
    | nil =>
      rw [JoinStr_single] at hfuel ⊢
      have hpos := List.length_pos.mpr hc.1
      obtain ⟨f, rfl⟩ : ∃ f, fuel = f + 1 := ⟨fuel - 1, by omega⟩
      have := cleanLoop_elem rooted f c [] out dotdot hc (Or.inl rfl)
      rw [List.append_nil] at this
      rw [this]
      cases f <;> simp [cleanLoop]
    | cons d ds =>
      rw [JoinStr_cons_cons] at hfuel ⊢
      have hpos := List.length_pos.mpr hc.1
      have hall2 : ∀ x ∈ d :: ds, plainElem x := fun x hx => hall x (List.mem_cons_of_mem _ hx)
      have hpos2 := JoinStr_length_pos (d :: ds) (by simp) hall2
      simp only [List.length_append, List.length_singleton] at hfuel
      obtain ⟨f, rfl⟩ : ∃ f, fuel = f + 1 + 1 := ⟨fuel - 2, by omega⟩
      rw [cleanLoop_elem rooted (f + 1) c _ out dotdot hc (Or.inr (by simp))]
      rw [List.singleton_append, cleanLoop, if_pos rfl]
      rw [ih f _ dotdot (by simp) hall2 (by omega)]
      have hlen : ∀ o : List Char, (o ++ c).length ≠ 0 := by
        intro o; simp [List.length_append]; intro _; exact hc.1
      have hlen1 : ∀ o : List Char, o ≠ [] → (o ++ c).length ≠ 1 := by
        intro o ho
        have := List.length_pos.mpr ho
        simp only [List.length_append]; omega
      cases rooted
      · simp [hc.1]
      · by_cases h1 : out.length = 1
        · have hne : out ≠ [] := by intro h; simp [h] at h1
          have := hlen1 out hne
          simp [h1, this, hc.1]
        · have h2 : ¬ (out.length + (c.length + 1) = 1) := by omega
          simp [h1, h2]

theorem Clean_plain (rooted : Bool) (cs : List (List Char)) (h : cs ≠ [])
    (hall : ∀ c ∈ cs, plainElem c) :
    Clean ((if rooted then ['/'] else []) ++ JoinStr cs ['/']) =
      (if rooted then ['/'] else []) ++ JoinStr cs ['/'] := by
  have hpos := JoinStr_length_pos cs h hall
  have hne : JoinStr cs ['/'] ≠ [] := List.length_pos.mp hpos
  cases rooted
  · have hhead : (JoinStr cs ['/']).head? ≠ some '/' := by
      cases cs with
      | nil => exact absurd rfl h
      | cons c rest =>
        have hc := hall c (List.mem_cons_self _ _)
        obtain ⟨a, c1, rfl⟩ := List.exists_cons_of_ne_nil hc.1
        have ha : a ≠ '/' := fun e => hc.2.1 (e ▸ List.mem_cons_self _ _)
        cases rest with
        | nil => rw [JoinStr_single]; simpa using ha
        | cons d ds => rw [JoinStr_cons_cons]; simpa using ha
    simp only [Clean, Bool.false_eq_true, if_false, List.nil_append, if_neg hne, if_neg hhead]
    rw [cleanLoop_plain false cs _ [] 0 h hall (le_refl _)]
    simp [hne]
  · simp only [Clean, if_true, List.singleton_append, List.head?_cons, List.drop_succ_cons,
      List.drop_zero, List.length_cons]
    rw [if_neg (by simp)]
    rw [cleanLoop_plain true cs _ ['/'] 1 h hall (by omega)]
    simp


theorem fieldsAux_token (tok : List Char) (h : ∀ c ∈ tok, isSpace c = false) :
    ∀ (rest cur : List Char), fieldsAux (tok ++ rest) cur = fieldsAux rest (tok.reverse ++ cur) := by
  induction tok with
  | nil => intro rest cur; simp
  | cons a t ih =>
    intro rest cur
    have ha : isSpace a = false := h a (List.mem_cons_self _ _)
    have ht : ∀ c ∈ t, isSpace c = false := fun c hc => h c (List.mem_cons_of_mem _ hc)
    rw [List.cons_append, fieldsAux]
    simp only [ha, Bool.false_eq_true, if_false]
    rw [ih ht]
    simp

theorem isToken_iff (p : List Char) :
    isToken p = true ↔ p ≠ [] ∧ ∀ c ∈ p, isSpace c = false := by
  simp [isToken, List.isEmpty_iff]

theorem Fields_tokens (toks : List (List Char)) (h : ∀ p ∈ toks, isToken p = true) :
    Fields (JoinStr toks [' ']) = toks := by
  induction toks with
  | nil => simp [Fields, JoinStr, fieldsAux]
  | cons t rest ih =>
    obtain ⟨hne, hsp⟩ := (isToken_iff t).mp (h t (List.mem_cons_self _ _))
    have hrest : ∀ p ∈ rest, isToken p = true := fun p hp => h p (List.mem_cons_of_mem _ hp)
    have hrev : t.reverse ≠ [] := by simpa using hne
    cases rest with
    | nil =>
      rw [JoinStr_single, Fields]
      have := fieldsAux_token t hsp [] []
      rw [List.append_nil] at this
      rw [this]
      simp [fieldsAux, hne]
    | cons d ds =>
      rw [JoinStr_cons_cons, Fields, fieldsAux_token t hsp]
      have hspace : isSpace ' ' = true := by decide
      rw [List.singleton_append, fieldsAux]
      simp only [hspace, if_true, List.append_nil]
      have : t.reverse.isEmpty = false := by simpa [List.isEmpty_iff] using hne
      simp only [this, Bool.false_eq_true, if_false, List.reverse_reverse]
      have := ih hrest
      rw [Fields] at this
      rw [this]

theorem splitAux_field (sep : Char) (f : List Char) (h : sep ∉ f) :
    ∀ (rest cur : List Char), splitAux sep (f ++ rest) cur = splitAux sep rest (f.reverse ++ cur) := by
  induction f with
  | nil => intro rest cur; simp
  | cons a t ih =>
    intro rest cur
    have ha : a ≠ sep := fun e => h (e ▸ List.mem_cons_self _ _)
    have ht : sep ∉ t := fun hc => h (List.mem_cons_of_mem _ hc)
    rw [List.cons_append, splitAux, if_neg ha, ih ht]
    simp

theorem Split_fields (sep : Char) (fs : List (List Char)) (hne : fs ≠ [])
    (h : ∀ f ∈ fs, sep ∉ f) : Split (JoinStr fs [sep]) sep = fs := by
  induction fs with
  | nil => exact absurd rfl hne
  | cons t rest ih =>
    have ht := h t (List.mem_cons_self _ _)
    have hrest : ∀ p ∈ rest, sep ∉ p := fun p hp => h p (List.mem_cons_of_mem _ hp)
    cases rest with
    | nil =>
      rw [JoinStr_single, Split]
      have := splitAux_field sep t ht [] []
      rw [List.append_nil] at this
      rw [this]
      simp [splitAux]
    | cons d ds =>
      rw [JoinStr_cons_cons, Split, splitAux_field sep t ht]
      rw [List.singleton_append, splitAux, if_pos rfl]
      have := ih (by simp) hrest
      rw [Split] at this
      rw [this]
      simp

theorem TrimSpace_of_no_space (s : List Char) (h : ∀ c ∈ s, isSpace c = false) :
    TrimSpace s = s := by
  have h1 : ∀ l : List Char, (∀ c ∈ l, isSpace c = false) → l.dropWhile isSpace = l := by
    intro l hl
    cases l with
    | nil => rfl
    | cons a t =>
      have := hl a (List.mem_cons_self _ _)
      simp [List.dropWhile, this]
  unfold TrimSpace
  rw [h1 s h, h1 s.reverse (fun c hc => h c (List.mem_reverse.mp hc)), List.reverse_reverse]


theorem isDigit_not_space (c : Char) (h : isDigit c = true) : isSpace c = false := by
  unfold isDigit at h
  unfold isSpace
  simp only [Bool.and_eq_true, decide_eq_true_eq] at h
  simp only [Bool.or_eq_false_iff, Bool.and_eq_false_iff, decide_eq_false_iff_not, beq_eq_false_iff_ne]
  omega

theorem isDigit_ne (c x : Char) (h : isDigit c = true) (hx : isDigit x = false) : c ≠ x := by
  intro e; subst e; rw [h] at hx; exact Bool.noConfusion hx

theorem decStep_ge (cs : List Char) :
    ∀ n : Nat, n ≤ cs.foldl (fun n c => n * 10 + digitVal c) n := by
  induction cs with
  | nil => intro n; exact le_refl _
  | cons c cs ih =>
    intro n
    rw [List.foldl_cons]
    exact le_trans (by omega) (ih _)

theorem parseUintLoop_digits (cs : List Char) :
    ∀ n : Nat, (∀ c ∈ cs, isDigit c = true) →
      cs.foldl (fun n c => n * 10 + digitVal c) n < 2 ^ 64 →
      parseUintLoop cs n = (cs.foldl (fun n c => n * 10 + digitVal c) n, none) := by
  induction cs with
  | nil => intro n _ _; rfl
  | cons c cs ih =>
    intro n hd hlt
    have hc := hd c (List.mem_cons_self _ _)
    rw [List.foldl_cons] at hlt ⊢
    have hge := decStep_ge cs (n * 10 + digitVal c)
    have hlt1 : n * 10 + digitVal c < 2 ^ 64 := lt_of_le_of_lt hge hlt
    have h64 : (2 : Nat) ^ 64 = 18446744073709551616 := by norm_num
    rw [parseUintLoop]
    simp only [hc, if_true]
    rw [h64] at hlt1 ⊢
    have h1 : ¬ (18446744073709551616 / 10 + 1 ≤ n) := by omega
    have h2 : n * 10 % 18446744073709551616 = n * 10 := Nat.mod_eq_of_lt (by omega)
    have h3 : (n * 10 + digitVal c) % 18446744073709551616 = n * 10 + digitVal c :=
      Nat.mod_eq_of_lt hlt1
    rw [if_neg h1]
    simp only [h2, h3]
    have h4 : ¬ (n * 10 + digitVal c < n * 10 ∨ 18446744073709551616 - 1 < n * 10 + digitVal c) := by
      omega
    rw [if_neg h4]
    exact ih _ (fun x hx => hd x (List.mem_cons_of_mem _ hx)) hlt

theorem isDecimal_iff (s : List Char) :
    isDecimal s = true ↔ s ≠ [] ∧ ∀ c ∈ s, isDigit c = true := by
  simp [isDecimal, List.isEmpty_iff]

/-- On a decimal numeral below 2^64, `ParseUint` returns its value and no error. -/
theorem ParseUint_decimal (s : List Char) (h : isDecimal s = true) (hlt : decVal s < 2 ^ 64) :
    ParseUint s = (decVal s, none) := by
  obtain ⟨hne, hd⟩ := (isDecimal_iff s).mp h
  rw [ParseUint, if_neg hne]
  exact parseUintLoop_digits s 0 hd hlt

theorem parseUintLoop_err (cs : List Char) :
    ∀ n : Nat, ((parseUintLoop cs n).2 = some NumError.ErrSyntax → (parseUintLoop cs n).1 = 0) ∧
      ((parseUintLoop cs n).2 = some NumError.ErrRange → (parseUintLoop cs n).1 = 2 ^ 64 - 1) := by
  induction cs with
  | nil => intro n; simp [parseUintLoop]
  | cons c cs ih =>
    intro n
    rw [parseUintLoop]
    dsimp only
    split_ifs
    · simp
    · simp
    · exact ih _
    · simp

/-- The value `ParseUint` returns with an error: 0 with a syntax error, the
largest `uint64` with a range error. -/
theorem ParseUint_err (s : List Char) :
    ((ParseUint s).2 = some NumError.ErrSyntax → (ParseUint s).1 = 0) ∧
      ((ParseUint s).2 = some NumError.ErrRange → (ParseUint s).1 = 2 ^ 64 - 1) := by
  rw [ParseUint]
  split
  · simp
  · exact parseUintLoop_err s 0

/-- The value `ParseFloat` returns with a syntax error is 0. -/
theorem ParseFloat_syntax (s : List Char) (h : (ParseFloat s).2 = some NumError.ErrSyntax) :
    (ParseFloat s).1 = F64.zero := by
  unfold ParseFloat at h ⊢
  split at h
  · split at h
    · simp at h
    · rename_i hn; simp [hn]
  · split at h
    · rename_i h1 h2; simp [h2]
    · rename_i h1 lit h2
      split at h
      · rename_i h3; simp [h3]
      · exfalso
        unfold withRange at h
        split at h <;> simp at h

theorem Contains_digits (v rest : List Char) (x : Char) (hx : isDigit x = false)
    (h : ∀ c ∈ v, isDigit c = true) : Contains v (x :: rest) = false := by
  induction v with
  | nil => simp [Contains]
  | cons c cs ih =>
    have hc : c ≠ x := isDigit_ne c x (h c (List.mem_cons_self _ _)) hx
    rw [Contains, ih (fun y hy => h y (List.mem_cons_of_mem _ hy))]
    simp [List.isPrefixOf, hc.symm]

theorem psiInsert_eq (m : List (List Char × List Char)) (p : List Char) :
    psiInsert m p = (kvOf p).toList ++ m := by
  unfold psiInsert kvOf SplitN2
  split_ifs <;> simp

theorem foldl_psiInsert (toks : List (List Char)) :
    ∀ m, toks.foldl psiInsert m = (toks.filterMap kvOf).reverse ++ m := by
  induction toks with
  | nil => intro m; simp
  | cons p ps ih =>
    intro m
    rw [List.foldl_cons, ih, psiInsert_eq]
    cases h : kvOf p <;> simp [List.filterMap_cons, h]

theorem lookup_filter (k : List Char) (P : List Char × List Char → Bool)
    (hP : ∀ v, P (k, v) = true) (l : List (List Char × List Char)) :
    (l.filter P).lookup k = l.lookup k := by
  induction l with
  | nil => rfl
  | cons x xs ih =>
    obtain ⟨k1, v1⟩ := x
    by_cases hk : k = k1
    · subst hk
      simp [List.filter_cons, hP, List.lookup]
    · have hbeq : (k == k1) = false := by simpa using hk
      by_cases hp : P (k1, v1) = true
      · simp [List.filter_cons, hp, List.lookup, hbeq, ih]
      · simp [List.filter_cons, hp, List.lookup, hbeq, ih]

theorem filterMap_keyed (toks : List (List Char)) :
    (toks.filterMap kvOf).filter (fun kv => decide (kv.1 ∈ psiKeys))
      = (toks.filter isPSIKeyed).filterMap kvOf := by
  induction toks with
  | nil => rfl
  | cons p ps ih =>
    by_cases h : '=' ∈ p
    · have hk : kvOf p = some (p.takeWhile (fun c => c != '='),
          (p.dropWhile (fun c => c != '=')).drop 1) := by simp [kvOf, h]
      have hkey : isPSIKeyed p = decide (p.takeWhile (fun c => c != '=') ∈ psiKeys) := by
        simp [isPSIKeyed, psiKey, h]
      by_cases hin : p.takeWhile (fun c => c != '=') ∈ psiKeys
      · simp [List.filterMap_cons, hk, List.filter_cons, hkey, hin, ih]
      · simp [List.filterMap_cons, hk, List.filter_cons, hkey, hin, ih]
    · have hk : kvOf p = none := by simp [kvOf, h]
      have hkey : isPSIKeyed p = false := by simp [isPSIKeyed, psiKey, h]
      simp [List.filterMap_cons, hk, List.filter_cons, hkey, ih]

/-- The value `parsePSILine` finds for one of its four keys depends only on
the tokens that carry one of the four keys. -/
theorem mapGet_keyed (toks : List (List Char)) (k : List Char) (hk : k ∈ psiKeys) :
    mapGet (toks.foldl psiInsert []) k
      = mapGet (((toks.filter isPSIKeyed).filterMap kvOf).reverse) k := by
  unfold mapGet
  rw [foldl_psiInsert, List.append_nil, ← filterMap_keyed, ← List.filter_reverse]
  rw [lookup_filter k _ (fun v => by simpa using hk)]

theorem kvOf_key (key v : List Char) (h : '=' ∉ key) : kvOf (key ++ '=' :: v) = some (key, v) := by
  have hp : ∀ a ∈ key, (fun c : Char => c != '=') a = true := by
    intro a ha
    have : a ≠ '=' := fun e => h (e ▸ ha)
    simpa using this
  unfold kvOf
  rw [if_pos (by simp)]
  rw [List.takeWhile_append_of_pos hp, List.dropWhile_append_of_pos hp]
  simp


/-- The value `ParseFloat` returns with a range error is an infinity. -/
theorem ParseFloat_range (s : List Char) (h : (ParseFloat s).2 = some NumError.ErrRange) :
    ∃ sg, (ParseFloat s).1 = F64.inf sg := by
  unfold ParseFloat at h ⊢
  split at h
  · split at h <;> simp at h
  · split at h
    · simp at h
    · rename_i h1 lit h2
      split at h
      · simp at h
      · rename_i h3
        simp only [h3, if_false]
        unfold withRange at h ⊢
        split at h
        · rename_i sg hh; exact ⟨sg, by simp [hh]⟩
        · simp at h

theorem hexPrefix_false (s : List Char) (h : ∀ c ∈ s, c ≠ 'x' ∧ c ≠ 'X') :
    hexPrefix s = false := by
  unfold hexPrefix
  split
  · rename_i c0 x y t
    have := h x (by simp)
    simp [this.1, this.2]
  · rfl

/-- The digit loop of `readFloat` over a run of decimal digits. -/
theorem readDigits_digits (ds : List Char) (hd : ∀ c ∈ ds, isDigit c = true) :
    ∀ (rest : List Char) (st : Digits), 0 ≤ st.nd → (st.nd = 0 → st.mant = 0) →
      ∃ st' : Digits, readDigits 10 (ds ++ rest) st = readDigits 10 rest st' ∧
        0 ≤ st'.nd ∧
        st'.mant = ds.foldl (fun n c => n * 10 + digitVal c) st.mant ∧
        st'.sawdot = st.sawdot ∧ st'.underscores = st.underscores ∧
        st'.dp - st'.nd = st.dp - st.nd - ds.length ∧
        (st'.nd = 0 → st'.mant = 0) ∧
        st'.sawdigits = (st.sawdigits || !ds.isEmpty) := by
  induction ds with
  | nil =>
    intro rest st hnd hinv
    exact ⟨st, rfl, hnd, rfl, rfl, rfl, by simp, hinv, by simp⟩
  | cons c cs ih =>
    intro rest st hnd hinv
    have hc := hd c (List.mem_cons_self _ _)
    have hcs : ∀ x ∈ cs, isDigit x = true := fun x hx => hd x (List.mem_cons_of_mem _ hx)
    have h1 : c ≠ '_' := isDigit_ne c '_' hc (by decide)
    have h2 : c ≠ '.' := isDigit_ne c '.' hc (by decide)
    rw [List.cons_append, readDigits, if_neg h1, if_neg h2]
    simp only [hc, if_true]
    by_cases hz : c = '0' ∧ st.nd = 0
    · rw [if_pos hz]
      obtain ⟨st', e1, e0, e2, e3, e4, e5, e6, e7⟩ := ih hcs rest
        { st with sawdigits := true, dp := st.dp - 1 } hnd hinv
      refine ⟨st', e1, e0, ?_, e3, e4, ?_, e6, ?_⟩
      · rw [e2, List.foldl_cons]
        simp only
        have hm := hinv hz.2
        have hv : digitVal c = 0 := by rw [hz.1]; decide
        rw [hm, hv]
      · rw [e5]; simp only [List.length_cons]; push_cast; ring
      · rw [e7]; simp
    · rw [if_neg hz]
      obtain ⟨st', e1, e0, e2, e3, e4, e5, e6, e7⟩ := ih hcs rest
        { st with sawdigits := true, nd := st.nd + 1, mant := st.mant * 10 + digitVal c }
        (by simp only; omega) (by intro h0; simp only at h0; omega)
      refine ⟨st', e1, e0, ?_, e3, e4, ?_, e6, ?_⟩
      · rw [e2, List.foldl_cons]
      · rw [e5]; simp only [List.length_cons]; push_cast; ring
      · rw [e7]; simp


theorem special_digit (c : Char) (t : List Char) (hc : isDigit c = true) :
    special (c :: t) = none := by
  have h1 : c ≠ '+' := isDigit_ne c '+' hc (by decide)
  have h2 : c ≠ '-' := isDigit_ne c '-' hc (by decide)
  have h3 : c ≠ 'i' := isDigit_ne c 'i' hc (by decide)
  have h4 : c ≠ 'I' := isDigit_ne c 'I' hc (by decide)
  have h5 : c ≠ 'n' := isDigit_ne c 'n' hc (by decide)
  have h6 : c ≠ 'N' := isDigit_ne c 'N' hc (by decide)
  simp [special, h1, h2, h3, h4, h5, h6]

/-- On a decimal fraction `ip.fp`, `readFloat` reads the digits as the
mantissa and minus the number of fraction digits as the exponent. -/
theorem readFloat_decimal (ip fp : List Char) (hip : isDecimal ip = true)
    (hfp : isDecimal fp = true) :
    readFloat (decimalPoint ip fp)
      = some ⟨false, false, decVal (ip ++ fp), -(fp.length : Int), []⟩ := by
  obtain ⟨hne, hd⟩ := (isDecimal_iff ip).mp hip
  obtain ⟨hne2, hd2⟩ := (isDecimal_iff fp).mp hfp
  obtain ⟨c, t, rfl⟩ := List.exists_cons_of_ne_nil hne
  have hc := hd c (List.mem_cons_self _ _)
  have h1 : c ≠ '+' := isDigit_ne c '+' hc (by decide)
  have h2 : c ≠ '-' := isDigit_ne c '-' hc (by decide)
  have hx : hexPrefix (decimalPoint (c :: t) fp) = false := by
    apply hexPrefix_false
    intro x hxm
    unfold decimalPoint at hxm
    rcases List.mem_append.mp hxm with h | h
    · exact ⟨isDigit_ne x 'x' (hd x h) (by decide), isDigit_ne x 'X' (hd x h) (by decide)⟩
    · rcases List.mem_cons.mp h with h | h
      · subst h; exact ⟨by decide, by decide⟩
      · exact ⟨isDigit_ne x 'x' (hd2 x h) (by decide), isDigit_ne x 'X' (hd2 x h) (by decide)⟩
  -- the integer part, the point, the fraction
  obtain ⟨s1, r1, n1, m1, d1, u1, _, i1, g1⟩ :=
    readDigits_digits (c :: t) hd ('.' :: fp) ⟨0, 0, 0, false, false, false⟩ (le_refl _)
      (fun _ => rfl)
  obtain ⟨s2, r2, n2, m2, d2, u2, p2, i2, g2⟩ :=
    readDigits_digits fp hd2 [] { s1 with sawdot := true, dp := s1.nd } n1 i1
  have hdot : readDigits 10 ('.' :: fp) s1
      = readDigits 10 fp { s1 with sawdot := true, dp := s1.nd } := by
    rw [readDigits]
    simp [d1]
  have hall : readDigits 10 (decimalPoint (c :: t) fp) ⟨0, 0, 0, false, false, false⟩
      = (s2, []) := by
    unfold decimalPoint
    rw [r1, hdot]
    have := r2
    rw [List.append_nil] at this
    rw [this]
    cases s2; rfl
  have hm : s2.mant = decVal ((c :: t) ++ fp) := by
    rw [m2]; simp only; rw [m1]; unfold decVal; rw [List.foldl_append]
  have hsd : s2.sawdigits = true := by
    rw [g2]
    have : fp.isEmpty = false := by simpa [List.isEmpty_iff] using hne2
    simp [this]
  have hdp : s2.dp - s2.nd = -(fp.length : Int) := by rw [p2]; simp
  have hu : s2.underscores = false := by rw [u2]; simp only; rw [u1]
  have hdt : s2.sawdot = true := by rw [d2]
  have hs : decimalPoint (c :: t) fp = c :: (t ++ '.' :: fp) := rfl
  unfold readFloat
  rw [hs]
  simp only [h1, h2, or_self, if_false, ← hs, hx, Bool.false_eq_true, hall, hsd,
    Bool.not_true, hdt, if_true, hu, Bool.false_and, hdp, hm]
  simp [h2]

/-- The value `ParseFloat` gives a decimal fraction `ip.fp` is the float64
nearest to it. -/
theorem ParseFloat_decimal (ip fp : List Char) (hip : isDecimal ip = true)
    (hfp : isDecimal fp = true) :
    (ParseFloat (decimalPoint ip fp)).1 = nearestF64 ip fp := by
  obtain ⟨hne, hd⟩ := (isDecimal_iff ip).mp hip
  obtain ⟨hne2, _⟩ := (isDecimal_iff fp).mp hfp
  obtain ⟨c, t, rfl⟩ := List.exists_cons_of_ne_nil hne
  have hsp : special (decimalPoint (c :: t) fp) = none :=
    special_digit c _ (hd c (List.mem_cons_self _ _))
  have hlen : 0 < fp.length := List.length_pos.mpr hne2
  unfold ParseFloat
  rw [hsp, readFloat_decimal (c :: t) fp hip hfp]
  simp only [ne_eq, not_true_eq_false, if_false]
  have hv : (FloatLit.mk false false (decVal (c :: t ++ fp)) (-(fp.length : Int)) []).value
      = nearestF64 (c :: t) fp := by
    unfold FloatLit.value nearestF64
    simp only [Bool.false_eq_true, if_false]
    rw [if_neg (by omega)]
    simp
  rw [hv]
  unfold withRange
  split <;> rfl

end Go

/-! ## float64: properties of the rounding function -/

namespace Go

theorem bitLenAux_spec (fuel : Nat) :
    ∀ n : Nat, n ≤ fuel →
      n < 2 ^ bitLenAux fuel n ∧ (n ≠ 0 → 2 ^ (bitLenAux fuel n - 1) ≤ n) := by
  induction fuel with
  | zero =>
    intro n hn
    have : n = 0 := by omega
    subst this
    simp [bitLenAux]
  | succ f ih =>
    intro n hn
    by_cases h0 : n = 0
    · subst h0; simp [bitLenAux]
    · rw [bitLenAux, if_neg h0]
      obtain ⟨h1, h2⟩ := ih (n / 2) (by omega)
      constructor
      · rw [pow_succ]; omega
      · intro _
        rw [Nat.add_sub_cancel]
        by_cases hh : n / 2 = 0
        · rw [hh]
          have : bitLenAux f 0 = 0 := by cases f <;> simp [bitLenAux]
          rw [this]; simp; omega
        · have h3 := h2 hh
          have hpos : 0 < bitLenAux f (n / 2) := by
            by_contra hc
            have : bitLenAux f (n / 2) = 0 := by omega
            rw [this] at h1
            simp at h1
            exact hh h1
          have : 2 ^ bitLenAux f (n / 2) = 2 * 2 ^ (bitLenAux f (n / 2) - 1) := by
            rw [← pow_succ']
            congr 1
            omega
          rw [this]; omega

theorem bitLen_spec (n : Nat) (h : n ≠ 0) :
    2 ^ (bitLen n - 1) ≤ n ∧ n < 2 ^ bitLen n ∧ 0 < bitLen n := by
  obtain ⟨h1, h2⟩ := bitLenAux_spec n n (le_refl _)
  refine ⟨h2 h, h1, ?_⟩
  by_contra hc
  have : bitLen n = 0 := by omega
  unfold bitLen at this
  rw [this] at h1
  simp at h1
  exact h h1

theorem scaleDen_pos (d : Nat) (q : Int) (hd : 0 < d) : 0 < scaleDen d q := by
  unfold scaleDen
  split_ifs
  · exact Nat.mul_pos hd (by positivity)
  · exact hd

/-- The fraction `scaleNum n q / scaleDen d q` is `(n / d) / 2^q`. -/
theorem scale_ratio (n d : Nat) (q : Int) (hd : 0 < d) :
    ((scaleNum n q : ℕ) : ℚ) / ((scaleDen d q : ℕ) : ℚ) = ((n : ℚ) / d) / (2 : ℚ) ^ q := by
  have hd' : (d : ℚ) ≠ 0 := by exact_mod_cast (Nat.pos_iff_ne_zero.mp hd)
  unfold scaleNum scaleDen
  by_cases hq : 0 ≤ q
  · simp only [hq, if_true]
    obtain ⟨k, rfl⟩ := Int.eq_ofNat_of_zero_le hq
    simp only [Int.toNat_ofNat, zpow_natCast]
    push_cast
    field_simp
  · simp only [hq, if_false]
    have hneg : 0 ≤ -q := by omega
    obtain ⟨k, hk⟩ := Int.eq_ofNat_of_zero_le hneg
    have hq2 : q = -(k : Int) := by omega
    rw [hk, hq2]
    simp only [Int.toNat_ofNat, zpow_neg, zpow_natCast]
    push_cast
    field_simp

theorem ilog2_spec (n d : Nat) (hn : 0 < n) (hd : 0 < d) :
    (2 : ℚ) ^ (ilog2 n d) ≤ (n : ℚ) / d ∧ (n : ℚ) / d < (2 : ℚ) ^ (ilog2 n d + 1) := by
  obtain ⟨a1, a2, a3⟩ := bitLen_spec n (by omega)
  obtain ⟨b1, b2, b3⟩ := bitLen_spec d (by omega)
  have hdq : (0 : ℚ) < d := by exact_mod_cast hd
  have hnq : (0 : ℚ) < n := by exact_mod_cast hn
  -- bounds in ℚ with integer exponents
  have A1 : (2 : ℚ) ^ ((bitLen n : Int) - 1) ≤ n := by
    have : (2 : ℚ) ^ (bitLen n - 1) ≤ n := by exact_mod_cast a1
    have e : ((bitLen n : Int) - 1) = ((bitLen n - 1 : ℕ) : Int) := by omega
    rw [e, zpow_natCast]; exact this
  have A2 : (n : ℚ) < (2 : ℚ) ^ (bitLen n : Int) := by
    rw [zpow_natCast]; exact_mod_cast a2
  have B1 : (2 : ℚ) ^ ((bitLen d : Int) - 1) ≤ d := by
    have : (2 : ℚ) ^ (bitLen d - 1) ≤ d := by exact_mod_cast b1
    have e : ((bitLen d : Int) - 1) = ((bitLen d - 1 : ℕ) : Int) := by omega
    rw [e, zpow_natCast]; exact this
  have B2 : (d : ℚ) < (2 : ℚ) ^ (bitLen d : Int) := by
    rw [zpow_natCast]; exact_mod_cast b2
  have h2 : (0 : ℚ) < 2 := by norm_num
  set k : Int := (bitLen n : Int) - (bitLen d : Int) with hk
  -- 2^(k-1) < n/d < 2^(k+1)
  have lo : (2 : ℚ) ^ (k - 1) ≤ (n : ℚ) / d := by
    rw [le_div_iff₀ hdq]
    calc (2 : ℚ) ^ (k - 1) * d ≤ (2 : ℚ) ^ (k - 1) * (2 : ℚ) ^ (bitLen d : Int) :=
          mul_le_mul_of_nonneg_left B2.le (by positivity)
      _ = (2 : ℚ) ^ ((bitLen n : Int) - 1) := by
          rw [← zpow_add₀ (by norm_num : (2 : ℚ) ≠ 0)]; congr 1; omega
      _ ≤ n := A1
  have hi : (n : ℚ) / d < (2 : ℚ) ^ (k + 1) := by
    rw [div_lt_iff₀ hdq]
    calc (n : ℚ) < (2 : ℚ) ^ (bitLen n : Int) := A2
      _ = (2 : ℚ) ^ (k + 1) * (2 : ℚ) ^ ((bitLen d : Int) - 1) := by
          rw [← zpow_add₀ (by norm_num : (2 : ℚ) ≠ 0)]; congr 1; omega
      _ ≤ (2 : ℚ) ^ (k + 1) * d := mul_le_mul_of_nonneg_left B1 (by positivity)
  have hcmp : scaleDen d k ≤ scaleNum n k ↔ (2 : ℚ) ^ k ≤ (n : ℚ) / d := by
    have hpos : (0 : ℚ) < ((scaleDen d k : ℕ) : ℚ) := by exact_mod_cast scaleDen_pos d k hd
    have hr := scale_ratio n d k hd
    have h2k : (0 : ℚ) < (2 : ℚ) ^ k := by positivity
    constructor
    · intro h
      have : (1 : ℚ) ≤ ((scaleNum n k : ℕ) : ℚ) / ((scaleDen d k : ℕ) : ℚ) := by
        rw [le_div_iff₀ hpos, one_mul]; exact_mod_cast h
      rw [hr, le_div_iff₀ h2k, one_mul] at this
      exact this
    · intro h
      have : (1 : ℚ) ≤ ((scaleNum n k : ℕ) : ℚ) / ((scaleDen d k : ℕ) : ℚ) := by
        rw [hr, le_div_iff₀ h2k, one_mul]; exact h
      rw [le_div_iff₀ hpos, one_mul] at this
      exact_mod_cast this
  unfold ilog2
  simp only [← hk]
  by_cases hc : scaleDen d k ≤ scaleNum n k
  · rw [if_pos hc]
    exact ⟨hcmp.mp hc, hi⟩
  · rw [if_neg hc]
    refine ⟨lo, ?_⟩
    have : ¬ (2 : ℚ) ^ k ≤ (n : ℚ) / d := fun h => hc (hcmp.mpr h)
    rw [sub_add_cancel]
    exact not_le.mp this

/-- The nearest-integer property of `rne`, with ties going to the even side. -/
theorem rne_spec (num den : Nat) (hden : 0 < den) :
    |((rne num den : ℕ) : ℚ) - (num : ℚ) / den| ≤ 1 / 2 ∧
    (|((rne num den : ℕ) : ℚ) - (num : ℚ) / den| = 1 / 2 → rne num den % 2 = 0) := by
  have hdq : (0 : ℚ) < den := by exact_mod_cast hden
  have hsplit : (num : ℚ) / den = (num / den : ℕ) + ((num % den : ℕ) : ℚ) / den := by
    have h := Nat.div_add_mod num den
    have : (num : ℚ) = den * (num / den : ℕ) + (num % den : ℕ) := by exact_mod_cast h.symm
    field_simp
    linarith
  have hr : (num % den : ℕ) < den := Nat.mod_lt _ hden
  have hrq : ((num % den : ℕ) : ℚ) / den < 1 := by
    rw [div_lt_one hdq]; exact_mod_cast hr
  have hr0 : (0 : ℚ) ≤ ((num % den : ℕ) : ℚ) / den := by positivity
  unfold rne
  simp only
  by_cases h1 : 2 * (num % den) < den
  · rw [if_pos h1]
    have hlt : ((num % den : ℕ) : ℚ) / den < 1 / 2 := by
      rw [div_lt_div_iff₀ hdq (by norm_num : (0:ℚ) < 2)]
      have : ((2 * (num % den) : ℕ) : ℚ) < den := by exact_mod_cast h1
      push_cast at this; linarith
    have e : ((num / den : ℕ) : ℚ) - (num : ℚ) / den = -(((num % den : ℕ) : ℚ) / den) := by
      rw [hsplit]; ring
    rw [e, abs_neg, abs_of_nonneg hr0]
    exact ⟨hlt.le, fun h => absurd h (ne_of_lt hlt)⟩
  · rw [if_neg h1]
    by_cases h2 : den < 2 * (num % den)
    · rw [if_pos h2]
      have hgt : 1 / 2 < ((num % den : ℕ) : ℚ) / den := by
        rw [div_lt_div_iff₀ (by norm_num : (0:ℚ) < 2) hdq]
        have : (den : ℚ) < ((2 * (num % den) : ℕ) : ℚ) := by exact_mod_cast h2
        push_cast at this; linarith
      have e : (((num / den + 1 : ℕ)) : ℚ) - (num : ℚ) / den
          = 1 - ((num % den : ℕ) : ℚ) / den := by
        rw [hsplit]; push_cast; ring
      rw [e, abs_of_nonneg (by linarith)]
      exact ⟨by linarith, fun h => absurd h (by linarith)⟩
    · rw [if_neg h2]
      have heq : 2 * (num % den) = den := by omega
      have hhalf : ((num % den : ℕ) : ℚ) / den = 1 / 2 := by
        rw [div_eq_div_iff (ne_of_gt hdq) (by norm_num)]
        have : ((2 * (num % den) : ℕ) : ℚ) = den := by exact_mod_cast heq
        push_cast at this; linarith
      by_cases h3 : num / den % 2 = 0
      · rw [if_pos h3]
        have e : ((num / den : ℕ) : ℚ) - (num : ℚ) / den = -(1 / 2) := by
          rw [hsplit, hhalf]; ring
        rw [e]
        refine ⟨by norm_num [abs_of_nonneg], fun _ => h3⟩
      · rw [if_neg h3]
        have e : (((num / den + 1 : ℕ)) : ℚ) - (num : ℚ) / den = 1 / 2 := by
          rw [hsplit, hhalf]; push_cast; ring
        rw [e]
        refine ⟨by norm_num [abs_of_nonneg], fun _ => by omega⟩

/-- Rounding to the nearest integer is monotone. -/
theorem rne_mono (n1 d1 n2 d2 : Nat) (h1 : 0 < d1) (h2 : 0 < d2)
    (h : (n1 : ℚ) / d1 ≤ (n2 : ℚ) / d2) : rne n1 d1 ≤ rne n2 d2 := by
  obtain ⟨a1, a2⟩ := rne_spec n1 d1 h1
  obtain ⟨b1, b2⟩ := rne_spec n2 d2 h2
  by_contra hc
  have hlt : rne n2 d2 + 1 ≤ rne n1 d1 := by omega
  have hltq : ((rne n2 d2 : ℕ) : ℚ) + 1 ≤ ((rne n1 d1 : ℕ) : ℚ) := by exact_mod_cast hlt
  have ha := abs_le.mp a1
  have hb := abs_le.mp b1
  have e1 : ((rne n1 d1 : ℕ) : ℚ) - (n1 : ℚ) / d1 = 1 / 2 := by linarith [ha.1, ha.2, hb.1, hb.2]
  have e2 : ((rne n2 d2 : ℕ) : ℚ) - (n2 : ℚ) / d2 = -(1 / 2) := by
    linarith [ha.1, ha.2, hb.1, hb.2]
  have p1 := a2 (by rw [e1]; norm_num [abs_of_nonneg])
  have p2 := b2 (by rw [e2]; norm_num [abs_of_nonneg])
  have e3 : ((rne n1 d1 : ℕ) : ℚ) = ((rne n2 d2 : ℕ) : ℚ) + 1 := by
    linarith [ha.1, ha.2, hb.1, hb.2]
  have e4 : rne n1 d1 = rne n2 d2 + 1 := by exact_mod_cast e3
  omega


theorem rne_int (k : Nat) : rne k 1 = k := by
  simp [rne, Nat.mod_one]

theorem rne_zero (den : Nat) (h : 0 < den) : rne 0 den = 0 := by
  simp [rne, h]

theorem scaleNum_zero (q : Int) : scaleNum 0 q = 0 := by
  unfold scaleNum; split_ifs <;> simp

theorem roundVal_zero (d : Nat) (hd : 0 < d) : roundVal 0 d = 0 := by
  unfold roundVal
  rw [scaleNum_zero, rne_zero _ (scaleDen_pos d _ hd)]
  simp

theorem roundVal_nonneg (n d : Nat) : 0 ≤ roundVal n d := by
  unfold roundVal; positivity

theorem quantum_ge (n d : Nat) : ilog2 n d - 52 ≤ quantum n d ∧ -1074 ≤ quantum n d := by
  unfold quantum; exact ⟨le_max_left _ _, le_max_right _ _⟩

theorem two_zpow_lt {a b : Int} (h : (2 : ℚ) ^ a < (2 : ℚ) ^ b) : a < b :=
  (zpow_lt_zpow_iff_right₀ (by norm_num : (1 : ℚ) < 2)).mp h

theorem two_zpow_le {a b : Int} (h : a ≤ b) : (2 : ℚ) ^ a ≤ (2 : ℚ) ^ b :=
  zpow_le_zpow_right₀ (by norm_num) h

/-- The rounded mantissa has at most 53 bits (it may be `2^53` itself). -/
theorem rne_le (n d : Nat) (hn : 0 < n) (hd : 0 < d) :
    rne (scaleNum n (quantum n d)) (scaleDen d (quantum n d)) ≤ 2 ^ 53 := by
  obtain ⟨_, h2⟩ := ilog2_spec n d hn hd
  obtain ⟨q1, _⟩ := quantum_ge n d
  have hr := scale_ratio n d (quantum n d) hd
  have hpos : (0 : ℚ) < (2 : ℚ) ^ (quantum n d) := by positivity
  have hle : ((scaleNum n (quantum n d) : ℕ) : ℚ) / ((scaleDen d (quantum n d) : ℕ) : ℚ)
      ≤ ((2 ^ 53 : ℕ) : ℚ) / ((1 : ℕ) : ℚ) := by
    rw [hr, div_le_iff₀ hpos]
    push_cast
    rw [div_one]
    calc (n : ℚ) / d ≤ (2 : ℚ) ^ (ilog2 n d + 1) := h2.le
      _ ≤ (2 : ℚ) ^ (53 + quantum n d) := two_zpow_le (by omega)
      _ = (2 : ℚ) ^ (53 : ℕ) * (2 : ℚ) ^ (quantum n d) := by
          rw [zpow_add₀ (by norm_num : (2 : ℚ) ≠ 0)]; norm_cast
  have := rne_mono _ _ _ _ (scaleDen_pos d _ hd) Nat.one_pos hle
  rwa [rne_int] at this

/-- The result of `F64.round` when the value is below `2^1023`: a finite
float64 of value `roundVal n d`. -/
theorem round_fin (neg : Bool) (n d : Nat) (hd : 0 < d)
    (hx : (n : ℚ) / d < (2 : ℚ) ^ (1023 : Int)) :
    ∃ m q, F64.round neg n d = .fin neg m q ∧ (m : ℚ) * (2 : ℚ) ^ q = roundVal n d := by
  by_cases hn : n = 0
  · subst hn
    refine ⟨0, -1074, by simp [F64.round], ?_⟩
    rw [roundVal_zero d hd]; simp
  · have hn' : 0 < n := Nat.pos_of_ne_zero hn
    obtain ⟨h1, _⟩ := ilog2_spec n d hn' hd
    have he : ilog2 n d < 1023 := two_zpow_lt (lt_of_le_of_lt h1 hx)
    have hq : quantum n d ≤ 970 := by unfold quantum; omega
    have hm := rne_le n d hn' hd
    unfold F64.round
    rw [if_neg hn]
    simp only
    rw [show max (ilog2 n d - 52) (-1074) = quantum n d from rfl]
    by_cases hc : rne (scaleNum n (quantum n d)) (scaleDen d (quantum n d)) = 2 ^ 53
    · simp only [hc, if_true]
      rw [if_neg (by omega)]
      refine ⟨2 ^ 52, quantum n d + 1, rfl, ?_⟩
      unfold roundVal
      rw [hc, zpow_add₀ (by norm_num : (2 : ℚ) ≠ 0)]
      push_cast
      ring
    · simp only [hc, if_false]
      rw [if_neg (by omega)]
      exact ⟨_, _, rfl, rfl⟩

/-- The value `F64.round` rounds to grows with the value rounded. -/
theorem roundVal_mono (n1 d1 n2 d2 : Nat) (hd1 : 0 < d1) (hd2 : 0 < d2) (hn2 : 0 < n2)
    (h : (n1 : ℚ) / d1 ≤ (n2 : ℚ) / d2) : roundVal n1 d1 ≤ roundVal n2 d2 := by
  by_cases hn1 : n1 = 0
  · subst hn1; rw [roundVal_zero d1 hd1]; exact roundVal_nonneg _ _
  have hn1' : 0 < n1 := Nat.pos_of_ne_zero hn1
  obtain ⟨x1, x2⟩ := ilog2_spec n1 d1 hn1' hd1
  obtain ⟨y1, y2⟩ := ilog2_spec n2 d2 hn2 hd2
  have he : ilog2 n1 d1 < ilog2 n2 d2 + 1 := two_zpow_lt (lt_of_le_of_lt (le_trans x1 h) y2)
  obtain ⟨qa1, qa2⟩ := quantum_ge n1 d1
  obtain ⟨qb1, qb2⟩ := quantum_ge n2 d2
  have hQ : quantum n1 d1 ≤ quantum n2 d2 := by unfold quantum; omega
  have hr1 := scale_ratio n1 d1 (quantum n1 d1) hd1
  have hr2 := scale_ratio n2 d2 (quantum n2 d2) hd2
  have hp1 : (0 : ℚ) < (2 : ℚ) ^ (quantum n1 d1) := by positivity
  have hp2 : (0 : ℚ) < (2 : ℚ) ^ (quantum n2 d2) := by positivity
  rcases eq_or_lt_of_le hQ with hQe | hQl
  · -- same quantum
    have hle : ((scaleNum n1 (quantum n1 d1) : ℕ) : ℚ) / ((scaleDen d1 (quantum n1 d1) : ℕ) : ℚ)
        ≤ ((scaleNum n2 (quantum n2 d2) : ℕ) : ℚ) / ((scaleDen d2 (quantum n2 d2) : ℕ) : ℚ) := by
      rw [hr1, hr2, hQe]
      exact div_le_div_of_nonneg_right h hp2.le
    have := rne_mono _ _ _ _ (scaleDen_pos d1 _ hd1) (scaleDen_pos d2 _ hd2) hle
    unfold roundVal
    rw [hQe] at this ⊢
    exact mul_le_mul_of_nonneg_right (by exact_mod_cast this) hp2.le
  · -- the quantum grows: the binade boundary 2^e2 lies between the two results
    have hQ2 : quantum n2 d2 = ilog2 n2 d2 - 52 := by unfold quantum at hQl qa2 ⊢; omega
    have hk : 0 ≤ ilog2 n2 d2 - quantum n1 d1 := by omega
    obtain ⟨K, hK⟩ := Int.eq_ofNat_of_zero_le hk
    have lo : (2 : ℚ) ^ (ilog2 n2 d2) ≤ roundVal n2 d2 := by
      have hle : ((2 ^ 52 : ℕ) : ℚ) / ((1 : ℕ) : ℚ)
          ≤ ((scaleNum n2 (quantum n2 d2) : ℕ) : ℚ) / ((scaleDen d2 (quantum n2 d2) : ℕ) : ℚ) := by
        rw [hr2, le_div_iff₀ hp2]
        push_cast
        rw [div_one]
        calc (2 : ℚ) ^ (52 : ℕ) * (2 : ℚ) ^ (quantum n2 d2)
            = (2 : ℚ) ^ (ilog2 n2 d2) := by
              rw [hQ2, ← zpow_natCast, ← zpow_add₀ (by norm_num : (2 : ℚ) ≠ 0)]
              congr 1; push_cast; ring
          _ ≤ (n2 : ℚ) / d2 := y1
      have := rne_mono _ _ _ _ Nat.one_pos (scaleDen_pos d2 _ hd2) hle
      rw [rne_int] at this
      unfold roundVal
      have e52 : ((2 ^ 52 : ℕ) : ℚ) = (2 : ℚ) ^ (52 : Int) := by norm_num
      calc (2 : ℚ) ^ (ilog2 n2 d2) = ((2 ^ 52 : ℕ) : ℚ) * (2 : ℚ) ^ (quantum n2 d2) := by
            rw [hQ2, e52, ← zpow_add₀ (by norm_num : (2 : ℚ) ≠ 0)]
            congr 1; ring
        _ ≤ _ := mul_le_mul_of_nonneg_right (by exact_mod_cast this) hp2.le
    have hi : roundVal n1 d1 ≤ (2 : ℚ) ^ (ilog2 n2 d2) := by
      have hle : ((scaleNum n1 (quantum n1 d1) : ℕ) : ℚ) / ((scaleDen d1 (quantum n1 d1) : ℕ) : ℚ)
          ≤ ((2 ^ K : ℕ) : ℚ) / ((1 : ℕ) : ℚ) := by
        rw [hr1, div_le_iff₀ hp1]
        push_cast
        rw [div_one]
        calc (n1 : ℚ) / d1 ≤ (2 : ℚ) ^ (ilog2 n1 d1 + 1) := x2.le
          _ ≤ (2 : ℚ) ^ (ilog2 n2 d2) := two_zpow_le (by omega)
          _ = (2 : ℚ) ^ K * (2 : ℚ) ^ (quantum n1 d1) := by
              rw [← zpow_natCast, ← hK, ← zpow_add₀ (by norm_num : (2 : ℚ) ≠ 0)]
              congr 1; ring
      have := rne_mono _ _ _ _ (scaleDen_pos d1 _ hd1) Nat.one_pos hle
      rw [rne_int] at this
      unfold roundVal
      calc _ ≤ ((2 ^ K : ℕ) : ℚ) * (2 : ℚ) ^ (quantum n1 d1) :=
            mul_le_mul_of_nonneg_right (by exact_mod_cast this) hp1.le
        _ = (2 : ℚ) ^ (ilog2 n2 d2) := by
            push_cast
            rw [← zpow_natCast, ← hK, ← zpow_add₀ (by norm_num : (2 : ℚ) ≠ 0)]
            congr 1; ring
    exact le_trans hi lo


theorem signedAt_val (s : Bool) (m : Nat) (e e0 : Int) (h : e0 ≤ e) :
    ((signedAt s m e e0 : Int) : ℚ) * (2 : ℚ) ^ e0 = F64.val (.fin s m e) := by
  obtain ⟨k, hk⟩ := Int.eq_ofNat_of_zero_le (sub_nonneg.mpr h)
  have he : e = (k : Int) + e0 := by omega
  subst he
  unfold signedAt
  simp only [F64.val]
  rw [hk, Int.toNat_ofNat, zpow_add₀ (by norm_num : (2 : ℚ) ≠ 0), zpow_natCast]
  cases s <;> simp <;> ring

/-- The comparison `≤` of two finite values is the order of the rationals
they stand for. -/
theorem le_fin_iff (s1 : Bool) (m1 : Nat) (e1 : Int) (s2 : Bool) (m2 : Nat) (e2 : Int) :
    F64.le (.fin s1 m1 e1) (.fin s2 m2 e2) = true
      ↔ F64.val (.fin s1 m1 e1) ≤ F64.val (.fin s2 m2 e2) := by
  have h1 := signedAt_val s1 m1 e1 (min e1 e2) (min_le_left _ _)
  have h2 := signedAt_val s2 m2 e2 (min e1 e2) (min_le_right _ _)
  have hp : (0 : ℚ) < (2 : ℚ) ^ (min e1 e2) := by positivity
  unfold F64.le
  simp only [decide_eq_true_eq]
  rw [← h1, ← h2, mul_le_mul_right hp]
  exact Int.cast_le.symm

theorem round_neg_form (n d : Nat) :
    F64.round true n d = .inf true ∨ ∃ m q, F64.round true n d = .fin true m q := by
  unfold F64.round
  by_cases hn : n = 0
  · rw [if_pos hn]; exact Or.inr ⟨_, _, rfl⟩
  · rw [if_neg hn]
    dsimp only
    split_ifs <;> first | exact Or.inl rfl | exact Or.inr ⟨_, _, rfl⟩

theorem roundVal_one : roundVal 1 1 = 1 := by
  have hq : quantum 1 1 = -52 := by decide
  have hr : rne (scaleNum 1 (-52)) (scaleDen 1 (-52)) = 2 ^ 52 := by decide
  unfold roundVal
  rw [hq, hr]
  norm_num

theorem roundVal_two64 : roundVal (2 ^ 64) 1 = (2 : ℚ) ^ (64 : Int) := by
  have hq : quantum (2 ^ 64) 1 = 12 := by decide
  have hr : rne (scaleNum (2 ^ 64) 12) (scaleDen 1 12) = 2 ^ 52 := by decide
  unfold roundVal
  rw [hq, hr]
  norm_num

/-- The conversion of a `uint64` is finite, and its value is the rounded one. -/
theorem ofNat_fin (a : Nat) (ha : a < 2 ^ 64) :
    ∃ m q, F64.ofNat a = .fin false m q ∧ (m : ℚ) * (2 : ℚ) ^ q = roundVal a 1 := by
  unfold F64.ofNat
  apply round_fin false a 1 Nat.one_pos
  have : (a : ℚ) < (2 : ℚ) ^ (64 : ℕ) := by exact_mod_cast ha
  calc (a : ℚ) / ((1 : ℕ) : ℚ) = a := by simp
    _ < (2 : ℚ) ^ (64 : ℕ) := this
    _ ≤ (2 : ℚ) ^ (1023 : Int) := by norm_num

/-- The quotient of two finite values is the rounding of the exact quotient. -/
theorem div_fin (s1 : Bool) (m1 : Nat) (e1 : Int) (s2 : Bool) (m2 : Nat) (e2 : Int)
    (h : m2 ≠ 0) :
    F64.div (.fin s1 m1 e1) (.fin s2 m2 e2)
      = F64.round (xor s1 s2) (scaleNum m1 (e2 - e1)) (scaleDen m2 (e2 - e1)) ∧
    0 < scaleDen m2 (e2 - e1) ∧
    ((scaleNum m1 (e2 - e1) : ℕ) : ℚ) / ((scaleDen m2 (e2 - e1) : ℕ) : ℚ)
      = ((m1 : ℚ) * (2 : ℚ) ^ e1) / ((m2 : ℚ) * (2 : ℚ) ^ e2) := by
  have hm2 : 0 < m2 := Nat.pos_of_ne_zero h
  refine ⟨by simp [F64.div, h], scaleDen_pos _ _ hm2, ?_⟩
  rw [scale_ratio m1 m2 (e2 - e1) hm2, zpow_sub₀ (by norm_num : (2 : ℚ) ≠ 0)]
  have hm2q : (m2 : ℚ) ≠ 0 := by exact_mod_cast h
  have hp1 : (2 : ℚ) ^ e1 ≠ 0 := by positivity
  have hp2 : (2 : ℚ) ^ e2 ≠ 0 := by positivity
  field_simp

/-- The float64 expression `1.0 - x/y` of the hit rate, for `uint64` counts
with `y > 0`: it is at most 1, and at least 0 when `x ≤ y`. -/
theorem hit_bounds (a b : Nat) (ha : a < 2 ^ 64) (hb : b < 2 ^ 64) (hb0 : 0 < b) :
    F64.le (F64.sub (F64.ofNat 1) (F64.div (F64.ofNat a) (F64.ofNat b))) (F64.ofNat 1) = true ∧
    (a ≤ b →
      F64.le F64.zero (F64.sub (F64.ofNat 1) (F64.div (F64.ofNat a) (F64.ofNat b))) = true) := by
  obtain ⟨ma, qa, hfa, va⟩ := ofNat_fin a ha
  obtain ⟨mb, qb, hfb, vb⟩ := ofNat_fin b hb
  have hone : F64.ofNat 1 = .fin false (2 ^ 52) (-52) := by decide
  have hbq : (0 : ℚ) < b := by exact_mod_cast hb0
  -- the divisor is at least 1
  have vb1 : (1 : ℚ) ≤ roundVal b 1 := by
    rw [← roundVal_one]
    apply roundVal_mono 1 1 b 1 Nat.one_pos Nat.one_pos hb0
    simp only [Nat.cast_one, div_one]
    exact_mod_cast hb0
  have va64 : roundVal a 1 ≤ (2 : ℚ) ^ (64 : Int) := by
    rw [← roundVal_two64]
    apply roundVal_mono a 1 (2 ^ 64) 1 Nat.one_pos Nat.one_pos (by positivity)
    simp only [Nat.cast_one, div_one]
    exact_mod_cast ha.le
  have va0 : 0 ≤ roundVal a 1 := roundVal_nonneg _ _
  have hmb : mb ≠ 0 := by
    intro h0
    rw [h0] at vb
    simp at vb
    linarith
  obtain ⟨hdiv, hD, hratio⟩ := div_fin false ma qa false mb qb hmb
  rw [va, vb] at hratio
  have hu0 : 0 ≤ roundVal a 1 / roundVal b 1 := div_nonneg va0 (by linarith)
  have hu64 : roundVal a 1 / roundVal b 1 ≤ (2 : ℚ) ^ (64 : Int) := by
    rw [div_le_iff₀ (by linarith)]
    calc roundVal a 1 ≤ (2 : ℚ) ^ (64 : Int) := va64
      _ ≤ (2 : ℚ) ^ (64 : Int) * roundVal b 1 := by
          have : (0 : ℚ) ≤ (2 : ℚ) ^ (64 : Int) := by positivity
          nlinarith
  obtain ⟨mq, qq, hq, vq⟩ := round_fin (xor false false) _ _ hD
    (by rw [hratio]; exact lt_of_le_of_lt hu64 (by norm_num))
  rw [hfa, hfb, hdiv, hq, hone]
  -- the subtraction
  obtain ⟨e0, he0⟩ : ∃ e0 : Int, e0 = min (-52) qq := ⟨_, rfl⟩
  obtain ⟨t, ht⟩ : ∃ t : Int,
      t = signedAt false (2 ^ 52) (-52) e0 + signedAt true mq qq e0 := ⟨_, rfl⟩
  have hsub : F64.sub (.fin false (2 ^ 52) (-52)) (.fin (xor false false) mq qq)
      = if t = 0 then .fin false 0 (-1074)
        else F64.round (decide (t < 0)) (scaleNum t.natAbs (-e0)) (scaleDen 1 (-e0)) := by
    rw [ht, he0]; rfl
  have htv : (t : ℚ) * (2 : ℚ) ^ e0 = 1 - (mq : ℚ) * (2 : ℚ) ^ qq := by
    have h1 := signedAt_val false (2 ^ 52) (-52) e0 (he0 ▸ min_le_left _ _)
    have h2 := signedAt_val true mq qq e0 (he0 ▸ min_le_right _ _)
    have hc : (t : ℚ) = ((signedAt false (2 ^ 52) (-52) e0 : Int) : ℚ)
        + ((signedAt true mq qq e0 : Int) : ℚ) := by rw [ht]; exact Int.cast_add _ _
    rw [hc, add_mul, h1, h2]
    simp only [F64.val]
    norm_num
    ring
  have hp0 : (0 : ℚ) < (2 : ℚ) ^ e0 := by positivity
  have hvq0 : (0 : ℚ) ≤ (mq : ℚ) * (2 : ℚ) ^ qq := by positivity
  have hzero : F64.zero = .fin false 0 (-1074) := rfl
  have hratio2 : ((scaleNum t.natAbs (-e0) : ℕ) : ℚ) / ((scaleDen 1 (-e0) : ℕ) : ℚ)
      = |(t : ℚ)| * (2 : ℚ) ^ e0 := by
    rw [scale_ratio _ 1 (-e0) Nat.one_pos, zpow_neg]
    simp only [Nat.cast_one, div_one, div_inv_eq_mul]
    congr 1
    rw [Nat.cast_natAbs, Int.cast_abs]
  rw [hsub, hzero]
  by_cases ht0 : t = 0
  · rw [if_pos ht0]
    exact ⟨by decide, fun _ => by decide⟩
  · rw [if_neg ht0]
    by_cases hneg : t < 0
    · -- a negative result
      have hd : decide (t < 0) = true := by simpa using hneg
      rw [hd]
      constructor
      · rcases round_neg_form (scaleNum t.natAbs (-e0)) (scaleDen 1 (-e0)) with h | ⟨m, q, h⟩
        · rw [h]; rfl
        · rw [h, le_fin_iff]
          simp only [F64.val]
          have : (0 : ℚ) ≤ (m : ℚ) * (2 : ℚ) ^ q := by positivity
          norm_num
          linarith
      · intro hab
        exfalso
        -- the quotient is at most 1, so the difference is not negative
        have hu1 : roundVal a 1 / roundVal b 1 ≤ 1 := by
          rw [div_le_one (by linarith)]
          by_cases ha0 : a = 0
          · subst ha0; rw [roundVal_zero 1 Nat.one_pos]; linarith
          · apply roundVal_mono a 1 b 1 Nat.one_pos Nat.one_pos hb0
            simp only [Nat.cast_one, div_one]
            exact_mod_cast hab
        have hvq1 : (mq : ℚ) * (2 : ℚ) ^ qq ≤ 1 := by
          rw [vq, ← roundVal_one]
          apply roundVal_mono _ _ 1 1 hD Nat.one_pos Nat.one_pos
          rw [hratio]
          simpa using hu1
        have : (0 : ℚ) ≤ (t : ℚ) * (2 : ℚ) ^ e0 := by rw [htv]; linarith
        have ht1 : (0 : ℚ) ≤ (t : ℚ) := by
          by_contra hc
          have : (t : ℚ) * (2 : ℚ) ^ e0 < 0 := mul_neg_of_neg_of_pos (not_le.mp hc) hp0
          linarith
        have : (0 : Int) ≤ t := by exact_mod_cast ht1
        omega
    · -- a positive result
      have hd : decide (t < 0) = false := by simpa using hneg
      have htpos : 0 < t := by omega
      have htq : (0 : ℚ) < (t : ℚ) := by exact_mod_cast htpos
      rw [hd]
      have habs : |(t : ℚ)| = t := abs_of_pos htq
      rw [habs, htv] at hratio2
      have hle1 : ((scaleNum t.natAbs (-e0) : ℕ) : ℚ) / ((scaleDen 1 (-e0) : ℕ) : ℚ) ≤ 1 := by
        rw [hratio2]; linarith
      obtain ⟨m, q, hr, vr⟩ := round_fin false _ _ (scaleDen_pos 1 (-e0) Nat.one_pos)
        (lt_of_le_of_lt hle1 (by norm_num))
      have hv1 : (m : ℚ) * (2 : ℚ) ^ q ≤ 1 := by
        rw [vr, ← roundVal_one]
        apply roundVal_mono _ _ 1 1 (scaleDen_pos 1 (-e0) Nat.one_pos) Nat.one_pos Nat.one_pos
        simpa using hle1
      rw [hr]
      constructor
      · rw [le_fin_iff]
        simp only [F64.val]
        norm_num
        linarith
      · intro _
        rw [le_fin_iff]
        simp only [F64.val]
        have : (0 : ℚ) ≤ (m : ℚ) * (2 : ℚ) ^ q := by positivity
        norm_num
        linarith

theorem two_zpow_le_iff {a b : Int} (h : (2 : ℚ) ^ a ≤ (2 : ℚ) ^ b) : a ≤ b :=
  (zpow_le_zpow_iff_right₀ (by norm_num : (1 : ℚ) < 2)).mp h

/-- The leading-bit exponent of a fraction depends on its value only. -/
theorem ilog2_congr (n d n' d' : Nat) (hn : 0 < n) (hd : 0 < d) (hn' : 0 < n') (hd' : 0 < d')
    (h : (n : ℚ) / d = (n' : ℚ) / d') : ilog2 n d = ilog2 n' d' := by
  obtain ⟨a1, a2⟩ := ilog2_spec n d hn hd
  obtain ⟨b1, b2⟩ := ilog2_spec n' d' hn' hd'
  rw [h] at a1 a2
  have h1 := two_zpow_lt (lt_of_le_of_lt a1 b2)
  have h2 := two_zpow_lt (lt_of_le_of_lt b1 a2)
  omega

theorem rne_congr (n1 d1 n2 d2 : Nat) (h1 : 0 < d1) (h2 : 0 < d2)
    (h : (n1 : ℚ) / d1 = (n2 : ℚ) / d2) : rne n1 d1 = rne n2 d2 :=
  le_antisymm (rne_mono _ _ _ _ h1 h2 h.le) (rne_mono _ _ _ _ h2 h1 h.ge)

/-- The result of `F64.round` depends on the value of the fraction only. -/
theorem round_congr (s : Bool) (n d n' d' : Nat) (hn : 0 < n) (hd : 0 < d) (hd' : 0 < d')
    (h : (n : ℚ) / d = (n' : ℚ) / d') : F64.round s n d = F64.round s n' d' := by
  have hn' : 0 < n' := by
    by_contra hc
    have h0 : n' = 0 := by omega
    rw [h0] at h
    have hnq : (0 : ℚ) < n := by exact_mod_cast hn
    have hdq : (0 : ℚ) < d := by exact_mod_cast hd
    have : (0 : ℚ) < (n : ℚ) / d := div_pos hnq hdq
    rw [h] at this
    simp at this
  have he := ilog2_congr n d n' d' hn hd hn' hd' h
  have hq : quantum n d = quantum n' d' := by unfold quantum; rw [he]
  have hr : rne (scaleNum n (quantum n d)) (scaleDen d (quantum n d))
      = rne (scaleNum n' (quantum n' d')) (scaleDen d' (quantum n' d')) := by
    apply rne_congr _ _ _ _ (scaleDen_pos d _ hd) (scaleDen_pos d' _ hd')
    rw [scale_ratio n d _ hd, scale_ratio n' d' _ hd', h, hq]
  unfold F64.round
  rw [if_neg (Nat.pos_iff_ne_zero.mp hn), if_neg (Nat.pos_iff_ne_zero.mp hn')]
  simp only
  rw [show max (ilog2 n d - 52) (-1074) = quantum n d from rfl,
    show max (ilog2 n' d' - 52) (-1074) = quantum n' d' from rfl, hr, hq]

/-- A value `k * 2^c` with `k < 2^53` and `c` in range is rounded to itself. -/
theorem roundVal_exact (n d k : Nat) (c : Int) (hd : 0 < d) (hk : k < 2 ^ 53)
    (hc : -1074 ≤ c) (h : (n : ℚ) / d = (k : ℚ) * (2 : ℚ) ^ c) :
    roundVal n d = (k : ℚ) * (2 : ℚ) ^ c := by
  by_cases hn : n = 0
  · subst hn
    rw [roundVal_zero d hd, ← h]
    simp
  have hn' : 0 < n := Nat.pos_of_ne_zero hn
  obtain ⟨e1, e2⟩ := ilog2_spec n d hn' hd
  obtain ⟨q1, q2⟩ := quantum_ge n d
  have hkq : (k : ℚ) < (2 : ℚ) ^ (53 : Int) := by
    have : (k : ℚ) < ((2 ^ 53 : ℕ) : ℚ) := by exact_mod_cast hk
    rw [show (2 : ℚ) ^ (53 : Int) = ((2 ^ 53 : ℕ) : ℚ) by norm_num]
    exact this
  have hpc : (0 : ℚ) < (2 : ℚ) ^ c := by positivity
  -- the leading bit is below 2^(53 + c)
  have he : ilog2 n d < 53 + c := by
    apply two_zpow_lt
    calc (2 : ℚ) ^ (ilog2 n d) ≤ (n : ℚ) / d := e1
      _ = (k : ℚ) * (2 : ℚ) ^ c := h
      _ < (2 : ℚ) ^ (53 : Int) * (2 : ℚ) ^ c := mul_lt_mul_of_pos_right hkq hpc
      _ = (2 : ℚ) ^ (53 + c) := by rw [zpow_add₀ (by norm_num : (2 : ℚ) ≠ 0)]
  have hQ : quantum n d ≤ c := by unfold quantum; omega
  obtain ⟨j, hj⟩ := Int.eq_ofNat_of_zero_le (sub_nonneg.mpr hQ)
  have hratio : ((scaleNum n (quantum n d) : ℕ) : ℚ) / ((scaleDen d (quantum n d) : ℕ) : ℚ)
      = ((k * 2 ^ j : ℕ) : ℚ) / ((1 : ℕ) : ℚ) := by
    rw [scale_ratio n d _ hd, h]
    push_cast
    rw [div_one, ← zpow_natCast, ← hj, zpow_sub₀ (by norm_num : (2 : ℚ) ≠ 0)]
    field_simp
  have hr := rne_congr _ _ _ _ (scaleDen_pos d _ hd) Nat.one_pos hratio
  rw [rne_int] at hr
  unfold roundVal
  rw [hr]
  push_cast
  rw [← zpow_natCast, ← hj, mul_assoc, ← zpow_add₀ (by norm_num : (2 : ℚ) ≠ 0)]
  congr 2
  ring

/-- Rounding a non-negative value `k * 2^c` that binary64 holds gives a
finite float64 of that value. -/
theorem round_exact (n d k : Nat) (c : Int) (hd : 0 < d) (hk : k < 2 ^ 53)
    (hc : -1074 ≤ c) (hc2 : c ≤ 900) (h : (n : ℚ) / d = (k : ℚ) * (2 : ℚ) ^ c) :
    ∃ m q, F64.round false n d = .fin false m q ∧ (m : ℚ) * (2 : ℚ) ^ q = (k : ℚ) * (2 : ℚ) ^ c := by
  have hkq : (k : ℚ) < (2 : ℚ) ^ (53 : Int) := by
    have : (k : ℚ) < ((2 ^ 53 : ℕ) : ℚ) := by exact_mod_cast hk
    rw [show (2 : ℚ) ^ (53 : Int) = ((2 ^ 53 : ℕ) : ℚ) by norm_num]
    exact this
  have hpc : (0 : ℚ) < (2 : ℚ) ^ c := by positivity
  have hx : (n : ℚ) / d < (2 : ℚ) ^ (1023 : Int) := by
    rw [h]
    calc (k : ℚ) * (2 : ℚ) ^ c < (2 : ℚ) ^ (53 : Int) * (2 : ℚ) ^ c :=
          mul_lt_mul_of_pos_right hkq hpc
      _ = (2 : ℚ) ^ (53 + c) := by rw [zpow_add₀ (by norm_num : (2 : ℚ) ≠ 0)]
      _ ≤ (2 : ℚ) ^ (1023 : Int) := two_zpow_le (by omega)
  obtain ⟨m, q, h1, h2⟩ := round_fin false n d hd hx
  exact ⟨m, q, h1, by rw [h2, roundVal_exact n d k c hd hk hc h]⟩

/-- The product of two finite values is the rounding of the exact product. -/
theorem mul_fin (s1 : Bool) (m1 : Nat) (e1 : Int) (s2 : Bool) (m2 : Nat) (e2 : Int) :
    F64.mul (.fin s1 m1 e1) (.fin s2 m2 e2)
      = F64.round (xor s1 s2) (scaleNum (m1 * m2) (-(e1 + e2))) (scaleDen 1 (-(e1 + e2))) ∧
    0 < scaleDen 1 (-(e1 + e2)) ∧
    ((scaleNum (m1 * m2) (-(e1 + e2)) : ℕ) : ℚ) / ((scaleDen 1 (-(e1 + e2)) : ℕ) : ℚ)
      = ((m1 : ℚ) * (2 : ℚ) ^ e1) * ((m2 : ℚ) * (2 : ℚ) ^ e2) := by
  refine ⟨rfl, scaleDen_pos _ _ Nat.one_pos, ?_⟩
  rw [scale_ratio _ 1 _ Nat.one_pos, zpow_neg, zpow_add₀ (by norm_num : (2 : ℚ) ≠ 0)]
  push_cast
  field_simp
  ring

/-- The sum of two non-negative finite values is the rounding of the exact sum. -/
theorem add_fin_pos (m1 : Nat) (e1 : Int) (m2 : Nat) (e2 : Int) :
    ∃ n d : Nat, 0 < d ∧ (n : ℚ) / d = (m1 : ℚ) * (2 : ℚ) ^ e1 + (m2 : ℚ) * (2 : ℚ) ^ e2 ∧
      F64.add (.fin false m1 e1) (.fin false m2 e2)
        = if n = 0 then .fin false 0 (-1074) else F64.round false n d := by
  obtain ⟨e0, he0⟩ : ∃ e0 : Int, e0 = min e1 e2 := ⟨_, rfl⟩
  obtain ⟨t, ht⟩ : ∃ t : Int, t = signedAt false m1 e1 e0 + signedAt false m2 e2 e0 := ⟨_, rfl⟩
  have h1 := signedAt_val false m1 e1 e0 (he0 ▸ min_le_left _ _)
  have h2 := signedAt_val false m2 e2 e0 (he0 ▸ min_le_right _ _)
  have hp0 : (0 : ℚ) < (2 : ℚ) ^ e0 := by positivity
  have ht0 : 0 ≤ t := by
    rw [ht]; unfold signedAt; simp only [Bool.false_eq_true, if_false, one_mul]; positivity
  have htv : (t : ℚ) * (2 : ℚ) ^ e0 = (m1 : ℚ) * (2 : ℚ) ^ e1 + (m2 : ℚ) * (2 : ℚ) ^ e2 := by
    have hc : (t : ℚ) = ((signedAt false m1 e1 e0 : Int) : ℚ)
        + ((signedAt false m2 e2 e0 : Int) : ℚ) := by rw [ht]; exact Int.cast_add _ _
    rw [hc, add_mul, h1, h2]
    simp [F64.val]
  have hadd : F64.add (.fin false m1 e1) (.fin false m2 e2)
      = if t = 0 then .fin false 0 (-1074)
        else F64.round (decide (t < 0)) (scaleNum t.natAbs (-e0)) (scaleDen 1 (-e0)) := by
    rw [ht, he0]; rfl
  have hdec : decide (t < 0) = false := by simpa using ht0
  have habs : ((t.natAbs : ℕ) : ℚ) = (t : ℚ) := by
    rw [Nat.cast_natAbs, Int.cast_abs, abs_of_nonneg (by exact_mod_cast ht0)]
  refine ⟨scaleNum t.natAbs (-e0), scaleDen 1 (-e0), scaleDen_pos _ _ Nat.one_pos, ?_, ?_⟩
  · rw [scale_ratio _ 1 _ Nat.one_pos, zpow_neg, habs, ← htv]
    simp
  · rw [hadd, hdec]
    by_cases h0 : t = 0
    · rw [if_pos h0, h0]
      simp [scaleNum_zero]
    · rw [if_neg h0]
      have : scaleNum t.natAbs (-e0) ≠ 0 := by
        have hpos : 0 < t.natAbs := Int.natAbs_pos.mpr h0
        unfold scaleNum
        split_ifs
        · omega
        · exact Nat.ne_of_gt (Nat.mul_pos hpos (by positivity))
      rw [if_neg this]

theorem ofNat_isVal (k : Nat) (hk : k < 2 ^ 53) : IsVal (F64.ofNat k) k 0 := by
  unfold IsVal F64.ofNat
  exact round_exact k 1 k 0 Nat.one_pos hk (by norm_num) (by norm_num) (by simp)

/-- Multiplying by a power of two is exact. -/
theorem mul_isVal (x : F64) (k : Nat) (c e : Int) (hx : IsVal x k c) (hk : k < 2 ^ 53)
    (h1 : -1074 ≤ c + 52 + e) (h2 : c + 52 + e ≤ 900) :
    IsVal (F64.mul x (.fin false (2 ^ 52) e)) k (c + 52 + e) := by
  obtain ⟨m, q, rfl, hv⟩ := hx
  obtain ⟨hm, hD, hr⟩ := mul_fin false m q false (2 ^ 52) e
  rw [hm]
  apply round_exact _ _ k _ hD hk h1 h2
  rw [hr, hv, zpow_add₀ (by norm_num : (2 : ℚ) ≠ 0), zpow_add₀ (by norm_num : (2 : ℚ) ≠ 0)]
  push_cast
  norm_num
  ring

/-- Dividing by a power of two is exact. -/
theorem div_isVal (x : F64) (k : Nat) (c e : Int) (hx : IsVal x k c) (hk : k < 2 ^ 53)
    (h1 : -1074 ≤ c - 52 - e) (h2 : c - 52 - e ≤ 900) :
    IsVal (F64.div x (.fin false (2 ^ 52) e)) k (c - 52 - e) := by
  obtain ⟨m, q, rfl, hv⟩ := hx
  obtain ⟨hm, hD, hr⟩ := div_fin false m q false (2 ^ 52) e (by positivity)
  rw [hm]
  apply round_exact _ _ k _ hD hk h1 h2
  rw [hr, hv, zpow_sub₀ (by norm_num : (2 : ℚ) ≠ 0), zpow_sub₀ (by norm_num : (2 : ℚ) ≠ 0)]
  push_cast
  have hp : (2 : ℚ) ^ e ≠ 0 := by positivity
  field_simp
  norm_num

/-- Adding two values with a common exponent is exact when the sum of the
mantissas has at most 53 bits. -/
theorem add_isVal (x y : F64) (k1 k2 : Nat) (c : Int) (hx : IsVal x k1 c) (hy : IsVal y k2 c)
    (hk : k1 + k2 < 2 ^ 53) (h1 : -1074 ≤ c) (h2 : c ≤ 900) :
    IsVal (F64.add x y) (k1 + k2) c := by
  obtain ⟨m1, q1, rfl, hv1⟩ := hx
  obtain ⟨m2, q2, rfl, hv2⟩ := hy
  obtain ⟨n, d, hd, hr, ha⟩ := add_fin_pos m1 q1 m2 q2
  rw [hv1, hv2, ← add_mul] at hr
  rw [ha]
  by_cases h0 : n = 0
  · rw [if_pos h0]
    refine ⟨0, -1074, rfl, ?_⟩
    rw [h0] at hr
    simp only [Nat.cast_zero, zero_div] at hr
    push_cast
    rw [← hr]; simp
  · rw [if_neg h0]
    apply round_exact n d (k1 + k2) c hd hk h1 h2
    rw [hr]; push_cast; ring

/-- For a one-second interval and whole transaction counts whose sum has at
most 53 bits, the three rates are exact and the total is the sum of the other
two. -/
theorem membw_total_exact (rd wr : Nat) (h : rd + wr < 2 ^ 53) (st : PerfState)
    (hrd : st.rd = F64.ofNat rd) (hwr : st.wr = F64.ofNat wr) (now : Int) :
    (mkMemBw (intervalSec 1000000000) st now).TotalMBs
      = F64.add (mkMemBw (intervalSec 1000000000) st now).ReadMBs
          (mkMemBw (intervalSec 1000000000) st now).WriteMBs := by
  have c64 : F64.ofNat 64 = .fin false (2 ^ 52) (-46) := by decide
  have cMB : F64.ofNat 1048576 = .fin false (2 ^ 52) (-32) := by decide
  have cone : intervalSec 1000000000 = .fin false (2 ^ 52) (-52) := by decide
  have hrd53 : rd < 2 ^ 53 := by omega
  have hwr53 : wr < 2 ^ 53 := by omega
  simp only [mkMemBw, hrd, hwr, c64, cMB, cone]
  -- the read and write rates
  have x1 : ((0 : Int) + 52 + -46) = 6 := by norm_num
  have x2 : ((6 : Int) - 52 - -32) = -14 := by norm_num
  have x3 : ((-14 : Int) - 52 - -52) = -14 := by norm_num
  have r1 := mul_isVal _ rd 0 (-46) (ofNat_isVal rd hrd53) hrd53 (by norm_num) (by norm_num)
  rw [x1] at r1
  have r2 := div_isVal _ rd 6 (-32) r1 hrd53 (by norm_num) (by norm_num)
  rw [x2] at r2
  have r3 := div_isVal _ rd (-14) (-52) r2 hrd53 (by norm_num) (by norm_num)
  rw [x3] at r3
  have w1 := mul_isVal _ wr 0 (-46) (ofNat_isVal wr hwr53) hwr53 (by norm_num) (by norm_num)
  rw [x1] at w1
  have w2 := div_isVal _ wr 6 (-32) w1 hwr53 (by norm_num) (by norm_num)
  rw [x2] at w2
  have w3 := div_isVal _ wr (-14) (-52) w2 hwr53 (by norm_num) (by norm_num)
  rw [x3] at w3
  -- the total before the last division
  have t0 := add_isVal _ _ rd wr 0 (ofNat_isVal rd hrd53) (ofNat_isVal wr hwr53) h
    (by norm_num) (by norm_num)
  have t1 := mul_isVal _ (rd + wr) 0 (-46) t0 h (by norm_num) (by norm_num)
  rw [x1] at t1
  have t2 := div_isVal _ (rd + wr) 6 (-32) t1 h (by norm_num) (by norm_num)
  rw [x2] at t2
  obtain ⟨mt, qt, ht, vt⟩ := t2
  obtain ⟨mr, qr, hr, vr⟩ := r3
  obtain ⟨mw, qw, hw, vw⟩ := w3
  rw [ht, hr, hw]
  obtain ⟨hdiv, hD, hratio⟩ := div_fin false mt qt false (2 ^ 52) (-52) (by positivity)
  obtain ⟨n, d, hd, hsum, hadd⟩ := add_fin_pos mr qr mw qw
  rw [hdiv, hadd]
  have hone : ((2 ^ 52 : ℕ) : ℚ) * (2 : ℚ) ^ (-52 : Int) = 1 := by norm_num
  rw [hone, div_one, vt] at hratio
  rw [vr, vw, ← add_mul] at hsum
  have heq : ((scaleNum mt (-52 - qt) : ℕ) : ℚ) / ((scaleDen (2 ^ 52) (-52 - qt) : ℕ) : ℚ)
      = (n : ℚ) / d := by rw [hratio, hsum]; push_cast; ring
  by_cases h0 : n = 0
  · rw [if_pos h0]
    rw [h0] at heq
    simp only [Nat.cast_zero, zero_div] at heq
    have hDq : ((scaleDen (2 ^ 52) (-52 - qt) : ℕ) : ℚ) ≠ 0 := by exact_mod_cast (Nat.ne_of_gt hD)
    have hN : scaleNum mt (-52 - qt) = 0 := by
      have := (div_eq_zero_iff.mp heq).resolve_right hDq
      exact_mod_cast this
    rw [hN]
    rfl
  · rw [if_neg h0]
    have hNpos : 0 < scaleNum mt (-52 - qt) := by
      by_contra hc
      have hN : scaleNum mt (-52 - qt) = 0 := by omega
      rw [hN] at heq
      simp only [Nat.cast_zero, zero_div] at heq
      have hdq : (d : ℚ) ≠ 0 := by exact_mod_cast (Nat.ne_of_gt hd)
      have := (div_eq_zero_iff.mp heq.symm).resolve_right hdq
      exact h0 (by exact_mod_cast this)
    exact round_congr _ _ _ _ _ hNpos hD hd heq

end Go


namespace Go

/-! ## strconv by the shape of the text; overflow of the rounding -/

theorem digitVal_le (c : Char) (h : isDigit c = true) : digitVal c ≤ 9 := by
  unfold isDigit at h
  simp only [Bool.and_eq_true, decide_eq_true_eq] at h
  unfold digitVal
  omega

/-- The loop of `ParseUint` by the shape of the text: a range error as soon
as the leading digits reach 2^64, else a syntax error at the first character
that is not a digit, else the number read. -/
theorem parseUintLoop_shape (cs : List Char) :
    ∀ n : Nat, n < 2 ^ 64 →
      parseUintLoop cs n
        = if 2 ^ 64 ≤ (cs.takeWhile isDigit).foldl (fun n c => n * 10 + digitVal c) n then
            (2 ^ 64 - 1, some NumError.ErrRange)
          else if cs.all isDigit = true then
            ((cs.takeWhile isDigit).foldl (fun n c => n * 10 + digitVal c) n, none)
          else (0, some NumError.ErrSyntax) := by
  induction cs with
  | nil =>
    intro n hn
    simp only [parseUintLoop, List.takeWhile_nil, List.foldl_nil, List.all_nil, if_true]
    rw [if_neg (by omega)]
  | cons c cs ih =>
    intro n hn
    rw [parseUintLoop]
    by_cases hc : isDigit c = true
    · have hd := digitVal_le c hc
      have hge := decStep_ge (cs.takeWhile isDigit) (n * 10 + digitVal c)
      simp only [hc, if_true, List.takeWhile_cons, List.foldl_cons, List.all_cons,
        Bool.true_and]
      have e64 : (2 : Nat) ^ 64 = 18446744073709551616 := by norm_num
      rw [e64] at hn ⊢
      by_cases h1 : 18446744073709551616 / 10 + 1 ≤ n
      · rw [if_pos h1, if_pos (by omega)]
      · rw [if_neg h1]
        have hn10 : n * 10 % 18446744073709551616 = n * 10 := Nat.mod_eq_of_lt (by omega)
        simp only [hn10]
        by_cases h2 : n * 10 + digitVal c < 18446744073709551616
        · have hn1 : (n * 10 + digitVal c) % 18446744073709551616 = n * 10 + digitVal c :=
            Nat.mod_eq_of_lt h2
          rw [hn1, if_neg (by omega)]
          have := ih (n * 10 + digitVal c) (by rw [e64]; exact h2)
          rw [e64] at this
          exact this
        · have hw : (n * 10 + digitVal c) % 18446744073709551616
              = n * 10 + digitVal c - 18446744073709551616 := by
            rw [Nat.mod_eq_sub_mod (by omega)]
            exact Nat.mod_eq_of_lt (by omega)
          rw [hw, if_pos (by omega), if_pos (by omega)]
    · have hc' : isDigit c = false := by simpa using hc
      simp only [hc', Bool.false_eq_true, if_false, List.takeWhile_cons, List.foldl_nil,
        List.all_cons, Bool.false_and]
      rw [if_neg (by omega)]

/-- The result of `ParseUint` by the shape of the text. -/
theorem ParseUint_shape (s : List Char) :
    ParseUint s
      = if s = [] then (0, some NumError.ErrSyntax)
        else if 2 ^ 64 ≤ decVal (s.takeWhile isDigit) then (2 ^ 64 - 1, some NumError.ErrRange)
        else if s.all isDigit = true then (decVal s, none)
        else (0, some NumError.ErrSyntax) := by
  unfold ParseUint
  by_cases hs : s = []
  · rw [if_pos hs, if_pos hs]
  · rw [if_neg hs, if_neg hs, parseUintLoop_shape s 0 (by norm_num)]
    unfold decVal
    by_cases hall : s.all isDigit = true
    · have : s.takeWhile isDigit = s := by
        rw [List.takeWhile_eq_self_iff]
        intro x hx
        exact List.all_eq_true.mp hall x hx
      simp only [hall, if_true, this]
    · simp only [hall, Bool.false_eq_true, if_false]

/-- A text that begins with a character no float text begins with is a syntax
error for `ParseFloat`. -/
theorem ParseFloat_bad_start (c : Char) (t : List Char) (h : floatStart c = false) :
    ParseFloat (c :: t) = (F64.zero, some NumError.ErrSyntax) := by
  unfold floatStart at h
  simp only [Bool.or_eq_false_iff, decide_eq_false_iff_not, List.mem_cons, List.mem_singleton,
    List.not_mem_nil, or_false, not_or] at h
  obtain ⟨hd, h1, h2, h3, h4, h5, h6, h7, h8⟩ := h
  have hsp : special (c :: t) = none := by
    simp [special, h1, h2, h5, h6, h7, h8]
  have hhex : hexPrefix (c :: t) = false := by
    unfold hexPrefix
    split
    · rename_i c0 x y r heq
      have hc0 : c = c0 := (List.cons.inj heq).1
      have : c0 ≠ '0' := by
        rw [← hc0]
        intro e
        rw [e] at hd
        exact absurd hd (by decide)
      simp [this]
    · rfl
  have hrd : readDigits 10 (c :: t) ⟨0, 0, 0, false, false, false⟩
      = (⟨0, 0, 0, false, false, false⟩, c :: t) := by
    rw [readDigits]
    simp [h4, h3, hd]
  have hrf : readFloat (c :: t) = none := by
    unfold readFloat
    simp only [h1, h2, or_self, if_false, hhex, Bool.false_eq_true, hrd, Bool.not_false,
      if_true]
  unfold ParseFloat
  rw [hsp, hrf]

/-- A value of `2^1024` or more overflows to an infinity. -/
theorem round_overflow (s : Bool) (n d : Nat) (hd : 0 < d)
    (h : (2 : ℚ) ^ (1024 : Int) ≤ (n : ℚ) / d) : F64.round s n d = .inf s := by
  have hn : 0 < n := by
    by_contra hc
    have h0 : n = 0 := by omega
    rw [h0] at h
    simp only [Nat.cast_zero, zero_div] at h
    have : (0 : ℚ) < (2 : ℚ) ^ (1024 : Int) := by positivity
    linarith
  obtain ⟨_, h2⟩ := ilog2_spec n d hn hd
  have hL : 1024 < ilog2 n d + 1 := two_zpow_lt (lt_of_le_of_lt h h2)
  unfold F64.round
  rw [if_neg (Nat.pos_iff_ne_zero.mp hn)]
  simp only
  split_ifs <;> first | rfl | omega

/-- A decimal fraction `ip.fp` that denotes `2^1024` or more is read as the
positive infinity. -/
theorem ParseFloat_decimal_huge (ip fp : List Char) (hip : isDecimal ip = true)
    (hfp : isDecimal fp = true) (h : 2 ^ 1024 * 10 ^ fp.length ≤ decVal (ip ++ fp)) :
    (ParseFloat (decimalPoint ip fp)).1 = F64.inf false := by
  rw [ParseFloat_decimal ip fp hip hfp]
  unfold nearestF64
  apply round_overflow _ _ _ (by positivity)
  have hq : ((2 ^ 1024 * 10 ^ fp.length : ℕ) : ℚ) ≤ ((decVal (ip ++ fp) : ℕ) : ℚ) :=
    Nat.cast_le.mpr h
  rw [Nat.cast_mul, Nat.cast_pow, Nat.cast_pow] at hq
  rw [le_div_iff₀ (by positivity), Nat.cast_pow]
  have e : (2 : ℚ) ^ (1024 : Int) = ((2 : ℕ) : ℚ) ^ (1024 : ℕ) := by
    rw [Nat.cast_ofNat]
    exact zpow_natCast (2 : ℚ) 1024
  rw [e]
  exact hq

end Go


namespace Go

/-! ## float64: canonical results, scaling by powers of two -/

theorem two_zpow_cast52 : (((2 : ℕ) ^ 52 : ℕ) : ℚ) = (2 : ℚ) ^ (52 : Int) := by norm_num

theorem two_zpow_cast53 : (((2 : ℕ) ^ 53 : ℕ) : ℚ) = (2 : ℚ) ^ (53 : Int) := by norm_num

/-- Rounding a value `m * 2^c` with a normal mantissa and an exponent that
binary64 holds gives that value, in its canonical form. -/
theorem round_canon (s : Bool) (n d m : Nat) (c : Int) (hd : 0 < d)
    (hm1 : 2 ^ 52 ≤ m) (hm2 : m < 2 ^ 53) (hc1 : -1074 ≤ c) (hc2 : c ≤ 971)
    (h : (n : ℚ) / d = (m : ℚ) * (2 : ℚ) ^ c) : F64.round s n d = .fin s m c := by
  have hmq1 : (2 : ℚ) ^ (52 : Int) ≤ (m : ℚ) := by
    rw [← two_zpow_cast52]; exact_mod_cast hm1
  have hmq2 : (m : ℚ) < (2 : ℚ) ^ (53 : Int) := by
    rw [← two_zpow_cast53]; exact_mod_cast hm2
  have hpc : (0 : ℚ) < (2 : ℚ) ^ c := by positivity
  have hn : 0 < n := by
    by_contra hc
    have h0 : n = 0 := by omega
    rw [h0] at h
    simp only [Nat.cast_zero, zero_div] at h
    have : (0 : ℚ) < (m : ℚ) * (2 : ℚ) ^ c :=
      mul_pos (lt_of_lt_of_le (by positivity) hmq1) hpc
    linarith
  obtain ⟨e1, e2⟩ := ilog2_spec n d hn hd
  rw [h] at e1 e2
  have hL1 : ilog2 n d < 53 + c := by
    apply two_zpow_lt
    calc (2 : ℚ) ^ (ilog2 n d) ≤ (m : ℚ) * (2 : ℚ) ^ c := e1
      _ < (2 : ℚ) ^ (53 : Int) * (2 : ℚ) ^ c := mul_lt_mul_of_pos_right hmq2 hpc
      _ = (2 : ℚ) ^ (53 + c) := by rw [zpow_add₀ (by norm_num : (2 : ℚ) ≠ 0)]
  have hL2 : 52 + c < ilog2 n d + 1 := by
    apply two_zpow_lt
    calc (2 : ℚ) ^ (52 + c) = (2 : ℚ) ^ (52 : Int) * (2 : ℚ) ^ c := by
          rw [zpow_add₀ (by norm_num : (2 : ℚ) ≠ 0)]
      _ ≤ (m : ℚ) * (2 : ℚ) ^ c := mul_le_mul_of_nonneg_right hmq1 hpc.le
      _ < (2 : ℚ) ^ (ilog2 n d + 1) := e2
  have hq : max (ilog2 n d - 52) (-1074) = c := by omega
  have hr : rne (scaleNum n c) (scaleDen d c) = m := by
    have hx := rne_congr (scaleNum n c) (scaleDen d c) m 1 (scaleDen_pos d c hd) Nat.one_pos
      (by rw [scale_ratio n d c hd, h]; field_simp)
    rw [rne_int] at hx
    exact hx
  unfold F64.round
  rw [if_neg (Nat.pos_iff_ne_zero.mp hn)]
  simp only
  rw [hq, hr, if_neg (by omega), if_neg (by omega), if_neg (by omega)]

/-- In the normal range, a finite result of `F64.round` has a normal
mantissa, and its exponent is that of the leading bit less 52, or less 51
when the mantissa was rounded up to the next power of two. -/
theorem round_normal (s s1 : Bool) (n d m : Nat) (q : Int) (hn : 0 < n) (hd : 0 < d)
    (hL : -1022 ≤ ilog2 n d) (hr : F64.round s n d = .fin s1 m q) :
    2 ^ 52 ≤ m ∧ m < 2 ^ 53 ∧ ilog2 n d - 52 ≤ q ∧ q ≤ ilog2 n d - 51 ∧ q ≤ 971 := by
  have hq : max (ilog2 n d - 52) (-1074) = ilog2 n d - 52 := by omega
  have hqq : quantum n d = ilog2 n d - 52 := hq
  have hle := rne_le n d hn hd
  rw [hqq] at hle
  obtain ⟨e1, _⟩ := ilog2_spec n d hn hd
  have hge : 2 ^ 52 ≤ rne (scaleNum n (ilog2 n d - 52)) (scaleDen d (ilog2 n d - 52)) := by
    have hx := rne_mono (2 ^ 52) 1 (scaleNum n (ilog2 n d - 52)) (scaleDen d (ilog2 n d - 52))
      Nat.one_pos (scaleDen_pos d _ hd) (by
        rw [scale_ratio n d _ hd, le_div_iff₀ (by positivity), Nat.cast_one, div_one,
          two_zpow_cast52, ← zpow_add₀ (by norm_num : (2 : ℚ) ≠ 0)]
        have : (52 : Int) + (ilog2 n d - 52) = ilog2 n d := by ring
        rw [this]
        exact e1)
    rw [rne_int] at hx
    exact hx
  unfold F64.round at hr
  rw [if_neg (Nat.pos_iff_ne_zero.mp hn)] at hr
  simp only at hr
  rw [hq] at hr
  by_cases hc : rne (scaleNum n (ilog2 n d - 52)) (scaleDen d (ilog2 n d - 52)) = 2 ^ 53
  · rw [if_pos hc, if_pos hc] at hr
    split_ifs at hr with h971
    injection hr with _ hm hq1
    refine ⟨by omega, by omega, by omega, by omega, by omega⟩
  · rw [if_neg hc, if_neg hc] at hr
    split_ifs at hr with h971
    injection hr with _ hm hq1
    refine ⟨by omega, by omega, by omega, by omega, by omega⟩

/-- In the normal range, rounding commutes with a scaling by a power of two. -/
theorem round_scale (s : Bool) (n0 d0 n d m : Nat) (q j : Int) (hn0 : 0 < n0) (hd0 : 0 < d0)
    (hd : 0 < d) (h : (n : ℚ) / d = (n0 : ℚ) / d0 * (2 : ℚ) ^ j)
    (hL0 : -1022 ≤ ilog2 n0 d0) (hL : -1022 ≤ ilog2 n0 d0 + j)
    (hr : F64.round s n0 d0 = .fin s m q) (hq : q + j ≤ 971) :
    F64.round s n d = .fin s m (q + j) := by
  have hpj : (0 : ℚ) < (2 : ℚ) ^ j := by positivity
  have hx0 : (0 : ℚ) < (n0 : ℚ) / d0 := div_pos (by exact_mod_cast hn0) (by exact_mod_cast hd0)
  have hn : 0 < n := by
    by_contra hc
    have h0 : n = 0 := by omega
    rw [h0] at h
    simp only [Nat.cast_zero, zero_div] at h
    have := mul_pos hx0 hpj
    linarith
  obtain ⟨a1, a2⟩ := ilog2_spec n0 d0 hn0 hd0
  obtain ⟨b1, b2⟩ := ilog2_spec n d hn hd
  rw [h] at b1 b2
  have hLL : ilog2 n d = ilog2 n0 d0 + j := by
    have h1 : ilog2 n d < ilog2 n0 d0 + 1 + j := by
      apply two_zpow_lt
      calc (2 : ℚ) ^ (ilog2 n d) ≤ (n0 : ℚ) / d0 * (2 : ℚ) ^ j := b1
        _ < (2 : ℚ) ^ (ilog2 n0 d0 + 1) * (2 : ℚ) ^ j := mul_lt_mul_of_pos_right a2 hpj
        _ = (2 : ℚ) ^ (ilog2 n0 d0 + 1 + j) :=
          (zpow_add₀ (by norm_num : (2 : ℚ) ≠ 0) (ilog2 n0 d0 + 1) j).symm
    have h2 : ilog2 n0 d0 + j < ilog2 n d + 1 := by
      apply two_zpow_lt
      calc (2 : ℚ) ^ (ilog2 n0 d0 + j) = (2 : ℚ) ^ (ilog2 n0 d0) * (2 : ℚ) ^ j := by
            rw [zpow_add₀ (by norm_num : (2 : ℚ) ≠ 0)]
        _ ≤ (n0 : ℚ) / d0 * (2 : ℚ) ^ j := mul_le_mul_of_nonneg_right a1 hpj.le
        _ < (2 : ℚ) ^ (ilog2 n d + 1) := b2
    omega
  have hq0 : max (ilog2 n0 d0 - 52) (-1074) = ilog2 n0 d0 - 52 := by omega
  have hq1 : max (ilog2 n d - 52) (-1074) = ilog2 n0 d0 - 52 + j := by omega
  have hrne : rne (scaleNum n (ilog2 n0 d0 - 52 + j)) (scaleDen d (ilog2 n0 d0 - 52 + j))
      = rne (scaleNum n0 (ilog2 n0 d0 - 52)) (scaleDen d0 (ilog2 n0 d0 - 52)) := by
    apply rne_congr _ _ _ _ (scaleDen_pos d _ hd) (scaleDen_pos d0 _ hd0)
    rw [scale_ratio n d _ hd, scale_ratio n0 d0 _ hd0, h,
      zpow_add₀ (by norm_num : (2 : ℚ) ≠ 0)]
    field_simp
    ring
  unfold F64.round at hr ⊢
  rw [if_neg (Nat.pos_iff_ne_zero.mp hn0)] at hr
  rw [if_neg (Nat.pos_iff_ne_zero.mp hn)]
  simp only at hr ⊢
  rw [hq0] at hr
  rw [hq1, hrne]
  by_cases hc : rne (scaleNum n0 (ilog2 n0 d0 - 52)) (scaleDen d0 (ilog2 n0 d0 - 52)) = 2 ^ 53
  · rw [if_pos hc, if_pos hc] at hr
    rw [if_pos hc, if_pos hc]
    split_ifs at hr with h971
    injection hr with _ hm hqe
    rw [if_neg (by omega), ← hm, ← hqe]
    congr 1
    ring
  · rw [if_neg hc, if_neg hc] at hr
    rw [if_neg hc, if_neg hc]
    split_ifs at hr with h971
    injection hr with _ hm hqe
    rw [if_neg (by omega), ← hm, ← hqe]

/-- Multiplying by 64, dividing by 1048576 and dividing by `2^k` shifts the
exponent of a normal value by `-14 - k`, while the results stay normal. -/
theorem scale_normal (m : Nat) (q k : Int) (hm1 : 2 ^ 52 ≤ m) (hm2 : m < 2 ^ 53)
    (h1 : q + 6 ≤ 971) (h2 : -1074 ≤ q - 14) (h3 : -1074 ≤ q - 14 - k)
    (h4 : q - 14 - k ≤ 971) :
    F64.div (F64.div (F64.mul (.fin false m q) (F64.ofNat 64)) (F64.ofNat 1048576))
        (.fin false (2 ^ 52) (k - 52))
      = .fin false m (q - 14 - k) := by
  have c64 : F64.ofNat 64 = .fin false (2 ^ 52) (-46) := by decide
  have cMB : F64.ofNat 1048576 = .fin false (2 ^ 52) (-32) := by decide
  have h2ne : (2 : ℚ) ≠ 0 := by norm_num
  rw [c64, cMB]
  obtain ⟨a1, a2, a3⟩ := mul_fin false m q false (2 ^ 52) (-46)
  have e1 : F64.mul (.fin false m q) (.fin false (2 ^ 52) (-46)) = .fin false m (q + 6) := by
    rw [a1]
    apply round_canon _ _ _ m (q + 6) a2 hm1 hm2 (by omega) h1
    rw [a3, two_zpow_cast52, mul_assoc, ← zpow_add₀ h2ne, ← zpow_add₀ h2ne]
    congr 2
  rw [e1]
  obtain ⟨b1, b2, b3⟩ := div_fin false m (q + 6) false (2 ^ 52) (-32) (by positivity)
  have e2 : F64.div (.fin false m (q + 6)) (.fin false (2 ^ 52) (-32))
      = .fin false m (q - 14) := by
    rw [b1]
    apply round_canon _ _ _ m (q - 14) b2 hm1 hm2 h2 (by omega)
    rw [b3, two_zpow_cast52, ← zpow_add₀ h2ne, mul_div_assoc, ← zpow_sub₀ h2ne]
    congr 2
    ring
  rw [e2]
  obtain ⟨c1, c2, c3⟩ := div_fin false m (q - 14) false (2 ^ 52) (k - 52) (by positivity)
  rw [c1]
  apply round_canon _ _ _ m (q - 14 - k) c2 hm1 hm2 h3 h4
  rw [c3, two_zpow_cast52, ← zpow_add₀ h2ne, mul_div_assoc, ← zpow_sub₀ h2ne]
  congr 2
  ring

/-- The three operations leave zero as it is. -/
theorem scale_zero (k : Int) :
    F64.div (F64.div (F64.mul F64.zero (F64.ofNat 64)) (F64.ofNat 1048576))
        (.fin false (2 ^ 52) (k - 52))
      = F64.zero := by
  have e1 : F64.div (F64.mul F64.zero (F64.ofNat 64)) (F64.ofNat 1048576) = F64.zero := by
    decide
  rw [e1]
  unfold F64.zero F64.div
  simp only
  rw [if_neg (by positivity), scaleNum_zero]
  simp [F64.round]

/-- Adding zero to a normal value gives that value. -/
theorem add_zero_normal (m : Nat) (e : Int) (hm1 : 2 ^ 52 ≤ m) (hm2 : m < 2 ^ 53)
    (he1 : -1074 ≤ e) (he2 : e ≤ 971) :
    F64.add F64.zero (.fin false m e) = .fin false m e ∧
    F64.add (.fin false m e) F64.zero = .fin false m e := by
  have hmq1 : (2 : ℚ) ^ (52 : Int) ≤ (m : ℚ) := by
    rw [← two_zpow_cast52]; exact_mod_cast hm1
  have hpos : (0 : ℚ) < (m : ℚ) * (2 : ℚ) ^ e :=
    mul_pos (lt_of_lt_of_le (by positivity) hmq1) (by positivity)
  constructor
  · obtain ⟨n, d, hd, hv, ha⟩ := add_fin_pos 0 (-1074) m e
    unfold F64.zero
    rw [ha]
    simp only [Nat.cast_zero, zero_mul, zero_add] at hv
    have hn : n ≠ 0 := by
      intro h0
      rw [h0] at hv
      simp only [Nat.cast_zero, zero_div] at hv
      linarith
    rw [if_neg hn]
    exact round_canon _ _ _ m e hd hm1 hm2 he1 he2 hv
  · obtain ⟨n, d, hd, hv, ha⟩ := add_fin_pos m e 0 (-1074)
    unfold F64.zero
    rw [ha]
    simp only [Nat.cast_zero, zero_mul, add_zero] at hv
    have hn : n ≠ 0 := by
      intro h0
      rw [h0] at hv
      simp only [Nat.cast_zero, zero_div] at hv
      linarith
    rw [if_neg hn]
    exact round_canon _ _ _ m e hd hm1 hm2 he1 he2 hv

theorem isCount_cases (x : F64) (h : isCount x = true) :
    x = F64.zero ∨ ∃ m e, x = .fin false m e ∧ 2 ^ 52 ≤ m ∧ m < 2 ^ 53 ∧ -1027 ≤ e ∧ e ≤ 963 := by
  unfold isCount at h
  split at h
  · rename_i m e
    simp only [Bool.or_eq_true, Bool.and_eq_true, beq_iff_eq, decide_eq_true_eq] at h
    rcases h with ⟨h1, h2⟩ | ⟨⟨⟨h1, h2⟩, h3⟩, h4⟩
    · left; rw [h1, h2]; rfl
    · right; exact ⟨m, e, rfl, h1, h2, h3, h4⟩
  · exact absurd h (by simp)

/-- The sum of two normal values, scaled by a power of two, is the sum of the
scaled values: the two roundings agree. -/
theorem add_scale (m1 m2 : Nat) (e1 e2 j : Int)
    (hm1 : 2 ^ 52 ≤ m1) (hm1' : m1 < 2 ^ 53) (hm2 : 2 ^ 52 ≤ m2) (hm2' : m2 < 2 ^ 53)
    (he1 : -1027 ≤ e1) (he1' : e1 ≤ 963) (he2 : -1027 ≤ e2) (he2' : e2 ≤ 963)
    (hj1 : -47 ≤ j) (hj2 : j ≤ -5) :
    ∃ m q, F64.add (.fin false m1 e1) (.fin false m2 e2) = .fin false m q ∧
      F64.add (.fin false m1 (e1 + j)) (.fin false m2 (e2 + j)) = .fin false m (q + j) ∧
      2 ^ 52 ≤ m ∧ m < 2 ^ 53 ∧ -1027 ≤ q ∧ q ≤ 965 := by
  have h2ne : (2 : ℚ) ≠ 0 := by norm_num
  have hq1 : (2 : ℚ) ^ (52 : Int) ≤ (m1 : ℚ) := by
    rw [← two_zpow_cast52]; exact_mod_cast hm1
  have hq1' : (m1 : ℚ) < (2 : ℚ) ^ (53 : Int) := by
    rw [← two_zpow_cast53]; exact_mod_cast hm1'
  have hq2 : (2 : ℚ) ^ (52 : Int) ≤ (m2 : ℚ) := by
    rw [← two_zpow_cast52]; exact_mod_cast hm2
  have hq2' : (m2 : ℚ) < (2 : ℚ) ^ (53 : Int) := by
    rw [← two_zpow_cast53]; exact_mod_cast hm2'
  obtain ⟨n0, d0, hd0, hv0, ha0⟩ := add_fin_pos m1 e1 m2 e2
  obtain ⟨n, d, hd, hv, ha⟩ := add_fin_pos m1 (e1 + j) m2 (e2 + j)
  have hp1 : (0 : ℚ) < (m1 : ℚ) * (2 : ℚ) ^ e1 :=
    mul_pos (lt_of_lt_of_le (by positivity) hq1) (by positivity)
  have hp2 : (0 : ℚ) < (m2 : ℚ) * (2 : ℚ) ^ e2 :=
    mul_pos (lt_of_lt_of_le (by positivity) hq2) (by positivity)
  have hn0 : 0 < n0 := by
    by_contra hc
    have h0 : n0 = 0 := by omega
    rw [h0] at hv0
    simp only [Nat.cast_zero, zero_div] at hv0
    linarith
  have hrel : (n : ℚ) / d = (n0 : ℚ) / d0 * (2 : ℚ) ^ j := by
    rw [hv, hv0, zpow_add₀ h2ne, zpow_add₀ h2ne]
    ring
  have hn : 0 < n := by
    by_contra hc
    have h0 : n = 0 := by omega
    rw [h0] at hrel
    simp only [Nat.cast_zero, zero_div] at hrel
    have : (0 : ℚ) < (n0 : ℚ) / d0 * (2 : ℚ) ^ j :=
      mul_pos (by rw [hv0]; linarith) (by positivity)
    linarith
  rw [if_neg (Nat.pos_iff_ne_zero.mp hn0)] at ha0
  rw [if_neg (Nat.pos_iff_ne_zero.mp hn)] at ha
  obtain ⟨a1, a2⟩ := ilog2_spec n0 d0 hn0 hd0
  rw [hv0] at a1 a2
  -- the leading bit of the sum
  have hLlo1 : 52 + e1 < ilog2 n0 d0 + 1 := by
    apply two_zpow_lt
    calc (2 : ℚ) ^ (52 + e1) = (2 : ℚ) ^ (52 : Int) * (2 : ℚ) ^ e1 := zpow_add₀ h2ne _ _
      _ ≤ (m1 : ℚ) * (2 : ℚ) ^ e1 := mul_le_mul_of_nonneg_right hq1 (by positivity)
      _ ≤ (m1 : ℚ) * (2 : ℚ) ^ e1 + (m2 : ℚ) * (2 : ℚ) ^ e2 := by linarith
      _ < (2 : ℚ) ^ (ilog2 n0 d0 + 1) := a2
  have hLhi : ilog2 n0 d0 < 1017 := by
    apply two_zpow_lt
    have b1 : (m1 : ℚ) * (2 : ℚ) ^ e1 < (2 : ℚ) ^ (1016 : Int) :=
      calc (m1 : ℚ) * (2 : ℚ) ^ e1 < (2 : ℚ) ^ (53 : Int) * (2 : ℚ) ^ e1 :=
            mul_lt_mul_of_pos_right hq1' (by positivity)
        _ = (2 : ℚ) ^ (53 + e1) := (zpow_add₀ h2ne _ _).symm
        _ ≤ (2 : ℚ) ^ (1016 : Int) := two_zpow_le (by omega)
    have b2 : (m2 : ℚ) * (2 : ℚ) ^ e2 < (2 : ℚ) ^ (1016 : Int) :=
      calc (m2 : ℚ) * (2 : ℚ) ^ e2 < (2 : ℚ) ^ (53 : Int) * (2 : ℚ) ^ e2 :=
            mul_lt_mul_of_pos_right hq2' (by positivity)
        _ = (2 : ℚ) ^ (53 + e2) := (zpow_add₀ h2ne _ _).symm
        _ ≤ (2 : ℚ) ^ (1016 : Int) := two_zpow_le (by omega)
    calc (2 : ℚ) ^ (ilog2 n0 d0) ≤ (m1 : ℚ) * (2 : ℚ) ^ e1 + (m2 : ℚ) * (2 : ℚ) ^ e2 := a1
      _ < (2 : ℚ) ^ (1016 : Int) + (2 : ℚ) ^ (1016 : Int) := by linarith
      _ = (2 : ℚ) ^ (1017 : Int) := by
          rw [show (1017 : Int) = 1016 + 1 by norm_num, zpow_add₀ h2ne]
          ring
  have hfin : (n0 : ℚ) / d0 < (2 : ℚ) ^ (1023 : Int) := by
    rw [hv0]
    calc (m1 : ℚ) * (2 : ℚ) ^ e1 + (m2 : ℚ) * (2 : ℚ) ^ e2
        < (2 : ℚ) ^ (ilog2 n0 d0 + 1) := a2
      _ ≤ (2 : ℚ) ^ (1023 : Int) := two_zpow_le (by omega)
  obtain ⟨m, q, hround, _⟩ := round_fin false n0 d0 hd0 hfin
  obtain ⟨g1, g2, g3, g4, _⟩ := round_normal false false n0 d0 m q hn0 hd0 (by omega) hround
  refine ⟨m, q, by rw [ha0, hround], ?_, g1, g2, by omega, by omega⟩
  rw [ha]
  exact round_scale false n0 d0 n d m q j hn0 hd0 hd hrel (by omega) (by omega) hround
    (by omega)

/-- For an interval of `2^k` seconds and transaction counts in range, the
total rate is the float64 sum of the read rate and the write rate. -/
theorem membw_total_pow2 (st : PerfState) (k now : Int) (hk1 : -9 ≤ k) (hk2 : k ≤ 33)
    (hrd : isCount st.rd = true) (hwr : isCount st.wr = true) :
    (mkMemBw (.fin false (2 ^ 52) (k - 52)) st now).TotalMBs
      = F64.add (mkMemBw (.fin false (2 ^ 52) (k - 52)) st now).ReadMBs
          (mkMemBw (.fin false (2 ^ 52) (k - 52)) st now).WriteMBs := by
  have z0 : F64.add F64.zero F64.zero = F64.zero := by decide
  simp only [mkMemBw]
  rcases isCount_cases _ hrd with h1 | ⟨m1, e1, h1, a1, a2, a3, a4⟩ <;>
    rcases isCount_cases _ hwr with h2 | ⟨m2, e2, h2, b1, b2, b3, b4⟩ <;> rw [h1, h2]
  · rw [z0, scale_zero, z0]
  · rw [(add_zero_normal m2 e2 b1 b2 (by omega) (by omega)).1, scale_zero,
      scale_normal m2 e2 k b1 b2 (by omega) (by omega) (by omega) (by omega),
      (add_zero_normal m2 (e2 - 14 - k) b1 b2 (by omega) (by omega)).1]
  · rw [(add_zero_normal m1 e1 a1 a2 (by omega) (by omega)).2, scale_zero,
      scale_normal m1 e1 k a1 a2 (by omega) (by omega) (by omega) (by omega),
      (add_zero_normal m1 (e1 - 14 - k) a1 a2 (by omega) (by omega)).2]
  · obtain ⟨m, q, hs0, hs, g1, g2, g3, g4⟩ :=
      add_scale m1 m2 e1 e2 (-14 - k) a1 a2 b1 b2 a3 a4 b3 b4 (by omega) (by omega)
    have x1 : e1 - 14 - k = e1 + (-14 - k) := by ring
    have x2 : e2 - 14 - k = e2 + (-14 - k) := by ring
    have x3 : q - 14 - k = q + (-14 - k) := by ring
    rw [hs0, scale_normal m q k g1 g2 (by omega) (by omega) (by omega) (by omega),
      scale_normal m1 e1 k a1 a2 (by omega) (by omega) (by omega) (by omega),
      scale_normal m2 e2 k b1 b2 (by omega) (by omega) (by omega) (by omega),
      x1, x2, x3, hs]

/-- Every whole count below 2^64 is a count in range. -/
theorem isCount_ofNat (n : Nat) (h : n < 2 ^ 64) : isCount (F64.ofNat n) = true := by
  by_cases h0 : n = 0
  · rw [h0]; decide
  have hn : 0 < n := Nat.pos_of_ne_zero h0
  have hnq : ((n : ℕ) : ℚ) / ((1 : ℕ) : ℚ) = (n : ℚ) := by simp
  obtain ⟨a1, a2⟩ := ilog2_spec n 1 hn Nat.one_pos
  rw [hnq] at a1 a2
  have hlo : 0 < ilog2 n 1 + 1 := by
    apply two_zpow_lt
    calc (2 : ℚ) ^ (0 : Int) = 1 := by norm_num
      _ ≤ (n : ℚ) := by exact_mod_cast hn
      _ < (2 : ℚ) ^ (ilog2 n 1 + 1) := a2
  have hhi : ilog2 n 1 < 64 := by
    apply two_zpow_lt
    calc (2 : ℚ) ^ (ilog2 n 1) ≤ (n : ℚ) := a1
      _ < (((2 : ℕ) ^ 64 : ℕ) : ℚ) := by exact_mod_cast h
      _ = (2 : ℚ) ^ (64 : Int) := by norm_num
  have hfin : ((n : ℕ) : ℚ) / ((1 : ℕ) : ℚ) < (2 : ℚ) ^ (1023 : Int) := by
    rw [hnq]
    calc (n : ℚ) < (2 : ℚ) ^ (ilog2 n 1 + 1) := a2
      _ ≤ (2 : ℚ) ^ (1023 : Int) := two_zpow_le (by omega)
  obtain ⟨m, q, hr, _⟩ := round_fin false n 1 Nat.one_pos hfin
  obtain ⟨g1, g2, g3, g4, _⟩ := round_normal false false n 1 m q hn Nat.one_pos (by omega) hr
  unfold F64.ofNat
  rw [hr]
  unfold isCount
  simp only [Bool.or_eq_true, Bool.and_eq_true, beq_iff_eq, decide_eq_true_eq]
  right
  exact ⟨⟨⟨g1, g2⟩, by omega⟩, by omega⟩

/-- An interval of `1953125 * 2^t` nanoseconds is `2^(t - 9)` seconds, as a
float64 without rounding. -/
theorem intervalSec_pow2 (t : Nat) (ht : t ≤ 42) :
    intervalSec (1953125 * 2 ^ t) = .fin false (2 ^ 52) ((t : Int) - 61) := by
  have h2ne : (2 : ℚ) ≠ 0 := by norm_num
  have c9 : F64.ofInt 1000000000 = .fin false (1953125 * 2 ^ 32) (-23) := by decide
  have hpos : ¬ ((1953125 : Int) * 2 ^ t < 0) := by
    have : (0 : Int) < 1953125 * 2 ^ t := by positivity
    omega
  have habs : ((1953125 : Int) * 2 ^ t).natAbs = 1953125 * 2 ^ t := by
    have : ((1953125 : Int) * 2 ^ t) = ((1953125 * 2 ^ t : ℕ) : Int) := by push_cast; rfl
    rw [this, Int.natAbs_ofNat]
  have cI : F64.ofInt (1953125 * 2 ^ t) = .fin false (1953125 * 2 ^ 32) ((t : Int) - 32) := by
    unfold F64.ofInt
    rw [habs, decide_eq_false hpos]
    apply round_canon _ _ _ _ _ Nat.one_pos (by norm_num) (by norm_num) (by omega) (by omega)
    push_cast
    rw [zpow_sub₀ h2ne, zpow_natCast]
    norm_num
    field_simp
    ring
  unfold intervalSec
  rw [cI, c9]
  obtain ⟨b1, b2, b3⟩ := div_fin false (1953125 * 2 ^ 32) ((t : Int) - 32) false
    (1953125 * 2 ^ 32) (-23) (by norm_num)
  rw [b1]
  apply round_canon _ _ _ _ _ b2 (le_refl _) (by norm_num) (by omega) (by omega)
  rw [b3, two_zpow_cast52, mul_div_mul_left _ _ (by norm_num), ← zpow_sub₀ h2ne,
    ← zpow_add₀ h2ne]
  congr 1
  ring

end Go

/-! ## C1: the pressure-scope resolver -/

/-- C1 (as amended). For every resource name, a scope with Scope = "system"
resolves to "/proc/pressure/" + res. A scope with Scope = "cgroup" resolves to
`filepath.Join(CgPath, res + ".pressure")`, the lexically cleaned path; when
the cgroup directory is a clean path (optionally rooted, one or more plain
elements joined by single slashes, no trailing slash) and the resource name
has no slash, that is CgPath + "/" + res + ".pressure". -/
theorem psiFilePath_resolves (res : List Char) :
    (∀ dir, psiFilePath ⟨"system".toList, dir⟩ res = "/proc/pressure/".toList ++ res) ∧
    (∀ dir, psiFilePath ⟨"cgroup".toList, dir⟩ res
        = Go.Join [dir, res ++ ".pressure".toList]) ∧
    (∀ (rooted : Bool) (comps : List (List Char)), comps ≠ [] →
      (∀ c ∈ comps, plainElem c) → '/' ∉ res →
      psiFilePath ⟨"cgroup".toList, (if rooted then ['/'] else []) ++ Go.JoinStr comps ['/']⟩ res
        = ((if rooted then ['/'] else []) ++ Go.JoinStr comps ['/']) ++ "/".toList ++ res
            ++ ".pressure".toList) := by
  refine ⟨fun dir => ?_, fun dir => ?_, ?_⟩
  · have h : "system".toList ≠ "cgroup".toList := by decide
    simp only [psiFilePath, if_neg h]
  · simp only [psiFilePath, if_true]
  · intro rooted comps hne hall hres
    have hlast : plainElem (res ++ ".pressure".toList) := by
      refine ⟨by simp, ?_, ?_, ?_⟩
      · intro h
        rcases List.mem_append.mp h with h | h
        · exact hres h
        · revert h; decide
      · intro h
        have := congrArg List.length h
        simp at this
      · intro h
        have := congrArg List.length h
        simp at this
    have hall2 : ∀ c ∈ comps ++ [res ++ ".pressure".toList], plainElem c := by
      intro c hc
      rcases List.mem_append.mp hc with h | h
      · exact hall c h
      · rw [List.mem_singleton.mp h]; exact hlast
    have hjoin : ∀ cs : List (List Char), cs ≠ [] → ∀ x : List Char,
        Go.JoinStr (cs ++ [x]) ['/'] = Go.JoinStr cs ['/'] ++ ['/'] ++ x := by
      intro cs
      induction cs with
      | nil => intro h; exact absurd rfl h
      | cons c rest ih =>
        intro _ x
        cases rest with
        | nil => simp [Go.JoinStr_cons_cons, Go.JoinStr_single]
        | cons d ds =>
          have := ih (by simp) x
          simp only [List.cons_append] at this ⊢
          rw [Go.JoinStr_cons_cons, Go.JoinStr_cons_cons, this]
          simp
    have hdirne : (if rooted then ['/'] else []) ++ Go.JoinStr comps ['/'] ≠ [] := by
      have := Go.JoinStr_length_pos comps hne hall
      intro h
      have := congrArg List.length h
      simp only [List.length_append, List.length_nil] at this
      omega
    have key := Go.Clean_plain rooted (comps ++ [res ++ ".pressure".toList]) (by simp) hall2
    rw [hjoin comps hne] at key
    simp only [psiFilePath, if_true, Go.Join, if_pos hdirne]
    rw [Go.JoinStr_cons_cons, Go.JoinStr_single]
    simp only [List.append_assoc] at key ⊢
    exact key

/-- C1, witness: the default cgroup directory and the resource "memory". -/
theorem psiFilePath_resolves_witness :
    psiFilePath ⟨"cgroup".toList, "/sys/fs/cgroup".toList⟩ "memory".toList
      = "/sys/fs/cgroup/memory.pressure".toList :=
  (psiFilePath_resolves "memory".toList).2.2 true
    ["sys".toList, "fs".toList, "cgroup".toList] (by decide) (by decide) (by decide)

/-- C1, counterexample: with a trailing slash on the cgroup directory the
resolved path is not CgPath + "/" + res + ".pressure" (the doubled slash is
cleaned away). -/
theorem psiFilePath_trailing_slash :
    psiFilePath ⟨"cgroup".toList, "/sys/fs/cgroup/".toList⟩ "cpu".toList
        = "/sys/fs/cgroup/cpu.pressure".toList ∧
    psiFilePath ⟨"cgroup".toList, "/sys/fs/cgroup/".toList⟩ "cpu".toList
        ≠ "/sys/fs/cgroup/".toList ++ "/".toList ++ "cpu".toList ++ ".pressure".toList := by
  decide

/-! ## C2: parsing a well-formed pressure line -/

/-- The result of `parsePSILine` on a line of tokens among which the tokens
with one of the four keys are exactly `avg10=a`, `avg60=b`, `avg300=c`,
`total=t`: the values `strconv.ParseFloat` gives `a`, `b`, `c`, and the
number `t`. -/
theorem parsePSILine_tokens (first : List Char) (toks : List (List Char)) (a b c t : List Char)
    (hfirst : isToken first = true) (htoks : ∀ p ∈ toks, isToken p = true)
    (hkeys : toks.filter isPSIKeyed =
      ["avg10=".toList ++ a, "avg60=".toList ++ b, "avg300=".toList ++ c, "total=".toList ++ t])
    (ht : isDecimal t = true) (hrange : decVal t < 2 ^ 64) :
    parsePSILine (JoinStr (first :: toks) [' ']) =
      some ⟨(ParseFloat a).1, (ParseFloat b).1, (ParseFloat c).1, decVal t⟩ := by
  have hall : ∀ p ∈ first :: toks, isToken p = true := by
    intro p hp
    rcases List.mem_cons.mp hp with h | h
    · rw [h]; exact hfirst
    · exact htoks p h
  have hmem : ∀ p, p ∈ toks.filter isPSIKeyed → ∀ x ∈ p, isSpace x = false := by
    intro p hp
    exact ((isToken_iff p).mp (htoks p (List.mem_filter.mp hp).1)).2
  rw [hkeys] at hmem
  have hsub : ∀ (pre v : List Char), (∀ x ∈ pre ++ v, isSpace x = false) →
      ∀ x ∈ v, isSpace x = false := fun pre v h x hx => h x (List.mem_append_right _ hx)
  have ha := hsub "avg10=".toList a (hmem _ (List.mem_cons_self _ _))
  have hb := hsub "avg60=".toList b (hmem _ (List.mem_cons_of_mem _ (List.mem_cons_self _ _)))
  have hc := hsub "avg300=".toList c
    (hmem _ (List.mem_cons_of_mem _ (List.mem_cons_of_mem _ (List.mem_cons_self _ _))))
  have ht1 := hsub "total=".toList t
    (hmem _ (List.mem_cons_of_mem _ (List.mem_cons_of_mem _
      (List.mem_cons_of_mem _ (List.mem_cons_self _ _)))))
  unfold parsePSILine
  rw [Fields_tokens _ hall]
  simp only
  rw [mapGet_keyed toks _ (by decide), mapGet_keyed toks _ (by decide),
    mapGet_keyed toks _ (by decide), mapGet_keyed toks _ (by decide), hkeys]
  have k1 : kvOf ("avg10=".toList ++ a) = some ("avg10".toList, a) :=
    kvOf_key "avg10".toList a (by decide)
  have k2 : kvOf ("avg60=".toList ++ b) = some ("avg60".toList, b) :=
    kvOf_key "avg60".toList b (by decide)
  have k3 : kvOf ("avg300=".toList ++ c) = some ("avg300".toList, c) :=
    kvOf_key "avg300".toList c (by decide)
  have k4 : kvOf ("total=".toList ++ t) = some ("total".toList, t) :=
    kvOf_key "total".toList t (by decide)
  simp only [List.filterMap_cons, List.filterMap_nil, k1, k2, k3, k4]
  have g1 : mapGet [("avg10".toList, a), ("avg60".toList, b), ("avg300".toList, c),
      ("total".toList, t)].reverse "avg10".toList = a := by
    simp [mapGet, List.lookup]
  have g2 : mapGet [("avg10".toList, a), ("avg60".toList, b), ("avg300".toList, c),
      ("total".toList, t)].reverse "avg60".toList = b := by
    simp [mapGet, List.lookup]
  have g3 : mapGet [("avg10".toList, a), ("avg60".toList, b), ("avg300".toList, c),
      ("total".toList, t)].reverse "avg300".toList = c := by
    simp [mapGet, List.lookup]
  have g4 : mapGet [("avg10".toList, a), ("avg60".toList, b), ("avg300".toList, c),
      ("total".toList, t)].reverse "total".toList = t := by
    simp [mapGet, List.lookup]
  rw [g1, g2, g3, g4, TrimSpace_of_no_space a ha, TrimSpace_of_no_space b hb,
    TrimSpace_of_no_space c hc, TrimSpace_of_no_space t ht1, ParseUint_decimal t ht hrange]

/-- C2. For every line made of a first token (`some` or `full`) and further
space-separated tokens among which the tokens with one of the four keys are
exactly `avg10=a`, `avg60=b`, `avg300=c`, `total=t` (any other token, with
another key or without `=`, may stand anywhere), with `t` a decimal numeral
below 2^64: `parsePSILine` returns the float64 values of `a`, `b`, `c` as
`strconv.ParseFloat` reads them and the number `t`; and when `a`, `b`, `c`
are decimal fractions `ip.fp`, these values are the float64 nearest to them. -/
theorem parsePSILine_valid (first : List Char) (toks : List (List Char)) (a b c t : List Char)
    (hfirst : isToken first = true) (htoks : ∀ p ∈ toks, isToken p = true)
    (hkeys : toks.filter isPSIKeyed =
      ["avg10=".toList ++ a, "avg60=".toList ++ b, "avg300=".toList ++ c, "total=".toList ++ t])
    (ht : isDecimal t = true) (hrange : decVal t < 2 ^ 64) :
    parsePSILine (JoinStr (first :: toks) [' ']) =
      some ⟨(ParseFloat a).1, (ParseFloat b).1, (ParseFloat c).1, decVal t⟩ ∧
    (∀ ia fa ib fb ic fc : List Char,
      isDecimal ia = true → isDecimal fa = true → isDecimal ib = true → isDecimal fb = true →
      isDecimal ic = true → isDecimal fc = true →
      a = decimalPoint ia fa → b = decimalPoint ib fb → c = decimalPoint ic fc →
      parsePSILine (JoinStr (first :: toks) [' ']) =
        some ⟨nearestF64 ia fa, nearestF64 ib fb, nearestF64 ic fc, decVal t⟩) := by
  have h := parsePSILine_tokens first toks a b c t hfirst htoks hkeys ht hrange
  refine ⟨h, ?_⟩
  intro ia fa ib fb ic fc h1 h2 h3 h4 h5 h6 ea eb ec
  rw [h, ea, eb, ec, ParseFloat_decimal ia fa h1 h2, ParseFloat_decimal ib fb h3 h4,
    ParseFloat_decimal ic fc h5 h6]

/-- C2, witness: the line of the spec yields the float64 nearest to 12.34
(`6946802425218990 * 2^-49`), 5.0 (`5629499534213120 * 2^-50`) and 1.0
(`2^52 * 2^-52`), and total 1000; the same line with two foreign tokens added
parses to the same result. -/
theorem parsePSILine_valid_witness :
    parsePSILine "some avg10=12.34 avg60=5.0 avg300=1.0 total=1000".toList
      = some ⟨.fin false 6946802425218990 (-49), .fin false 5629499534213120 (-50),
          .fin false 4503599627370496 (-52), 1000⟩ ∧
    parsePSILine "full avg10=12.34 x=9 avg60=5.0 avg300=1.0 total=1000 y".toList
      = some ⟨.fin false 6946802425218990 (-49), .fin false 5629499534213120 (-50),
          .fin false 4503599627370496 (-52), 1000⟩ := by
  have h1 := (parsePSILine_valid "some".toList
    ["avg10=12.34".toList, "avg60=5.0".toList, "avg300=1.0".toList, "total=1000".toList]
    "12.34".toList "5.0".toList "1.0".toList "1000".toList
    (by decide) (by decide) (by decide) (by decide) (by decide)).2
    "12".toList "34".toList "5".toList "0".toList "1".toList "0".toList
    (by decide) (by decide) (by decide) (by decide) (by decide) (by decide) rfl rfl rfl
  have h2 := (parsePSILine_valid "full".toList
    ["avg10=12.34".toList, "x=9".toList, "avg60=5.0".toList, "avg300=1.0".toList,
      "total=1000".toList, "y".toList]
    "12.34".toList "5.0".toList "1.0".toList "1000".toList
    (by decide) (by decide) (by decide) (by decide) (by decide)).2
    "12".toList "34".toList "5".toList "0".toList "1".toList "0".toList
    (by decide) (by decide) (by decide) (by decide) (by decide) (by decide) rfl rfl rfl
  have v1 : nearestF64 "12".toList "34".toList = .fin false 6946802425218990 (-49) := by decide
  have v2 : nearestF64 "5".toList "0".toList = .fin false 5629499534213120 (-50) := by decide
  have v3 : nearestF64 "1".toList "0".toList = .fin false 4503599627370496 (-52) := by decide
  have v4 : decVal "1000".toList = 1000 := by decide
  rw [v1, v2, v3, v4] at h1 h2
  exact ⟨h1, h2⟩

/-! ## C3: parsing a malformed pressure line -/

theorem fieldsAux_ne_nil (s : List Char) :
    ∀ cur : List Char, cur ≠ [] → fieldsAux s cur ≠ [] := by
  induction s with
  | nil =>
    intro cur h
    have : cur.isEmpty = false := by simpa [List.isEmpty_iff] using h
    simp [fieldsAux, this]
  | cons c cs ih =>
    intro cur h
    have hc : cur.isEmpty = false := by simpa [List.isEmpty_iff] using h
    rw [fieldsAux]
    by_cases hs : isSpace c = true
    · simp [hs, hc]
    · simp only [hs, if_false]
      exact ih _ (by simp)

/-- A line that starts with `some ` or `full ` has a first field. -/
theorem Fields_ne_nil_of_kind (line : List Char)
    (h : HasPrefix line "some ".toList = true ∨ HasPrefix line "full ".toList = true) :
    Fields line ≠ [] := by
  have key : ∀ (c : Char) (rest : List Char), isSpace c = false → Fields (c :: rest) ≠ [] := by
    intro c rest hc
    rw [Fields, fieldsAux]
    simp only [hc, Bool.false_eq_true, if_false]
    exact fieldsAux_ne_nil rest [c] (by simp)
  rcases h with h | h
  · obtain ⟨t, rfl⟩ := List.isPrefixOf_iff_prefix.mp h
    exact key 's' _ (by decide)
  · obtain ⟨t, rfl⟩ := List.isPrefixOf_iff_prefix.mp h
    exact key 'f' _ (by decide)

/-- What `parsePSILine` returns on a line with at least one field. -/
theorem parsePSILine_eq (line : List Char) (h : Fields line ≠ []) :
    parsePSILine line = some
      ⟨(ParseFloat (TrimSpace (psiValue line "avg10".toList))).1,
       (ParseFloat (TrimSpace (psiValue line "avg60".toList))).1,
       (ParseFloat (TrimSpace (psiValue line "avg300".toList))).1,
       (ParseUint (TrimSpace (psiValue line "total".toList))).1⟩ := by
  unfold parsePSILine psiValue
  cases hf : Fields line with
  | nil => exact absurd hf h
  | cons p ps => rfl

theorem lookup_none_of_keys (k : List Char) (l : List (List Char × List Char))
    (h : ∀ kv ∈ l, kv.1 ≠ k) : l.lookup k = none := by
  induction l with
  | nil => rfl
  | cons x xs ih =>
    obtain ⟨k1, v1⟩ := x
    have hk : k ≠ k1 := fun e => h (k1, v1) (List.mem_cons_self _ _) e.symm
    have hbeq : (k == k1) = false := by simpa using hk
    simp only [List.lookup, hbeq]
    exact ih (fun kv hkv => h kv (List.mem_cons_of_mem _ hkv))

/-- A key that no token after the first carries is bound to the empty string. -/
theorem psiValue_absent (line key : List Char)
    (h : ∀ p ∈ (Fields line).tail, psiKey p ≠ some key) : psiValue line key = [] := by
  unfold psiValue mapGet
  rw [foldl_psiInsert, List.append_nil, lookup_none_of_keys]
  · rfl
  · intro kv hkv heq
    rw [List.mem_reverse, List.mem_filterMap] at hkv
    obtain ⟨p, hp, hkvp⟩ := hkv
    apply h p hp
    unfold kvOf at hkvp
    unfold psiKey
    split_ifs at hkvp ⊢ with hmem
    simp only [Option.some.injEq] at hkvp
    rw [← heq, ← hkvp]

theorem fieldsAux_no_space (s : List Char) :
    ∀ cur : List Char, (∀ c ∈ cur, isSpace c = false) →
      ∀ p ∈ fieldsAux s cur, ∀ c ∈ p, isSpace c = false := by
  induction s with
  | nil =>
    intro cur hcur p hp c hc
    rw [fieldsAux] at hp
    split_ifs at hp
    · simp at hp
    · rw [List.mem_singleton] at hp
      rw [hp] at hc
      exact hcur c (List.mem_reverse.mp hc)
  | cons a t ih =>
    intro cur hcur p hp c hc
    rw [fieldsAux] at hp
    by_cases ha : isSpace a = true
    · rw [if_pos ha] at hp
      split_ifs at hp
      · exact ih [] (by simp) p hp c hc
      · rcases List.mem_cons.mp hp with h | h
        · rw [h] at hc
          exact hcur c (List.mem_reverse.mp hc)
        · exact ih [] (by simp) p h c hc
    · rw [if_neg ha] at hp
      refine ih (a :: cur) ?_ p hp c hc
      intro x hx
      rcases List.mem_cons.mp hx with h | h
      · rw [h]; simpa using ha
      · exact hcur x h

theorem lookup_mem (k : List Char) (v : List Char) (l : List (List Char × List Char))
    (h : l.lookup k = some v) : (k, v) ∈ l := by
  induction l with
  | nil => simp at h
  | cons x xs ih =>
    obtain ⟨k1, v1⟩ := x
    by_cases hk : k = k1
    · subst hk
      simp only [List.lookup, beq_self_eq_true, Option.some.injEq] at h
      rw [h]
      exact List.mem_cons_self _ _
    · have hbeq : (k == k1) = false := by simpa using hk
      simp only [List.lookup, hbeq] at h
      exact List.mem_cons_of_mem _ (ih h)

/-- The text a pressure line binds to a key holds no white space, so that
`strings.TrimSpace` leaves it as it is. -/
theorem TrimSpace_psiValue (line key : List Char) :
    TrimSpace (psiValue line key) = psiValue line key := by
  apply TrimSpace_of_no_space
  intro c hc
  unfold psiValue mapGet at hc
  rw [foldl_psiInsert, List.append_nil] at hc
  cases hl : ((Fields line).tail.filterMap kvOf).reverse.lookup key with
  | none => rw [hl] at hc; simp at hc
  | some v =>
    rw [hl] at hc
    simp only [Option.getD_some] at hc
    have hm := lookup_mem key v _ hl
    rw [List.mem_reverse, List.mem_filterMap] at hm
    obtain ⟨p, hp, hkv⟩ := hm
    have hpF : p ∈ Fields line := List.mem_of_mem_tail hp
    have hcp : c ∈ p := by
      unfold kvOf at hkv
      split_ifs at hkv
      simp only [Option.some.injEq, Prod.mk.injEq] at hkv
      rw [← hkv.2] at hc
      exact (List.dropWhile_sublist _).subset (List.mem_of_mem_drop hc)
    exact fieldsAux_no_space line [] (by simp) p hpF c hcp

/-- C3 (as amended). For every line that starts with `some ` or `full `,
`parsePSILine` returns a result (it raises no error), the fields being the
values the number parsers return, the error discarded, for the texts bound
to the four keys (the value of the last `key=value` token after the first
field, empty when there is none). A field whose token is absent is zero; a
field whose text the parser rejects as not well-formed is zero; a text the
parser rejects as out of range gives 2^64 - 1 for the total and an infinity
for an average. By the shape of the text: an average is zero when its text
is empty or begins with a character no float text begins with, and the
positive infinity when its text is a decimal fraction `ip.fp` that denotes
2^1024 or more; the total is 2^64 - 1 when the leading digits of its text
denote 2^64 or more, whatever follows them, otherwise the number the text
denotes when it is a decimal numeral, and zero in every other case (the
empty text, or a character that is not a digit). -/
theorem parsePSILine_malformed (line : List Char)
    (hkind : HasPrefix line "some ".toList = true ∨ HasPrefix line "full ".toList = true) :
    ∃ r : PSILine, parsePSILine line = some r ∧
      (∀ key ∈ avgKeys,
        r.avg key = (ParseFloat (TrimSpace (psiValue line key))).1 ∧
        ((∀ p ∈ (Fields line).tail, psiKey p ≠ some key) → r.avg key = F64.zero) ∧
        ((ParseFloat (TrimSpace (psiValue line key))).2 = some NumError.ErrSyntax →
          r.avg key = F64.zero) ∧
        ((ParseFloat (TrimSpace (psiValue line key))).2 = some NumError.ErrRange →
          ∃ s, r.avg key = F64.inf s) ∧
        (psiValue line key = [] → r.avg key = F64.zero) ∧
        (∀ (c : Char) (t : List Char), psiValue line key = c :: t → floatStart c = false →
          r.avg key = F64.zero) ∧
        (∀ ip fp : List Char, isDecimal ip = true → isDecimal fp = true →
          psiValue line key = decimalPoint ip fp →
          2 ^ 1024 * 10 ^ fp.length ≤ decVal (ip ++ fp) → r.avg key = F64.inf false)) ∧
      r.totalUs = (ParseUint (TrimSpace (psiValue line "total".toList))).1 ∧
      ((∀ p ∈ (Fields line).tail, psiKey p ≠ some "total".toList) → r.totalUs = 0) ∧
      ((ParseUint (TrimSpace (psiValue line "total".toList))).2 = some NumError.ErrSyntax →
        r.totalUs = 0) ∧
      ((ParseUint (TrimSpace (psiValue line "total".toList))).2 = some NumError.ErrRange →
        r.totalUs = 2 ^ 64 - 1) ∧
      r.totalUs
        = (if psiValue line "total".toList = [] then 0
          else if 2 ^ 64 ≤ decVal ((psiValue line "total".toList).takeWhile isDigit) then
            2 ^ 64 - 1
          else if (psiValue line "total".toList).all isDigit = true then
            decVal (psiValue line "total".toList)
          else 0) := by
  refine ⟨_, parsePSILine_eq line (Fields_ne_nil_of_kind line hkind), ?_, rfl, ?_, ?_, ?_, ?_⟩
  · intro key hkey
    have hval : (PSILine.mk (ParseFloat (TrimSpace (psiValue line "avg10".toList))).1
        (ParseFloat (TrimSpace (psiValue line "avg60".toList))).1
        (ParseFloat (TrimSpace (psiValue line "avg300".toList))).1
        (ParseUint (TrimSpace (psiValue line "total".toList))).1).avg key
          = (ParseFloat (TrimSpace (psiValue line key))).1 := by
      simp only [avgKeys, List.mem_cons, List.mem_singleton, List.not_mem_nil, or_false] at hkey
      rcases hkey with h | h | h <;> subst h <;> simp [PSILine.avg]
    refine ⟨hval, ?_, ?_, ?_, ?_, ?_, ?_⟩
    · intro habs
      rw [hval, psiValue_absent line key habs]
      decide
    · intro herr
      rw [hval]
      exact ParseFloat_syntax _ herr
    · intro herr
      rw [hval]
      exact ParseFloat_range _ herr
    · intro hemp
      rw [hval, hemp]
      decide
    · intro c t hv hc
      rw [hval, TrimSpace_psiValue, hv, ParseFloat_bad_start c t hc]
    · intro ip fp hip hfp hv hbig
      rw [hval, TrimSpace_psiValue, hv]
      exact ParseFloat_decimal_huge ip fp hip hfp hbig
  · intro habs
    simp only [psiValue_absent line _ habs]
    decide
  · exact (ParseUint_err _).1
  · exact (ParseUint_err _).2
  · simp only [TrimSpace_psiValue]
    rw [ParseUint_shape]
    split_ifs <;> rfl

/-- C3, witness: a line with an unparsable average, a negative total and no
`avg60` and `avg300` tokens yields four zero fields; a line with an empty
average and a total whose twenty leading digits exceed 2^64, followed by a
letter, yields zero averages and the total 2^64 - 1. -/
theorem parsePSILine_malformed_witness :
    (∃ r : PSILine, parsePSILine "some avg10=abc total=-5".toList = some r ∧
      r = ⟨F64.zero, F64.zero, F64.zero, 0⟩) ∧
    (∃ r : PSILine,
      parsePSILine "full avg10=abc avg60= total=99999999999999999999x".toList = some r ∧
      r.avg10 = F64.zero ∧ r.avg60 = F64.zero ∧ r.avg300 = F64.zero ∧
      r.totalUs = 18446744073709551615) := by
  constructor
  · obtain ⟨r, hr, _⟩ := parsePSILine_malformed "some avg10=abc total=-5".toList
      (Or.inl (by decide))
    refine ⟨r, hr, ?_⟩
    have h2 : parsePSILine "some avg10=abc total=-5".toList
        = some ⟨F64.zero, F64.zero, F64.zero, 0⟩ := by decide
    rw [h2] at hr
    exact (Option.some.inj hr).symm
  · obtain ⟨r, hr, havg, _, _, _, _, htot⟩ :=
      parsePSILine_malformed "full avg10=abc avg60= total=99999999999999999999x".toList
        (Or.inr (by decide))
    have v1 : psiValue "full avg10=abc avg60= total=99999999999999999999x".toList
        "avg10".toList = 'a' :: "bc".toList := by decide
    have v2 : psiValue "full avg10=abc avg60= total=99999999999999999999x".toList
        "avg60".toList = [] := by decide
    have v4 : psiValue "full avg10=abc avg60= total=99999999999999999999x".toList
        "total".toList = "99999999999999999999x".toList := by decide
    have a1 := (havg "avg10".toList (by decide)).2.2.2.2.2.1 'a' "bc".toList v1 (by decide)
    have a2 := (havg "avg60".toList (by decide)).2.2.2.2.1 v2
    have a3 := (havg "avg300".toList (by decide)).2.1 (by decide)
    rw [v4] at htot
    exact ⟨r, hr, a1, a2, a3, by rw [htot]; decide⟩

/-- C3, counterexample: a `total` of 2^64 is rejected by `ParseUint` (it does
not fit in 64 bits) and the field is returned as 2^64 - 1, not as zero. -/
theorem parsePSILine_total_overflow :
    HasPrefix "some avg10=1.0 avg60=1.0 avg300=1.0 total=18446744073709551616".toList
      "some ".toList = true ∧
    psiValue "some avg10=1.0 avg60=1.0 avg300=1.0 total=18446744073709551616".toList
      "total".toList = "18446744073709551616".toList ∧
    (ParseUint "18446744073709551616".toList).2 = some NumError.ErrRange ∧
    parsePSILine "some avg10=1.0 avg60=1.0 avg300=1.0 total=18446744073709551616".toList
      = some ⟨.fin false 4503599627370496 (-52), .fin false 4503599627370496 (-52),
          .fin false 4503599627370496 (-52), 18446744073709551615⟩ ∧
    (18446744073709551615 : Nat) ≠ 0 := by
  decide

/-! ## C4: the network rate step -/

/-- C4 (as amended). In a tick of the network sampler, with `dt` the elapsed
time in seconds: when both counters are non-decreasing and `dt > 0`, RxBps is
`uint64(float64(rx - rxPrev) / dt)` and TxBps is `uint64(float64(tx - txPrev) / dt)`
(float64 division, truncated towards zero); when either counter decreased, or
`dt > 0` fails, both rates are 0. -/
theorem netTick_rates (platform : F64 → Nat) (iface : List Char) (st : NetState)
    (rx tx : Nat) (now nowMS : Int) (hrx : rx < 2 ^ 64) (htx : tx < 2 ^ 64) :
    ((st.rxPrev ≤ rx ∧ st.txPrev ≤ tx ∧
        F64.lt F64.zero (Seconds (timeSub now st.prevT)) = true) →
      (netTick platform iface st rx tx now nowMS).2.RxBps
        = F64.toUint64 platform
            (F64.div (F64.ofNat (rx - st.rxPrev)) (Seconds (timeSub now st.prevT))) ∧
      (netTick platform iface st rx tx now nowMS).2.TxBps
        = F64.toUint64 platform
            (F64.div (F64.ofNat (tx - st.txPrev)) (Seconds (timeSub now st.prevT)))) ∧
    ((rx < st.rxPrev ∨ tx < st.txPrev ∨
        F64.lt F64.zero (Seconds (timeSub now st.prevT)) = false) →
      (netTick platform iface st rx tx now nowMS).2.RxBps = 0 ∧
      (netTick platform iface st rx tx now nowMS).2.TxBps = 0) := by
  have hsub : ∀ a b : Nat, a < 2 ^ 64 → b ≤ a → (a + 2 ^ 64 - b) % 2 ^ 64 = a - b := by
    intro a b ha hb
    have h : a + 2 ^ 64 - b = (a - b) + 2 ^ 64 := by omega
    rw [h, Nat.add_mod_right]
    exact Nat.mod_eq_of_lt (by omega)
  constructor
  · rintro ⟨h1, h2, h3⟩
    simp only [netTick, netRates, h1, h2, h3, and_self, if_true, hsub rx _ hrx h1,
      hsub tx _ htx h2]
  · intro h
    have hg : ¬ (st.rxPrev ≤ rx ∧ st.txPrev ≤ tx ∧
        F64.lt F64.zero (Seconds (timeSub now st.prevT)) = true) := by
      rintro ⟨h1, h2, h3⟩
      rcases h with h | h | h
      · omega
      · omega
      · rw [h3] at h; exact Bool.noConfusion h
    simp only [netTick, netRates, if_neg hg, and_self]

/-- C4, witness: 1000 bytes received and 40 sent in one second. -/
theorem netTick_rates_witness :
    (netTick (fun _ => 0) "eth0".toList ⟨0, 0, 10⟩ 1000 50 1000000000 7).2.RxBps = 1000 ∧
    (netTick (fun _ => 0) "eth0".toList ⟨0, 0, 10⟩ 1000 50 1000000000 7).2.TxBps = 40 := by
  have h := (netTick_rates (fun _ => 0) "eth0".toList ⟨0, 0, 10⟩ 1000 50 1000000000 7
    (by decide) (by decide)).1 ⟨by decide, by decide, by decide⟩
  have e1 : F64.toUint64 (fun _ => 0)
      (F64.div (F64.ofNat (1000 - 0)) (Seconds (timeSub 1000000000 0))) = 1000 := by decide
  have e2 : F64.toUint64 (fun _ => 0)
      (F64.div (F64.ofNat (50 - 10)) (Seconds (timeSub 1000000000 0))) = 40 := by decide
  exact ⟨h.1.trans e1, h.2.trans e2⟩

/-- C4, counterexample: the receive counter went from 0 to 1000 in one
second, so `(rx - rxPrev) / dt` truncated is 1000, but the transmit counter
decreased in the same tick and the emitted RxBps is 0. -/
theorem netTick_joint_guard :
    (0 : Nat) ≤ 1000 ∧ F64.lt F64.zero (Seconds (timeSub 1000000000 0)) = true ∧
    F64.toUint64 (fun _ => 0)
      (F64.div (F64.ofNat (1000 - 0)) (Seconds (timeSub 1000000000 0))) = 1000 ∧
    (netTick (fun _ => 0) "eth0".toList ⟨0, 0, 10⟩ 1000 5 1000000000 7).2.RxBps = 0 ∧
    (netTick (fun _ => 0) "eth0".toList ⟨0, 0, 10⟩ 1000 5 1000000000 7).2.RxBps
      ≠ F64.toUint64 (fun _ => 0)
          (F64.div (F64.ofNat (1000 - 0)) (Seconds (timeSub 1000000000 0))) := by
  decide

/-! ## C5: the cache sample built at a flush -/

/-- Every cache sample a line makes the loop offer is `mkLLC` of the
accumulators as they are after the line is classified. -/
theorem perfStep_llc_eq (sec : F64) (st : PerfState) (text : List Char) (nowL nowM : Int)
    (s : LLCSample) (h : (perfStep sec st text nowL nowM).2.llc = some s) :
    s = mkLLC (classify st (lineEvent text) (lineValue text)) nowL := by
  unfold perfStep flush at h
  split_ifs at h <;> simp at h <;> exact h.symm

/-- C5. Whenever a line makes the loop emit a CacheSample, with `acc` the
accumulators at that flush: the sample has Loads, Stores, Instr equal to the
accumulators and Misses = load-misses + store-misses; HitRate is
1 - Misses/(Loads + Stores) when Loads + Stores > 0 and 0 otherwise, and MPKI
is 1000 * Misses / Instr when Instr > 0 and 0 otherwise, in float64
arithmetic. The two sums are the uint64 sums of the code, taken modulo 2^64;
they are the plain sums whenever these are below 2^64. -/
theorem perfStep_llc_derivation (sec : F64) (st : PerfState) (text : List Char)
    (nowL nowM : Int) (s : LLCSample)
    (h : (perfStep sec st text nowL nowM).2.llc = some s) :
    s.Loads = (classify st (lineEvent text) (lineValue text)).loads ∧
    s.Stores = (classify st (lineEvent text) (lineValue text)).stores ∧
    s.Instr = (classify st (lineEvent text) (lineValue text)).instr ∧
    s.Misses = ((classify st (lineEvent text) (lineValue text)).lmiss
      + (classify st (lineEvent text) (lineValue text)).smiss) % 2 ^ 64 ∧
    s.HitRate = (if 0 < (s.Loads + s.Stores) % 2 ^ 64 then
        F64.sub (F64.ofNat 1)
          (F64.div (F64.ofNat s.Misses) (F64.ofNat ((s.Loads + s.Stores) % 2 ^ 64)))
      else F64.zero) ∧
    s.MPKI = (if 0 < s.Instr then
        F64.div (F64.mul (F64.ofNat 1000) (F64.ofNat s.Misses)) (F64.ofNat s.Instr)
      else F64.zero) ∧
    ((classify st (lineEvent text) (lineValue text)).lmiss
        + (classify st (lineEvent text) (lineValue text)).smiss < 2 ^ 64 →
      s.Misses = (classify st (lineEvent text) (lineValue text)).lmiss
        + (classify st (lineEvent text) (lineValue text)).smiss) ∧
    (s.Loads + s.Stores < 2 ^ 64 →
      s.HitRate = (if 0 < s.Loads + s.Stores then
          F64.sub (F64.ofNat 1) (F64.div (F64.ofNat s.Misses) (F64.ofNat (s.Loads + s.Stores)))
        else F64.zero)) := by
  rw [perfStep_llc_eq sec st text nowL nowM s h]
  refine ⟨rfl, rfl, rfl, rfl, rfl, rfl, ?_, ?_⟩
  · intro hlt
    simp only [mkLLC]
    exact Nat.mod_eq_of_lt hlt
  · intro hlt
    simp only [mkLLC] at hlt ⊢
    rw [Nat.mod_eq_of_lt hlt]

/-- C5, witness: with loads = 100, stores = 50, load-misses = 15 accumulated,
the line `instructions` = 100000 emits a sample with MPKI = 0.15 and
HitRate = 0.9 (the float64 nearest to these decimals). -/
theorem perfStep_llc_derivation_witness :
    ∃ s : LLCSample,
      (perfStep (intervalSec 1000000000)
        ⟨100, 15, 50, 0, 0, true, true, true, true, false, F64.zero, F64.zero, false, false⟩
        "1.000,100000,,instructions,1,100.00,,".toList 7 8).2.llc = some s ∧
      s.Loads = 100 ∧ s.Stores = 50 ∧ s.Instr = 100000 ∧ s.Misses = 15 ∧
      s.HitRate = nearestF64 "0".toList "9".toList ∧
      s.MPKI = nearestF64 "0".toList "15".toList := by
  have h0 : (perfStep (intervalSec 1000000000)
      ⟨100, 15, 50, 0, 0, true, true, true, true, false, F64.zero, F64.zero, false, false⟩
      "1.000,100000,,instructions,1,100.00,,".toList 7 8).2.llc
        = some ⟨.fin false 5404319552844595 (-55), .fin false 8106479329266893 (-53),
            100, 50, 15, 100000, 7, "perf".toList⟩ := by decide
  have h := perfStep_llc_derivation _ _ _ _ _ _ h0
  exact ⟨_, h0, h.1.trans (by decide), h.2.1.trans (by decide), h.2.2.1.trans (by decide),
    h.2.2.2.1.trans (by decide), h.2.2.2.2.1.trans (by decide),
    h.2.2.2.2.2.1.trans (by decide)⟩

/-! ## C6: the range of the hit ratio -/

/-- The hit ratio of the sample built at a flush is at most 1, and at least
0 when the miss count does not exceed the access count. -/
theorem mkLLC_hit_bounds (st : PerfState) (now : Int) :
    F64.le (mkLLC st now).HitRate (F64.ofNat 1) = true ∧
    ((mkLLC st now).Misses ≤ ((mkLLC st now).Loads + (mkLLC st now).Stores) % 2 ^ 64 →
      F64.le F64.zero (mkLLC st now).HitRate = true) := by
  simp only [mkLLC]
  have h1 : (st.lmiss + st.smiss) % 2 ^ 64 < 2 ^ 64 := Nat.mod_lt _ (by positivity)
  have h2 : (st.loads + st.stores) % 2 ^ 64 < 2 ^ 64 := Nat.mod_lt _ (by positivity)
  by_cases h : 0 < (st.loads + st.stores) % 2 ^ 64
  · rw [if_pos h]
    exact hit_bounds _ _ h1 h2 h
  · rw [if_neg h]
    exact ⟨by decide, fun _ => by decide⟩

/-- Every cache sample of a run was built by `mkLLC` at a flush. -/
theorem llcSamples_mkLLC (sec : F64) (ls : List PerfLine) :
    ∀ (st : PerfState) (s : LLCSample), s ∈ llcSamples (perfRun sec st ls).2 →
      ∃ st1 now, s = mkLLC st1 now := by
  induction ls with
  | nil => intro st s h; simp [perfRun, llcSamples] at h
  | cons l rest ih =>
    intro st s h
    simp only [perfRun, llcSamples, List.filterMap_cons] at h
    cases hl : (perfStep sec st l.text l.nowL l.nowM).2.llc with
    | none =>
      rw [hl] at h
      exact ih _ s h
    | some s0 =>
      rw [hl] at h
      rcases List.mem_cons.mp h with h | h
      · exact ⟨_, _, h ▸ perfStep_llc_eq sec st l.text l.nowL l.nowM s0 hl⟩
      · exact ih _ s h

/-- C6 (as amended). Every CacheSample emitted by the line processor, for
every sequence of input lines, has a hit ratio of at most 1; the hit ratio is
also at least 0 whenever the sample's miss count does not exceed its access
count `(Loads + Stores) mod 2^64`. -/
theorem hitrate_range (sec : F64) (ls : List PerfLine) (s : LLCSample)
    (h : s ∈ llcSamples (perfRun sec PerfState.init ls).2) :
    F64.le s.HitRate (F64.ofNat 1) = true ∧
    (s.Misses ≤ (s.Loads + s.Stores) % 2 ^ 64 → F64.le F64.zero s.HitRate = true) := by
  obtain ⟨st1, now, rfl⟩ := llcSamples_mkLLC sec ls PerfState.init s h
  exact mkLLC_hit_bounds st1 now

/-- C6, witness: the sample of the interval loads = 100, stores = 50,
misses = 15 has HitRate = 0.9, between 0 and 1. -/
theorem hitrate_range_witness :
    (⟨.fin false 5404319552844595 (-55), .fin false 8106479329266893 (-53),
        100, 50, 15, 100000, 0, "perf".toList⟩ : LLCSample)
      ∈ llcSamples (perfRun (intervalSec 1000000000) PerfState.init
          (defaultInterval "1.000".toList
            ["100".toList, "15".toList, "50".toList, "0".toList, "100000".toList,
             "1000".toList, "500".toList])).2 ∧
    F64.le (.fin false 8106479329266893 (-53)) (F64.ofNat 1) = true ∧
    F64.le F64.zero (.fin false 8106479329266893 (-53)) = true :=
  ⟨by decide,
   (hitrate_range (intervalSec 1000000000)
      (defaultInterval "1.000".toList
        ["100".toList, "15".toList, "50".toList, "0".toList, "100000".toList,
         "1000".toList, "500".toList])
      ⟨.fin false 5404319552844595 (-55), .fin false 8106479329266893 (-53),
        100, 50, 15, 100000, 0, "perf".toList⟩ (by decide)).1,
   (hitrate_range (intervalSec 1000000000)
      (defaultInterval "1.000".toList
        ["100".toList, "15".toList, "50".toList, "0".toList, "100000".toList,
         "1000".toList, "500".toList])
      ⟨.fin false 5404319552844595 (-55), .fin false 8106479329266893 (-53),
        100, 50, 15, 100000, 0, "perf".toList⟩ (by decide)).2 (by decide)⟩

/-- C6, counterexample: an interval with 5 loads and 20 load misses emits a
CacheSample whose HitRate is `1 - 20/5 = -3`, below 0. -/
theorem hitrate_negative :
    llcSamples (perfRun (intervalSec 1000000000) PerfState.init
      [⟨"1.000,5,,LLC-loads,1,100.00,,".toList, 0, 0⟩,
       ⟨"1.000,20,,LLC-load-misses,1,100.00,,".toList, 0, 0⟩,
       ⟨"1.000,100000,,instructions,1,100.00,,".toList, 0, 0⟩]).2
      = [⟨.fin false 7205759403792794 (-55), .fin true 6755399441055744 (-51),
          5, 0, 20, 100000, 0, "perf".toList⟩] ∧
    F64.le F64.zero (.fin true 6755399441055744 (-51)) = false ∧
    F64.neg (F64.ofNat 3) = .fin true 6755399441055744 (-51) := by
  decide

/-! ## C7: the memory-bandwidth sample built at a flush -/

/-- Every memory-bandwidth sample a line makes the loop offer is `mkMemBw`
of the accumulators as they are after the line is classified. -/
theorem perfStep_mem_eq (sec : F64) (st : PerfState) (text : List Char) (nowL nowM : Int)
    (b : MemBw) (h : (perfStep sec st text nowL nowM).2.mem = some b) :
    b = mkMemBw sec (classify st (lineEvent text) (lineValue text)) nowM := by
  unfold perfStep flush at h
  split_ifs at h <;> simp at h <;> exact h.symm

/-- C7 (as amended). Whenever a line makes the loop emit a
MemoryBandwidthSample, with `rd` and `wr` the transaction counts at that
flush and `sec` the interval in seconds: ReadMBs = rd * 64 / 1048576 / sec,
WriteMBs = wr * 64 / 1048576 / sec and TotalMBs = (rd + wr) * 64 / 1048576 / sec,
each computed on its own in float64 arithmetic. When the interval is a power
of two in seconds, `2^k` with `-9 ≤ k ≤ 33`, and each of rd and wr is a count
in range (zero, or a float64 value from 2^-975 up to, not including, 2^1016),
TotalMBs is the float64 sum ReadMBs + WriteMBs. The intervals of
`1953125 * 2^t` nanoseconds, `t ≤ 42`, are these powers of two (a quarter of
a second, half a second, one, two, four seconds among them), and every whole
count below 2^64 is a count in range. -/
theorem membw_derivation (sec : F64) (st : PerfState) (text : List Char)
    (nowL nowM : Int) (b : MemBw)
    (h : (perfStep sec st text nowL nowM).2.mem = some b) :
    b.ReadMBs = F64.div (F64.div (F64.mul (classify st (lineEvent text) (lineValue text)).rd
        (F64.ofNat 64)) (F64.ofNat 1048576)) sec ∧
    b.WriteMBs = F64.div (F64.div (F64.mul (classify st (lineEvent text) (lineValue text)).wr
        (F64.ofNat 64)) (F64.ofNat 1048576)) sec ∧
    b.TotalMBs = F64.div (F64.div (F64.mul
        (F64.add (classify st (lineEvent text) (lineValue text)).rd
          (classify st (lineEvent text) (lineValue text)).wr)
        (F64.ofNat 64)) (F64.ofNat 1048576)) sec ∧
    (∀ k : Int, -9 ≤ k → k ≤ 33 → sec = .fin false (2 ^ 52) (k - 52) →
      isCount (classify st (lineEvent text) (lineValue text)).rd = true →
      isCount (classify st (lineEvent text) (lineValue text)).wr = true →
      b.TotalMBs = F64.add b.ReadMBs b.WriteMBs) ∧
    (∀ t : Nat, t ≤ 42 →
      intervalSec (1953125 * 2 ^ t) = .fin false (2 ^ 52) ((t : Int) - 61)) ∧
    (∀ n : Nat, n < 2 ^ 64 → isCount (F64.ofNat n) = true) := by
  rw [perfStep_mem_eq sec st text nowL nowM b h]
  refine ⟨rfl, rfl, rfl, ?_, intervalSec_pow2, isCount_ofNat⟩
  intro k hk1 hk2 hsec hrd hwr
  rw [hsec]
  exact membw_total_pow2 _ k nowM hk1 hk2 hrd hwr

/-- C7, witness: rd = 1000 and wr = 500 over one second give
ReadMBs = 1000 * 64 / 1048576 and TotalMBs = ReadMBs + WriteMBs; the
fractional counts 0.1 and 2.5 over a quarter of a second give a TotalMBs
equal to ReadMBs + WriteMBs as well. -/
theorem membw_derivation_witness :
    ((perfStep (intervalSec 1000000000)
      ⟨0, 0, 0, 0, 0, true, false, false, false, false, F64.ofNat 1000, F64.ofNat 500,
        true, true⟩
      "1.000,100000,,instructions,1,100.00,,".toList 0 0).2.mem
      = some ⟨"perf".toList, F64.round false (1000 * 64) 1048576,
          F64.round false (500 * 64) 1048576, F64.round false (1500 * 64) 1048576, 0⟩ ∧
    F64.round false (1500 * 64) 1048576
      = F64.add (F64.round false (1000 * 64) 1048576) (F64.round false (500 * 64) 1048576)) ∧
    ((perfStep (intervalSec 250000000)
      ⟨0, 0, 0, 0, 0, true, false, false, false, false, (ParseFloat "0.1".toList).1,
        (ParseFloat "2.5".toList).1, true, true⟩
      "0.250,100000,,instructions,1,100.00,,".toList 0 0).2.mem
      = some ⟨"perf".toList, .fin false 7205759403792794 (-68),
          .fin false 5629499534213120 (-63), .fin false 5854679515581645 (-63), 0⟩ ∧
    (.fin false 5854679515581645 (-63) : F64)
      = F64.add (.fin false 7205759403792794 (-68)) (.fin false 5629499534213120 (-63))) := by
  have h0 : (perfStep (intervalSec 1000000000)
      ⟨0, 0, 0, 0, 0, true, false, false, false, false, F64.ofNat 1000, F64.ofNat 500,
        true, true⟩
      "1.000,100000,,instructions,1,100.00,,".toList 0 0).2.mem
      = some ⟨"perf".toList, F64.round false (1000 * 64) 1048576,
          F64.round false (500 * 64) 1048576, F64.round false (1500 * 64) 1048576, 0⟩ := by
    decide
  have h1 : (perfStep (intervalSec 250000000)
      ⟨0, 0, 0, 0, 0, true, false, false, false, false, (ParseFloat "0.1".toList).1,
        (ParseFloat "2.5".toList).1, true, true⟩
      "0.250,100000,,instructions,1,100.00,,".toList 0 0).2.mem
      = some ⟨"perf".toList, .fin false 7205759403792794 (-68),
          .fin false 5629499534213120 (-63), .fin false 5854679515581645 (-63), 0⟩ := by
    decide
  exact ⟨⟨h0, (membw_derivation _ _ _ _ _ _ h0).2.2.2.1 0 (by decide) (by decide) (by decide)
      (by decide) (by decide)⟩,
    ⟨h1, (membw_derivation _ _ _ _ _ _ h1).2.2.2.1 (-2) (by decide) (by decide) (by decide)
      (by decide) (by decide)⟩⟩

/-- C7, counterexample: with rd = 1 and wr = 2 over an interval of five
seconds the emitted TotalMBs is `5404319552844595 * 2^-67`, while
ReadMBs + WriteMBs is `5404319552844596 * 2^-67`. Outside the range of
counts the two differ for an interval of one second as well: the counts
`1.5e306` give the TotalMBs +Inf and a finite ReadMBs + WriteMBs, and the
counts `3e-320` give the TotalMBs `2^-1074` and ReadMBs + WriteMBs zero. -/
theorem membw_total_not_sum :
    (perfStep (intervalSec 5000000000)
      ⟨0, 0, 0, 0, 0, true, false, false, false, false, F64.ofNat 1, F64.ofNat 2, true, true⟩
      "5.000,100000,,instructions,1,100.00,,".toList 0 0).2.mem
      = some ⟨"perf".toList, .fin false 7205759403792794 (-69),
          .fin false 7205759403792794 (-68), .fin false 5404319552844595 (-67), 0⟩ ∧
    F64.add (.fin false 7205759403792794 (-69)) (.fin false 7205759403792794 (-68))
      = .fin false 5404319552844596 (-67) ∧
    (.fin false 5404319552844595 (-67) : F64)
      ≠ F64.add (.fin false 7205759403792794 (-69)) (.fin false 7205759403792794 (-68)) ∧
    (perfStep (intervalSec 1000000000)
      ⟨0, 0, 0, 0, 0, true, false, false, false, false, (ParseFloat "1.5e306".toList).1,
        (ParseFloat "1.5e306".toList).1, true, true⟩
      "1.000,100000,,instructions,1,100.00,,".toList 0 0).2.mem
      = some ⟨"perf".toList, .fin false 4810004064021535 951,
          .fin false 4810004064021535 951, .inf false, 0⟩ ∧
    F64.add (.fin false 4810004064021535 951) (.fin false 4810004064021535 951)
      = .fin false 4810004064021535 952 ∧
    (perfStep (intervalSec 1000000000)
      ⟨0, 0, 0, 0, 0, true, false, false, false, false, (ParseFloat "3e-320".toList).1,
        (ParseFloat "3e-320".toList).1, true, true⟩
      "1.000,100000,,instructions,1,100.00,,".toList 0 0).2.mem
      = some ⟨"perf".toList, F64.zero, F64.zero, .fin false 1 (-1074), 0⟩ ∧
    F64.add F64.zero F64.zero = F64.zero := by
  decide

/-! ## C8: skipped lines -/

theorem perfStep_of_skip (sec : F64) (st : PerfState) (text : List Char) (nowL nowM : Int)
    (h : skipLine text = true) : perfStep sec st text nowL nowM = (st, ⟨none, none⟩) := by
  simp [perfStep, h]

theorem perfRun_filter_skip (sec : F64) (ls : List PerfLine) :
    ∀ st : PerfState,
      (perfRun sec st (ls.filter (fun l => !skipLine l.text))).1 = (perfRun sec st ls).1 ∧
      llcSamples (perfRun sec st (ls.filter (fun l => !skipLine l.text))).2
        = llcSamples (perfRun sec st ls).2 ∧
      memSamples (perfRun sec st (ls.filter (fun l => !skipLine l.text))).2
        = memSamples (perfRun sec st ls).2 := by
  induction ls with
  | nil => intro st; exact ⟨rfl, rfl, rfl⟩
  | cons l rest ih =>
    intro st
    by_cases hs : skipLine l.text = true
    · have hstep := perfStep_of_skip sec st l.text l.nowL l.nowM hs
      simp only [List.filter_cons, hs, Bool.not_true, Bool.false_eq_true, if_false,
        perfRun, hstep]
      obtain ⟨h1, h2, h3⟩ := ih st
      refine ⟨h1, ?_, ?_⟩
      · rw [h2]; simp [llcSamples]
      · rw [h3]; simp [memSamples]
    · have hs2 : skipLine l.text = false := by simpa using hs
      simp only [List.filter_cons, hs2, Bool.not_false, if_true, perfRun]
      obtain ⟨h1, h2, h3⟩ := ih (perfStep sec st l.text l.nowL l.nowM).1
      refine ⟨h1, ?_, ?_⟩
      · simp only [llcSamples, List.filterMap_cons] at h2 ⊢
        rw [h2]
      · simp only [memSamples, List.filterMap_cons] at h3 ⊢
        rw [h3]

/-- C8. A line with fewer than four comma-separated fields, or whose trimmed
value field is empty or contains "not counted", or whose event field contains
"duration_time", leaves every accumulator and presence flag unchanged and
emits no sample; and for every line sequence, from every state, removing all
such lines changes neither the final state nor the CacheSamples and
MemoryBandwidthSamples emitted. -/
theorem skipped_lines_no_effect (sec : F64) (st : PerfState) :
    (∀ (text : List Char) (nowL nowM : Int),
      ((Split text ',').length < 4 ∨ lineValue text = [] ∨
        Contains (lineValue text) "not counted".toList = true ∨
        Contains (lineEvent text) "duration_time".toList = true) →
      perfStep sec st text nowL nowM = (st, ⟨none, none⟩)) ∧
    (∀ ls : List PerfLine,
      (perfRun sec st (ls.filter (fun l => !skipLine l.text))).1 = (perfRun sec st ls).1 ∧
      llcSamples (perfRun sec st (ls.filter (fun l => !skipLine l.text))).2
        = llcSamples (perfRun sec st ls).2 ∧
      memSamples (perfRun sec st (ls.filter (fun l => !skipLine l.text))).2
        = memSamples (perfRun sec st ls).2) := by
  constructor
  · intro text nowL nowM h
    apply perfStep_of_skip
    unfold skipLine
    rcases h with h | h | h | h
    · simp [h]
    · simp [h]
    · rw [h]; simp
    · rw [h]; simp
  · intro ls
    exact perfRun_filter_skip sec ls st

/-- C8, witness: a "not counted" line for `instructions`, met with data
accumulated, flushes nothing and changes nothing. -/
theorem skipped_lines_no_effect_witness :
    perfStep (intervalSec 1000000000)
      ⟨100, 15, 50, 0, 0, true, true, true, true, false, F64.zero, F64.zero, false, false⟩
      "1.000,<not counted>,,instructions,0,100.00,,".toList 7 8
      = (⟨100, 15, 50, 0, 0, true, true, true, true, false, F64.zero, F64.zero, false, false⟩,
          ⟨none, none⟩) :=
  (skipped_lines_no_effect (intervalSec 1000000000)
    ⟨100, 15, 50, 0, 0, true, true, true, true, false, F64.zero, F64.zero, false, false⟩).1
    "1.000,<not counted>,,instructions,0,100.00,,".toList 7 8
    (Or.inr (Or.inr (Or.inl (by decide))))

/-! ## C9: flush and reset at the end of an interval -/

theorem isDigit_ne_comma (c : Char) (h : isDigit c = true) : c ≠ ',' :=
  isDigit_ne c ',' h (by decide)

theorem decimal_facts (v : List Char) (h : isDecimal v = true) :
    v ≠ [] ∧ ',' ∉ v ∧ TrimSpace v = v ∧ Contains v "not counted".toList = false := by
  obtain ⟨hne, hd⟩ := (isDecimal_iff v).mp h
  refine ⟨hne, ?_, ?_, ?_⟩
  · intro hc
    exact isDigit_ne_comma _ (hd _ hc) rfl
  · exact TrimSpace_of_no_space v (fun c hc => isDigit_not_space c (hd c hc))
  · exact Contains_digits v _ 'n' (by decide) hd

theorem Split_line (f : CSVFrame) (v ev : List Char) (hf : f.ok = true)
    (hv : ',' ∉ v) (hev : ',' ∉ ev) :
    Split (f.line v ev) ',' = f.time :: v :: f.unit :: ev :: f.more := by
  unfold CSVFrame.ok at hf
  simp only [Bool.and_eq_true, Bool.not_eq_true', List.all_eq_true] at hf
  obtain ⟨⟨h1, h2⟩, h3⟩ := hf
  have c1 : ',' ∉ f.time := by simpa using h1
  have c2 : ',' ∉ f.unit := by simpa using h2
  have c3 : ∀ x ∈ f.more, ',' ∉ x := by
    intro x hx
    have := h3 x hx
    simpa using this
  unfold CSVFrame.line perfCSV
  apply Split_fields
  · simp
  · intro x hx
    simp only [List.mem_cons] at hx
    rcases hx with rfl | rfl | rfl | rfl | hx
    · exact c1
    · exact hv
    · exact c2
    · exact hev
    · exact c3 x hx

/-- A well-formed line with a decimal value is not skipped: the loop
classifies it and runs the flush check. -/
theorem perfStep_line (sec : F64) (st : PerfState) (f : CSVFrame) (v ev : List Char)
    (nowL nowM : Int) (hf : f.ok = true) (hv : isDecimal v = true) (hev : ',' ∉ ev)
    (htrim : TrimSpace ev = ev) (hdur : Contains ev "duration_time".toList = false) :
    perfStep sec st (f.line v ev) nowL nowM = flush sec (classify st ev v) nowL nowM := by
  obtain ⟨hne, hcomma, hvtrim, hnc⟩ := decimal_facts v hv
  have hsplit := Split_line f v ev hf hcomma hev
  have hval : lineValue (f.line v ev) = v := by
    unfold lineValue; rw [hsplit]; simpa using hvtrim
  have hevt : lineEvent (f.line v ev) = ev := by
    unfold lineEvent; rw [hsplit]; simpa using htrim
  have hskip : skipLine (f.line v ev) = false := by
    unfold skipLine
    rw [hval, hevt, hsplit, hnc, hdur]
    simp [hne]
  unfold perfStep
  rw [hskip, hval, hevt]
  simp

theorem classify_loads (st : PerfState) (v : List Char) (hv : isDecimal v = true)
    (hlt : decVal v < 2 ^ 64) :
    classify st "LLC-loads".toList v
      = { st with loads := (st.loads + decVal v) % 2 ^ 64, haveL := true } := by
  have h1 : Contains "LLC-loads".toList "LLC-loads".toList = true := by decide
  unfold classify
  rw [if_pos h1, ParseUint_decimal v hv hlt]

theorem classify_load_misses (st : PerfState) (v : List Char) (hv : isDecimal v = true)
    (hlt : decVal v < 2 ^ 64) :
    classify st "LLC-load-misses".toList v
      = { st with lmiss := (st.lmiss + decVal v) % 2 ^ 64, haveLM := true } := by
  have h1 : Contains "LLC-load-misses".toList "LLC-loads".toList = false := by decide
  have h2 : Contains "LLC-load-misses".toList "LLC-load-misses".toList = true := by decide
  unfold classify
  rw [h1, h2, ParseUint_decimal v hv hlt]
  simp

theorem classify_instructions (st : PerfState) (v : List Char) (hv : isDecimal v = true)
    (hlt : decVal v < 2 ^ 64) :
    classify st "instructions".toList v = { st with instr := decVal v, haveI_ := true } := by
  have h1 : Contains "instructions".toList "LLC-loads".toList = false := by decide
  have h2 : Contains "instructions".toList "LLC-load-misses".toList = false := by decide
  have h3 : Contains "instructions".toList "LLC-stores".toList = false := by decide
  have h4 : Contains "instructions".toList "LLC-store-misses".toList = false := by decide
  unfold classify
  rw [h1, h2, h3, h4, ParseUint_decimal v hv hlt]
  simp

/-- C9. From the initial state, the four lines `LLC-loads` = a,
`LLC-load-misses` = m, `instructions` = i and a second `LLC-loads` = b (any
decimal values below 2^64, in any comma-free frame of time, unit and further
columns) emit exactly one CacheSample and no MemoryBandwidthSample; the
CacheSample is emitted by the `instructions` line and has Loads = a,
Misses = m, Instr = i; after the fourth line the loads accumulator is b, its
presence flag is set, and every other accumulator and flag is as in the
initial state. -/
theorem flush_and_reset (sec : F64) (f1 f2 f3 f4 : CSVFrame) (a m i b : List Char)
    (k1 k2 k3 k4 k5 k6 k7 k8 : Int)
    (hf : f1.ok = true ∧ f2.ok = true ∧ f3.ok = true ∧ f4.ok = true)
    (ha : isDecimal a = true ∧ decVal a < 2 ^ 64)
    (hm : isDecimal m = true ∧ decVal m < 2 ^ 64)
    (hi : isDecimal i = true ∧ decVal i < 2 ^ 64)
    (hb : isDecimal b = true ∧ decVal b < 2 ^ 64) :
    ∃ s : LLCSample,
      perfRun sec PerfState.init
        [⟨f1.line a "LLC-loads".toList, k1, k2⟩, ⟨f2.line m "LLC-load-misses".toList, k3, k4⟩,
         ⟨f3.line i "instructions".toList, k5, k6⟩, ⟨f4.line b "LLC-loads".toList, k7, k8⟩]
        = ({ PerfState.init with loads := decVal b, haveL := true },
            [⟨none, none⟩, ⟨none, none⟩, ⟨some s, none⟩, ⟨none, none⟩]) ∧
      s.Loads = decVal a ∧ s.Misses = decVal m ∧ s.Instr = decVal i := by
  obtain ⟨hf1, hf2, hf3, hf4⟩ := hf
  have h64 : (2 : Nat) ^ 64 = 18446744073709551616 := by norm_num
  have ma : decVal a % 18446744073709551616 = decVal a := Nat.mod_eq_of_lt (h64 ▸ ha.2)
  have mm : decVal m % 18446744073709551616 = decVal m := Nat.mod_eq_of_lt (h64 ▸ hm.2)
  have mb : decVal b % 18446744073709551616 = decVal b := Nat.mod_eq_of_lt (h64 ▸ hb.2)
  have e1 := perfStep_line sec PerfState.init f1 a "LLC-loads".toList k1 k2 hf1 ha.1
    (by decide) (by decide) (by decide)
  rw [classify_loads _ a ha.1 ha.2] at e1
  have x1 : flush sec { PerfState.init with
      loads := (PerfState.init.loads + decVal a) % 2 ^ 64, haveL := true } k1 k2
      = (⟨decVal a, 0, 0, 0, 0, true, false, false, false, false, F64.zero, F64.zero,
          false, false⟩, ⟨none, none⟩) := by
    simp [flush, PerfState.init, ma]
  rw [x1] at e1
  have e2 := perfStep_line sec ⟨decVal a, 0, 0, 0, 0, true, false, false, false, false,
    F64.zero, F64.zero, false, false⟩ f2 m "LLC-load-misses".toList k3 k4 hf2 hm.1
    (by decide) (by decide) (by decide)
  rw [classify_load_misses _ m hm.1 hm.2] at e2
  have x2 : flush sec { (⟨decVal a, 0, 0, 0, 0, true, false, false, false, false, F64.zero,
      F64.zero, false, false⟩ : PerfState) with
      lmiss := (0 + decVal m) % 2 ^ 64, haveLM := true } k3 k4
      = (⟨decVal a, decVal m, 0, 0, 0, true, true, false, false, false, F64.zero, F64.zero,
          false, false⟩, ⟨none, none⟩) := by
    simp [flush, mm]
  rw [x2] at e2
  have e3 := perfStep_line sec ⟨decVal a, decVal m, 0, 0, 0, true, true, false, false, false,
    F64.zero, F64.zero, false, false⟩ f3 i "instructions".toList k5 k6 hf3 hi.1
    (by decide) (by decide) (by decide)
  rw [classify_instructions _ i hi.1 hi.2] at e3
  have x3 : flush sec { (⟨decVal a, decVal m, 0, 0, 0, true, true, false, false, false,
      F64.zero, F64.zero, false, false⟩ : PerfState) with
      instr := decVal i, haveI_ := true } k5 k6
      = (PerfState.init, ⟨some (mkLLC ⟨decVal a, decVal m, 0, 0, decVal i, true, true, false,
          false, true, F64.zero, F64.zero, false, false⟩ k5), none⟩) := by
    simp [flush, reset]
  rw [x3] at e3
  have e4 := perfStep_line sec PerfState.init f4 b "LLC-loads".toList k7 k8 hf4 hb.1
    (by decide) (by decide) (by decide)
  rw [classify_loads _ b hb.1 hb.2] at e4
  have x4 : flush sec { PerfState.init with
      loads := (PerfState.init.loads + decVal b) % 2 ^ 64, haveL := true } k7 k8
      = ({ PerfState.init with loads := decVal b, haveL := true }, ⟨none, none⟩) := by
    simp [flush, PerfState.init, mb]
  rw [x4] at e4
  refine ⟨mkLLC ⟨decVal a, decVal m, 0, 0, decVal i, true, true, false,
          false, true, F64.zero, F64.zero, false, false⟩ k5, ?_, rfl, ?_, rfl⟩
  · simp only [perfRun, e1, e2, e3, e4]
  · simp [mkLLC, mm]

/-- C9, witness: a = 100, m = 15, i = 100000, b = 7. -/
theorem flush_and_reset_witness :
    ∃ s : LLCSample,
      perfRun (intervalSec 1000000000) PerfState.init
        [⟨"1.000,100,,LLC-loads,1,100.00,,".toList, 1, 2⟩,
         ⟨"1.000,15,,LLC-load-misses,1,100.00,,".toList, 3, 4⟩,
         ⟨"1.000,100000,,instructions,1,100.00,,".toList, 5, 6⟩,
         ⟨"2.000,7,,LLC-loads,1,100.00,,".toList, 7, 8⟩]
        = ({ PerfState.init with loads := 7, haveL := true },
            [⟨none, none⟩, ⟨none, none⟩, ⟨some s, none⟩, ⟨none, none⟩]) ∧
      s.Loads = 100 ∧ s.Misses = 15 ∧ s.Instr = 100000 :=
  flush_and_reset (intervalSec 1000000000)
    ⟨"1.000".toList, [], ["1".toList, "100.00".toList, [], []]⟩
    ⟨"1.000".toList, [], ["1".toList, "100.00".toList, [], []]⟩
    ⟨"1.000".toList, [], ["1".toList, "100.00".toList, [], []]⟩
    ⟨"2.000".toList, [], ["1".toList, "100.00".toList, [], []]⟩
    "100".toList "15".toList "100000".toList "7".toList 1 2 3 4 5 6 7 8
    (by decide) (by decide) (by decide) (by decide) (by decide)

/-! ## C10: one complete interval in the order of `DefaultConfig` -/

/-- C10, the code at the failing input. One complete interval in the order
of `DefaultConfig` emits one CacheSample and no MemoryBandwidthSample: the
flush runs at the `instructions` line, before the two transaction counts of
the interval are read, and these stay in the accumulators (rd = 1000,
wr = 500, both flags set). They are emitted only by the `instructions` line of
the next interval, as that interval's sample. -/
theorem default_interval_no_membw :
    (llcSamples (perfRun (intervalSec 1000000000) PerfState.init
      (defaultInterval "1.000".toList
        ["100".toList, "15".toList, "50".toList, "0".toList, "100000".toList,
         "1000".toList, "500".toList])).2).length = 1 ∧
    memSamples (perfRun (intervalSec 1000000000) PerfState.init
      (defaultInterval "1.000".toList
        ["100".toList, "15".toList, "50".toList, "0".toList, "100000".toList,
         "1000".toList, "500".toList])).2 = [] ∧
    (perfRun (intervalSec 1000000000) PerfState.init
      (defaultInterval "1.000".toList
        ["100".toList, "15".toList, "50".toList, "0".toList, "100000".toList,
         "1000".toList, "500".toList])).1
      = { PerfState.init with rd := F64.ofNat 1000, wr := F64.ofNat 500,
                              haveRD := true, haveWR := true } ∧
    memSamples (perfRun (intervalSec 1000000000) PerfState.init
      (defaultInterval "1.000".toList
        ["100".toList, "15".toList, "50".toList, "0".toList, "100000".toList,
         "1000".toList, "500".toList]
       ++ defaultInterval "2.000".toList
        ["200".toList, "30".toList, "60".toList, "0".toList, "100000".toList,
         "64".toList, "32".toList])).2
      = [mkMemBw (intervalSec 1000000000)
          { PerfState.init with rd := F64.ofNat 1000, wr := F64.ofNat 500 } 0] := by
  decide


/-! ## C11: the event the threshold watcher builds -/

/-- No line starts with both `some ` and `full `. -/
theorem kind_prefix_exclusive (ln : List Char) (h : HasPrefix ln "some ".toList = true) :
    HasPrefix ln "full ".toList = false := by
  obtain ⟨t, rfl⟩ := List.isPrefixOf_iff_prefix.mp h
  rfl

/-- The event recorded for a line of one kind: that of its parse. -/
theorem parsePSILine_some_of_kind (line : List Char)
    (h : HasPrefix line "some ".toList = true ∨ HasPrefix line "full ".toList = true) :
    ∃ r, parsePSILine line = some r :=
  ⟨_, parsePSILine_eq line (Fields_ne_nil_of_kind line h)⟩

/-- One line of the file never makes `readPSIFile` panic; it replaces the
event of its kind, if it has one. -/
theorem psiLineStep_some (res : List Char) (now : Int) (s f : PSIEvent) (ln : List Char) :
    psiLineStep res now (some (s, f)) ln
      = some
        (if HasPrefix ln "some ".toList = true then
            ((parsePSILine ln).map (fun r => mkPSIEvent res "some".toList r now)).getD s
          else s,
         if HasPrefix ln "full ".toList = true then
            ((parsePSILine ln).map (fun r => mkPSIEvent res "full".toList r now)).getD f
          else f) := by
  unfold psiLineStep
  by_cases hs : HasPrefix ln "some ".toList = true
  · obtain ⟨r, hr⟩ := parsePSILine_some_of_kind ln (Or.inl hs)
    have hf := kind_prefix_exclusive ln hs
    simp only [hs, hf, hr, if_true, Option.map_some', Option.getD_some, Bool.false_eq_true,
      if_false]
  · by_cases hf : HasPrefix ln "full ".toList = true
    · obtain ⟨r, hr⟩ := parsePSILine_some_of_kind ln (Or.inr hf)
      simp only [hs, hf, hr, if_true, Option.map_some', Option.getD_some, Bool.false_eq_true,
        if_false]
    · simp only [hs, hf, Bool.false_eq_true, if_false]

/-- The loop of `readPSIFile` as two independent folds. -/
theorem psiLineStep_foldl (res : List Char) (now : Int) (lines : List (List Char)) :
    ∀ s f : PSIEvent,
      lines.foldl (psiLineStep res now) (some (s, f))
        = some
          (lines.foldl (fun a ln =>
              if HasPrefix ln "some ".toList = true then
                ((parsePSILine ln).map (fun r => mkPSIEvent res "some".toList r now)).getD a
              else a) s,
           lines.foldl (fun a ln =>
              if HasPrefix ln "full ".toList = true then
                ((parsePSILine ln).map (fun r => mkPSIEvent res "full".toList r now)).getD a
              else a) f) := by
  induction lines with
  | nil => intro s f; rfl
  | cons l rest ih =>
    intro s f
    rw [List.foldl_cons, psiLineStep_some, ih]
    rfl

/-- A fold that overwrites its value at the elements that pass a test, on a
list without such an element. -/
theorem foldl_overwrite_none {α β : Type} (p : α → Bool) (g : α → β → β) (l : List α) :
    ∀ a : β, l.filter p = [] →
      l.foldl (fun a x => if p x = true then g x a else a) a = a := by
  induction l with
  | nil => intro a _; rfl
  | cons x rest ih =>
    intro a h
    by_cases hp : p x = true
    · simp [List.filter_cons, hp] at h
    · simp only [List.filter_cons, hp] at h
      rw [List.foldl_cons, if_neg hp]
      exact ih a (by simpa using h)

/-- A fold that overwrites its value at the elements that pass a test, on a
list with one such element, whose new value does not depend on the old. -/
theorem foldl_overwrite_one {α β : Type} (p : α → Bool) (g : α → β → β) (l : List α)
    (x0 : α) (b : β) (hb : ∀ a, g x0 a = b) :
    ∀ a : β, l.filter p = [x0] →
      l.foldl (fun a x => if p x = true then g x a else a) a = b := by
  induction l with
  | nil => intro a h; simp at h
  | cons x rest ih =>
    intro a h
    by_cases hp : p x = true
    · simp only [List.filter_cons, hp, if_true] at h
      have h1 : x = x0 := (List.cons.inj h).1
      have h2 : rest.filter p = [] := (List.cons.inj h).2
      rw [List.foldl_cons, if_pos hp, foldl_overwrite_none p g rest _ h2, h1, hb]
    · simp only [List.filter_cons, hp] at h
      rw [List.foldl_cons, if_neg hp]
      exact ih a (by simpa using h)

/-- A readable file always gives `readPSIFile` a result without error. -/
theorem readPSIFile_readable (content res : List Char) (now : Int) :
    ∃ s f, readPSIFile (some content) res now = some ⟨s, f, false⟩ := by
  unfold readPSIFile
  simp only [psiLineStep_foldl]
  exact ⟨_, _, rfl⟩

/-- With one `some` line and one `full` line among the lines of the trimmed
content, `readPSIFile` returns the events of these two lines. -/
theorem readPSIFile_one_each (content res ls lf : List Char) (now : Int) (rs rf : PSILine)
    (hs : (Split (TrimSpace content) '\n').filter (fun ln => HasPrefix ln "some ".toList)
      = [ls])
    (hf : (Split (TrimSpace content) '\n').filter (fun ln => HasPrefix ln "full ".toList)
      = [lf])
    (hrs : parsePSILine ls = some rs) (hrf : parsePSILine lf = some rf) :
    readPSIFile (some content) res now
      = some ⟨mkPSIEvent res "some".toList rs now, mkPSIEvent res "full".toList rf now,
          false⟩ := by
  unfold readPSIFile
  simp only [psiLineStep_foldl]
  rw [foldl_overwrite_one (fun ln => HasPrefix ln "some ".toList)
        (fun ln a => ((parsePSILine ln).map (fun r => mkPSIEvent res "some".toList r now)).getD a)
        _ ls (mkPSIEvent res "some".toList rs now) (by intro a; simp [hrs]) _ hs,
      foldl_overwrite_one (fun ln => HasPrefix ln "full ".toList)
        (fun ln a => ((parsePSILine ln).map (fun r => mkPSIEvent res "full".toList r now)).getD a)
        _ lf (mkPSIEvent res "full".toList rf now) (by intro a; simp [hrf]) _ hf]

/-- C11. For a requested kind `some` or `full`, any requested threshold and
window, and any file content whose trimmed text has, among its lines, one
line starting with `some ` and one starting with `full `: the line of the
requested kind parses (to r, say); `readPSIFile` returns without error, and
the event the watcher builds from it has the resource name and the clock of
the read, Kind equal to the requested kind, Threshold and Window equal to the
requested values, and Avg10, Avg60, Avg300, TotalUs equal to those of r, the
parse of the line of the requested kind, not of the other line; and an
iteration of the watcher loop that meets a high-priority notification (no
cancellation, no poll error, neither POLLERR nor POLLNVAL) offers exactly
this event to the queue and goes on. -/
theorem watcher_event_construction (res kind content ls lf : List Char)
    (thrUs winUs now : Int)
    (hk : kind = "some".toList ∨ kind = "full".toList)
    (hs : (Split (TrimSpace content) '\n').filter (fun ln => HasPrefix ln "some ".toList)
      = [ls])
    (hf : (Split (TrimSpace content) '\n').filter (fun ln => HasPrefix ln "full ".toList)
      = [lf]) :
    ∃ r, parsePSILine (if kind = "full".toList then lf else ls) = some r ∧
      (∃ rd, readPSIFile (some content) res now = some rd ∧ rd.err = false ∧
        watcherEvent kind thrUs winUs rd
          = ⟨res, kind, thrUs, winUs, now, r.avg10, r.avg60, r.avg300, r.totalUs⟩) ∧
      ∀ (q : List PSIEvent) (re : Nat),
        re &&& (POLLERR ||| POLLNVAL) = 0 → re &&& POLLPRI ≠ 0 →
        watcherStep res kind thrUs winUs q ⟨false, false, re, some content, now⟩
          = some (chanSend 16 q
              ⟨res, kind, thrUs, winUs, now, r.avg10, r.avg60, r.avg300, r.totalUs⟩, true) := by
  have hls : HasPrefix ls "some ".toList = true := by
    have : ls ∈ (Split (TrimSpace content) '\n').filter
        (fun ln => HasPrefix ln "some ".toList) := by rw [hs]; exact List.mem_singleton_self _
    exact (List.mem_filter.mp this).2
  have hlf : HasPrefix lf "full ".toList = true := by
    have : lf ∈ (Split (TrimSpace content) '\n').filter
        (fun ln => HasPrefix ln "full ".toList) := by rw [hf]; exact List.mem_singleton_self _
    exact (List.mem_filter.mp this).2
  obtain ⟨rs, hrs⟩ := parsePSILine_some_of_kind ls (Or.inl hls)
  obtain ⟨rf, hrf⟩ := parsePSILine_some_of_kind lf (Or.inr hlf)
  have hread := readPSIFile_one_each content res ls lf now rs rf hs hf hrs hrf
  have hstep : ∀ (ev : PSIEvent),
      watcherEvent kind thrUs winUs
        ⟨mkPSIEvent res "some".toList rs now, mkPSIEvent res "full".toList rf now, false⟩ = ev →
      ∀ (q : List PSIEvent) (re : Nat),
        re &&& (POLLERR ||| POLLNVAL) = 0 → re &&& POLLPRI ≠ 0 →
        watcherStep res kind thrUs winUs q ⟨false, false, re, some content, now⟩
          = some (chanSend 16 q ev, true) := by
    intro ev hev q re h1 h2
    unfold watcherStep
    simp only [Bool.false_eq_true, if_false, h1, ne_eq, not_true_eq_false, h2,
      not_false_eq_true, if_true, hread, hev]
  rcases hk with hk | hk
  · subst hk
    have hev : watcherEvent "some".toList thrUs winUs
        ⟨mkPSIEvent res "some".toList rs now, mkPSIEvent res "full".toList rf now, false⟩
        = ⟨res, "some".toList, thrUs, winUs, now, rs.avg10, rs.avg60, rs.avg300, rs.totalUs⟩ :=
      rfl
    refine ⟨rs, ?_, ⟨_, hread, rfl, hev⟩, hstep _ hev⟩
    rw [if_neg (by decide)]
    exact hrs
  · subst hk
    have hev : watcherEvent "full".toList thrUs winUs
        ⟨mkPSIEvent res "some".toList rs now, mkPSIEvent res "full".toList rf now, false⟩
        = ⟨res, "full".toList, thrUs, winUs, now, rf.avg10, rf.avg60, rf.avg300, rf.totalUs⟩ :=
      rfl
    refine ⟨rf, ?_, ⟨_, hread, rfl, hev⟩, hstep _ hev⟩
    rw [if_pos rfl]
    exact hrf

theorem watcher_event_construction_witness :
    watcherStep "memory".toList "full".toList 150000 1000000 []
        ⟨false, false, 2,
          some ("some avg10=1.50 avg60=0.20 avg300=0.05 total=1234\n"
            ++ "full avg10=0.25 avg60=0.00 avg300=0.00 total=99\n").toList, 77⟩
      = some ([⟨"memory".toList, "full".toList, 150000, 1000000, 77,
          .fin false 4503599627370496 (-54), .fin false 0 (-1074), .fin false 0 (-1074),
          99⟩], true) := by
  obtain ⟨r, hr, -, hstep⟩ := watcher_event_construction "memory".toList "full".toList
    ("some avg10=1.50 avg60=0.20 avg300=0.05 total=1234\n"
      ++ "full avg10=0.25 avg60=0.00 avg300=0.00 total=99\n").toList
    "some avg10=1.50 avg60=0.20 avg300=0.05 total=1234".toList
    "full avg10=0.25 avg60=0.00 avg300=0.00 total=99".toList
    150000 1000000 77 (Or.inr rfl) (by decide) (by decide)
  have hp : parsePSILine "full avg10=0.25 avg60=0.00 avg300=0.00 total=99".toList
      = some ⟨.fin false 4503599627370496 (-54), .fin false 0 (-1074), .fin false 0 (-1074),
          99⟩ := by decide
  rw [if_pos rfl, hp] at hr
  have hr2 := (Option.some.inj hr).symm
  subst hr2
  exact hstep [] 2 (by decide) (by decide)


/-! ## C12: a failed re-read of the pressure file -/

/-- C12. A cycle in which the re-read of the pressure file fails. The poller
tick leaves the queue as it was and the loop goes on. The watcher iteration
on a high-priority notification goes on as well, but it does offer an event
to the queue: the zero event (empty resource name, clock 0, averages and
total 0) stamped with the requested kind, threshold and window; on an empty
queue this event is delivered. -/
theorem read_error_cycle (res kind : List Char) (thrUs winUs now : Int) (q : List PSIEvent) :
    pollerStep res q (.tick none now) = some (q, true) ∧
    watcherStep res kind thrUs winUs q ⟨false, false, POLLPRI, none, now⟩
      = some (chanSend 16 q
          ⟨[], kind, thrUs, winUs, 0, F64.zero, F64.zero, F64.zero, 0⟩, true) ∧
    watcherStep "memory".toList "some".toList 150000 1000000 []
        ⟨false, false, POLLPRI, none, 77⟩
      = some ([⟨[], "some".toList, 150000, 1000000, 0, F64.zero, F64.zero, F64.zero, 0⟩],
          true) := by
  refine ⟨rfl, ?_, by decide⟩
  have hev : watcherEvent kind thrUs winUs ⟨PSIEvent.zero, PSIEvent.zero, true⟩
      = ⟨[], kind, thrUs, winUs, 0, F64.zero, F64.zero, F64.zero, 0⟩ := by
    unfold watcherEvent
    by_cases hk : kind = "full".toList
    · rw [if_pos hk]; rfl
    · rw [if_neg hk]; rfl
  have h1 : POLLPRI &&& (POLLERR ||| POLLNVAL) = 0 := by decide
  have h2 : POLLPRI &&& POLLPRI ≠ 0 := by decide
  unfold watcherStep readPSIFile
  simp only [Bool.false_eq_true, if_false, h1, ne_eq, not_true_eq_false, h2,
    not_false_eq_true, if_true, hev]


/-! ## C13: the classification of a counter line -/

/-- An event name that contains `instructions` without being equal to it,
such as `instructions:u` (a modifier) or `cpu_core/instructions/` (a named
unit), is not classified. After a line `LLC-loads` = 100, the non-skipped
line `instructions:u` = 5 leaves every accumulator and flag as it was (loads
100 with its flag, the instruction count 0 without its flag) and offers no
sample, whereas the line `instructions` = 5 sets the instruction count and
flushes a cache sample. -/
theorem classify_instructions_substring :
    Contains "instructions:u".toList "instructions".toList = true ∧
    skipLine "1.000,5,,instructions:u,1,100.00,,".toList = false ∧
    lineEvent "1.000,5,,instructions:u,1,100.00,,".toList = "instructions:u".toList ∧
    lineValue "1.000,5,,instructions:u,1,100.00,,".toList = "5".toList ∧
    ParseUint "5".toList = (5, none) ∧
    classify { PerfState.init with loads := 100, haveL := true }
        "instructions:u".toList "5".toList
      = { PerfState.init with loads := 100, haveL := true } ∧
    perfStep (intervalSec 1000000000) { PerfState.init with loads := 100, haveL := true }
        "1.000,5,,instructions:u,1,100.00,,".toList 1 2
      = ({ PerfState.init with loads := 100, haveL := true }, ⟨none, none⟩) ∧
    classify { PerfState.init with loads := 100, haveL := true }
        "instructions".toList "5".toList
      = { PerfState.init with loads := 100, haveL := true, instr := 5, haveI_ := true } ∧
    (perfStep (intervalSec 1000000000) { PerfState.init with loads := 100, haveL := true }
        "1.000,5,,instructions,1,100.00,,".toList 1 2).1 = PerfState.init ∧
    ((perfStep (intervalSec 1000000000) { PerfState.init with loads := 100, haveL := true }
        "1.000,5,,instructions,1,100.00,,".toList 1 2).2.llc.map (fun s => s.Instr)) = some 5 ∧
    Contains "cpu_core/instructions/".toList "instructions".toList = true ∧
    classify { PerfState.init with loads := 100, haveL := true }
        "cpu_core/instructions/".toList "5".toList
      = { PerfState.init with loads := 100, haveL := true } := by
  decide

/-- C13. The classification of a non-skipped line is the first matching test
of the chain, on the event name ev and the value string: with a value that
`ParseUint` accepts as v, a name containing `LLC-loads` adds v (modulo 2^64)
to loads; otherwise a name containing `LLC-load-misses` adds v to
load-misses; otherwise a name containing `LLC-stores` adds v to stores;
otherwise a name containing `LLC-store-misses` adds v to store-misses; and
the name equal to `instructions` sets the instruction count to v. With a
value that `ParseFloat` accepts as x, a name matching none of these and
containing `cas_count_rd` or `cas_count_read` sets the read count to x, and
otherwise a name containing `cas_count_wr` or `cas_count_write` sets the
write count to x. In each case exactly that accumulator and its presence
flag change. A name that matches none of the seven tests changes nothing,
whatever the state and the value, and so does a value that neither parser
accepts, whatever the name; so it is for the names `instructions:u`
and `cpu_core/instructions/`, which contain `instructions` but are not equal
to it: the instruction count stays unset. Each of the seven names of
`DefaultConfig` updates exactly its own counter. The state so obtained is
the one the flush check then sees. -/
theorem classify_first_match (st : PerfState) (ev valStr : List Char) :
    (∀ v, ParseUint valStr = (v, none) →
      (Contains ev "LLC-loads".toList = true →
        classify st ev valStr
          = { st with loads := (st.loads + v) % 2 ^ 64, haveL := true }) ∧
      (Contains ev "LLC-loads".toList = false →
        Contains ev "LLC-load-misses".toList = true →
        classify st ev valStr
          = { st with lmiss := (st.lmiss + v) % 2 ^ 64, haveLM := true }) ∧
      (Contains ev "LLC-loads".toList = false →
        Contains ev "LLC-load-misses".toList = false →
        Contains ev "LLC-stores".toList = true →
        classify st ev valStr
          = { st with stores := (st.stores + v) % 2 ^ 64, haveS := true }) ∧
      (Contains ev "LLC-loads".toList = false →
        Contains ev "LLC-load-misses".toList = false →
        Contains ev "LLC-stores".toList = false →
        Contains ev "LLC-store-misses".toList = true →
        classify st ev valStr
          = { st with smiss := (st.smiss + v) % 2 ^ 64, haveSM := true }) ∧
      (ev = "instructions".toList →
        classify st ev valStr = { st with instr := v, haveI_ := true })) ∧
    (∀ x, ParseFloat valStr = (x, none) →
      Contains ev "LLC-loads".toList = false →
      Contains ev "LLC-load-misses".toList = false →
      Contains ev "LLC-stores".toList = false →
      Contains ev "LLC-store-misses".toList = false →
      ev ≠ "instructions".toList →
      (((Contains ev "cas_count_rd".toList || Contains ev "cas_count_read".toList) = true →
        classify st ev valStr = { st with rd := x, haveRD := true }) ∧
       ((Contains ev "cas_count_rd".toList || Contains ev "cas_count_read".toList) = false →
        (Contains ev "cas_count_wr".toList || Contains ev "cas_count_write".toList) = true →
        classify st ev valStr = { st with wr := x, haveWR := true }))) ∧
    (Contains ev "LLC-loads".toList = false →
      Contains ev "LLC-load-misses".toList = false →
      Contains ev "LLC-stores".toList = false →
      Contains ev "LLC-store-misses".toList = false →
      ev ≠ "instructions".toList →
      (Contains ev "cas_count_rd".toList || Contains ev "cas_count_read".toList) = false →
      (Contains ev "cas_count_wr".toList || Contains ev "cas_count_write".toList) = false →
      classify st ev valStr = st) ∧
    (Contains "instructions:u".toList "instructions".toList = true ∧
      classify st "instructions:u".toList valStr = st ∧
      Contains "cpu_core/instructions/".toList "instructions".toList = true ∧
      classify st "cpu_core/instructions/".toList valStr = st) ∧
    (DefaultConfigEvents
        = ["LLC-loads".toList, "LLC-load-misses".toList, "LLC-stores".toList,
            "LLC-store-misses".toList, "instructions".toList, "unc_m_cas_count_rd".toList,
            "unc_m_cas_count_wr".toList] ∧
      (∀ v, ParseUint valStr = (v, none) →
        classify st "LLC-loads".toList valStr
          = { st with loads := (st.loads + v) % 2 ^ 64, haveL := true } ∧
        classify st "LLC-load-misses".toList valStr
          = { st with lmiss := (st.lmiss + v) % 2 ^ 64, haveLM := true } ∧
        classify st "LLC-stores".toList valStr
          = { st with stores := (st.stores + v) % 2 ^ 64, haveS := true } ∧
        classify st "LLC-store-misses".toList valStr
          = { st with smiss := (st.smiss + v) % 2 ^ 64, haveSM := true } ∧
        classify st "instructions".toList valStr = { st with instr := v, haveI_ := true }) ∧
      (∀ x, ParseFloat valStr = (x, none) →
        classify st "unc_m_cas_count_rd".toList valStr = { st with rd := x, haveRD := true } ∧
        classify st "unc_m_cas_count_wr".toList valStr
          = { st with wr := x, haveWR := true })) ∧
    (∀ (sec : F64) (text : List Char) (nowL nowM : Int), skipLine text = false →
      perfStep sec st text nowL nowM
        = flush sec (classify st (lineEvent text) (lineValue text)) nowL nowM) ∧
    ((ParseUint valStr).2 ≠ none → (ParseFloat valStr).2 ≠ none →
      classify st ev valStr = st) := by
  have chainU : ∀ (e : List Char) (v : Nat), ParseUint valStr = (v, none) →
      (Contains e "LLC-loads".toList = true →
        classify st e valStr
          = { st with loads := (st.loads + v) % 2 ^ 64, haveL := true }) ∧
      (Contains e "LLC-loads".toList = false →
        Contains e "LLC-load-misses".toList = true →
        classify st e valStr
          = { st with lmiss := (st.lmiss + v) % 2 ^ 64, haveLM := true }) ∧
      (Contains e "LLC-loads".toList = false →
        Contains e "LLC-load-misses".toList = false →
        Contains e "LLC-stores".toList = true →
        classify st e valStr
          = { st with stores := (st.stores + v) % 2 ^ 64, haveS := true }) ∧
      (Contains e "LLC-loads".toList = false →
        Contains e "LLC-load-misses".toList = false →
        Contains e "LLC-stores".toList = false →
        Contains e "LLC-store-misses".toList = true →
        classify st e valStr
          = { st with smiss := (st.smiss + v) % 2 ^ 64, haveSM := true }) ∧
      (e = "instructions".toList →
        classify st e valStr = { st with instr := v, haveI_ := true }) := by
    intro e v hv
    refine ⟨?_, ?_, ?_, ?_, ?_⟩
    · intro h1
      unfold classify
      rw [if_pos h1, hv]
    · intro h1 h2
      unfold classify
      rw [h1, h2, hv]
      simp
    · intro h1 h2 h3
      unfold classify
      rw [h1, h2, h3, hv]
      simp
    · intro h1 h2 h3 h4
      unfold classify
      rw [h1, h2, h3, h4, hv]
      simp
    · intro he
      subst he
      have h1 : Contains "instructions".toList "LLC-loads".toList = false := by decide
      have h2 : Contains "instructions".toList "LLC-load-misses".toList = false := by decide
      have h3 : Contains "instructions".toList "LLC-stores".toList = false := by decide
      have h4 : Contains "instructions".toList "LLC-store-misses".toList = false := by decide
      unfold classify
      rw [h1, h2, h3, h4, hv]
      simp
  have chainF : ∀ (e : List Char) (x : F64), ParseFloat valStr = (x, none) →
      Contains e "LLC-loads".toList = false →
      Contains e "LLC-load-misses".toList = false →
      Contains e "LLC-stores".toList = false →
      Contains e "LLC-store-misses".toList = false →
      e ≠ "instructions".toList →
      (((Contains e "cas_count_rd".toList || Contains e "cas_count_read".toList) = true →
        classify st e valStr = { st with rd := x, haveRD := true }) ∧
       ((Contains e "cas_count_rd".toList || Contains e "cas_count_read".toList) = false →
        (Contains e "cas_count_wr".toList || Contains e "cas_count_write".toList) = true →
        classify st e valStr = { st with wr := x, haveWR := true })) := by
    intro e x hx h1 h2 h3 h4 h5
    constructor
    · intro h6
      unfold classify
      rw [h1, h2, h3, h4, if_neg h5, if_pos h6, hx]
      simp
    · intro h6 h7
      unfold classify
      rw [h1, h2, h3, h4, if_neg h5, h6, if_pos h7, hx]
      simp
  have chainN : ∀ e : List Char,
      Contains e "LLC-loads".toList = false →
      Contains e "LLC-load-misses".toList = false →
      Contains e "LLC-stores".toList = false →
      Contains e "LLC-store-misses".toList = false →
      e ≠ "instructions".toList →
      (Contains e "cas_count_rd".toList || Contains e "cas_count_read".toList) = false →
      (Contains e "cas_count_wr".toList || Contains e "cas_count_write".toList) = false →
      classify st e valStr = st := by
    intro e h1 h2 h3 h4 h5 h6 h7
    unfold classify
    rw [h1, h2, h3, h4, if_neg h5, h6, h7]
    simp
  refine ⟨chainU ev, chainF ev, chainN ev,
    ⟨by decide, chainN _ (by decide) (by decide) (by decide) (by decide) (by decide)
        (by decide) (by decide),
      by decide, chainN _ (by decide) (by decide) (by decide) (by decide) (by decide)
        (by decide) (by decide)⟩,
    ⟨rfl, ?_, ?_⟩, ?_, ?_⟩
  · intro v hv
    exact ⟨(chainU _ v hv).1 (by decide),
      (chainU _ v hv).2.1 (by decide) (by decide),
      (chainU _ v hv).2.2.1 (by decide) (by decide) (by decide),
      (chainU _ v hv).2.2.2.1 (by decide) (by decide) (by decide) (by decide),
      (chainU _ v hv).2.2.2.2 rfl⟩
  · intro x hx
    exact ⟨(chainF _ x hx (by decide) (by decide) (by decide) (by decide) (by decide)).1
        (by decide),
      (chainF _ x hx (by decide) (by decide) (by decide) (by decide) (by decide)).2
        (by decide) (by decide)⟩
  · intro sec text nowL nowM hskip
    unfold perfStep
    rw [hskip]
    rfl
  · intro hu hf
    obtain ⟨v, eu, hv⟩ : ∃ v eu, ParseUint valStr = (v, some eu) := by
      cases h : ParseUint valStr with
      | mk v e =>
        cases e with
        | none => rw [h] at hu; exact absurd rfl hu
        | some eu => exact ⟨v, eu, rfl⟩
    obtain ⟨x, ef, hx⟩ : ∃ x ef, ParseFloat valStr = (x, some ef) := by
      cases h : ParseFloat valStr with
      | mk x e =>
        cases e with
        | none => rw [h] at hf; exact absurd rfl hf
        | some ef => exact ⟨x, ef, rfl⟩
    unfold classify
    rw [hv, hx]
    split_ifs <;> rfl

theorem classify_first_match_witness :
    classify PerfState.init "cpu_core/LLC-load-misses/".toList "15".toList
      = { PerfState.init with lmiss := 15, haveLM := true } ∧
    classify PerfState.init "instructions".toList "100000".toList
      = { PerfState.init with instr := 100000, haveI_ := true } ∧
    classify PerfState.init "uncore_imc_0/cas_count_write/".toList "2.50".toList
      = { PerfState.init with wr := .fin false 5629499534213120 (-51), haveWR := true } ∧
    classify { PerfState.init with loads := 100, haveL := true } "cycles".toList "7".toList
      = { PerfState.init with loads := 100, haveL := true } ∧
    perfStep (intervalSec 1000000000) PerfState.init
        "1.000,15,,LLC-load-misses,1,100.00,,".toList 1 2
      = flush (intervalSec 1000000000)
          (classify PerfState.init "LLC-load-misses".toList "15".toList) 1 2 :=
  ⟨((classify_first_match PerfState.init "cpu_core/LLC-load-misses/".toList
      "15".toList).1 15 (by decide)).2.1 (by decide) (by decide),
   ((classify_first_match PerfState.init "instructions".toList
      "100000".toList).1 100000 (by decide)).2.2.2.2 rfl,
   ((classify_first_match PerfState.init "uncore_imc_0/cas_count_write/".toList
      "2.50".toList).2.1 (.fin false 5629499534213120 (-51)) (by decide)
      (by decide) (by decide) (by decide) (by decide) (by decide)).2 (by decide) (by decide),
   (classify_first_match { PerfState.init with loads := 100, haveL := true } "cycles".toList
      "7".toList).2.2.1 (by decide) (by decide) (by decide) (by decide) (by decide)
      (by decide) (by decide),
   (classify_first_match PerfState.init [] []).2.2.2.2.2.1 (intervalSec 1000000000)
      "1.000,15,,LLC-load-misses,1,100.00,,".toList 1 2 (by decide)⟩


/-! ## C14: `parts[1:]` inside `readPSIFile` -/

/-- A text of white space only has no field. -/
theorem fieldsAux_all_space (s : List Char) (h : s.all isSpace = true) : fieldsAux s [] = [] := by
  induction s with
  | nil => rfl
  | cons c cs ih =>
    rw [List.all_cons, Bool.and_eq_true] at h
    rw [fieldsAux, if_pos h.1]
    simpa using ih h.2

/-- C14. For every file content, resource name and clock, `readPSIFile` on a
readable file returns a result (two events and no error), and on an
unreadable file the two zero events and the error. Every line handed to
`parsePSILine` by the loop, that is every line starting with `some ` or
`full `, has at least one field, so `parts[1:]` is in range and the parse
returns; no iteration of the loop panics. On its own `parsePSILine` is not
total: on a line without a field, such as the empty line or a line of white
space only, the slice is out of range. -/
theorem readPSIFile_in_bounds :
    (∀ (content res : List Char) (now : Int),
      ∃ s f, readPSIFile (some content) res now = some ⟨s, f, false⟩) ∧
    (∀ (res : List Char) (now : Int),
      readPSIFile none res now = some ⟨PSIEvent.zero, PSIEvent.zero, true⟩) ∧
    (∀ line : List Char,
      HasPrefix line "some ".toList = true ∨ HasPrefix line "full ".toList = true →
      Fields line ≠ [] ∧ ∃ r, parsePSILine line = some r) ∧
    (∀ (res : List Char) (now : Int) (s f : PSIEvent) (ln : List Char),
      psiLineStep res now (some (s, f)) ln ≠ none) ∧
    parsePSILine [] = none ∧
    (∀ line : List Char, line.all isSpace = true →
      Fields line = [] ∧ parsePSILine line = none) := by
  refine ⟨readPSIFile_readable, fun _ _ => rfl, ?_, ?_, rfl, ?_⟩
  · intro line h
    exact ⟨Fields_ne_nil_of_kind line h, parsePSILine_some_of_kind line h⟩
  · intro res now s f ln
    rw [psiLineStep_some]
    exact Option.some_ne_none _
  · intro line h
    have hf : Fields line = [] := fieldsAux_all_space line h
    refine ⟨hf, ?_⟩
    unfold parsePSILine
    rw [hf]

theorem readPSIFile_in_bounds_witness :
    (Fields "some ".toList ≠ [] ∧ ∃ r, parsePSILine "some ".toList = some r) ∧
    (Fields " \t ".toList = [] ∧ parsePSILine " \t ".toList = none) :=
  ⟨readPSIFile_in_bounds.2.2.1 "some ".toList (Or.inl (by decide)),
   readPSIFile_in_bounds.2.2.2.2.2 " \t ".toList (by decide)⟩
